import Mathlib

/-!
# Intrusive reference counting (`ptr.h`): a shallow embedding

The counters of `refc<T>` / `refc_weak_base<T>` are `std::atomic<unsigned long>`;
they are modelled as natural numbers below `2 ^ 64` with wrap-around on every
`fetch_add` / `fetch_sub`.  The embedding is sequential: one atomic action at a
time, no interleaving inside an action.

What the payload destructor and the deallocation function do is recorded in a
per-object log, so that "runs once" and "runs before" become statements about
that log.
-/

namespace Refc

/-! ## Counters -/

/-- Number of values of an `unsigned long` counter (LP64). -/
def ULONG_MOD : Nat := 2 ^ 64

/-- `std::atomic<unsigned long>::fetch_add(1, _)`: the value before, the value after. -/
def fetch_add (c : Nat) : Nat × Nat := (c, (c + 1) % ULONG_MOD)

/-- `std::atomic<unsigned long>::fetch_sub(1, _)`: the value before, the value after. -/
def fetch_sub (c : Nat) : Nat × Nat := (c, (c + ULONG_MOD - 1) % ULONG_MOD)

/-- `compare_exchange_weak(expected, desired, _)` on a counter holding `cur`.
The result is (success, counter afterwards, `expected` afterwards); the weak form
may fail although the values agree, which is what `spurious` stands for. -/
def compare_exchange_weak (cur expected desired : Nat) (spurious : Bool) : Bool × Nat × Nat :=
  if cur = expected ∧ spurious = false then (true, desired, expected) else (false, cur, cur)

/-! ## Objects -/

/-- The two destructive actions of the policies. -/
inductive Event where
  /-- the payload destructor ran (`std::destroy_at`, or the destructor half of `delete`) -/
  | destroyed
  /-- the storage was handed back (`::operator delete`, or the second half of `delete`) -/
  | deallocated
deriving DecidableEq, Repr

/-- A reference counted object: `refc<T>::rc`, `refc_weak_base<T>::weak_rc`, and the
log of destructive actions performed on it so far (oldest first).  An object of a
strong-only type carries `weak_rc` too; its policy never touches it. -/
structure Obj where
  rc : Nat
  weak_rc : Nat
  log : List Event
deriving DecidableEq, Repr

/-- A freshly allocated object: `rc{ 0 }`, `weak_rc{ 0 }`, nothing destroyed. -/
def Obj.fresh : Obj := { rc := 0, weak_rc := 0, log := [] }

/-- `refc<T>::refcount()`. -/
def Obj.refcount (o : Obj) : Nat := o.rc

/-- How many times the payload destructor has run. -/
def Obj.dtor_runs (o : Obj) : Nat := o.log.count Event.destroyed

/-- How many times the storage has been freed. -/
def Obj.frees (o : Obj) : Nat := o.log.count Event.deallocated

/-- `std::destroy_at(x)`: the payload destructor runs, storage and counters stay. -/
def Obj.destroy_at (o : Obj) : Obj := { o with log := o.log ++ [Event.destroyed] }

/-- `::operator delete(x)`: the storage is freed, no destructor call. -/
def Obj.operator_delete (o : Obj) : Obj := { o with log := o.log ++ [Event.deallocated] }

/-- `delete p`: destructor, then deallocation. -/
def Obj.delete (o : Obj) : Obj := o.destroy_at.operator_delete

/-! ## `refc<T>::refc_policy` (strong-only) -/

namespace refc_policy

/-- `refc_policy::add_ref`: `return p->rc.fetch_add(1, relaxed)`. -/
def add_ref (p : Obj) : Nat × Obj :=
  ((fetch_add p.rc).1, { p with rc := (fetch_add p.rc).2 })

/-- `refc_policy::release`: `if (p->rc.fetch_sub(1, release) == 1) { fence; delete p; }`. -/
def release (p : Obj) : Obj :=
  let prev := (fetch_sub p.rc).1
  let p1 : Obj := { p with rc := (fetch_sub p.rc).2 }
  if prev = 1 then p1.delete else p1

end refc_policy

/-! ## `refc_weak_base<T>::weak_refc_policy` -/

namespace weak_refc_policy

/-- `weak_refc_policy::add_ref`: `return x->weak_rc.fetch_add(1, relaxed)`. -/
def add_ref (x : Obj) : Nat × Obj :=
  ((fetch_add x.weak_rc).1, { x with weak_rc := (fetch_add x.weak_rc).2 })

/-- `weak_refc_policy::release`:
`if (x->weak_rc.fetch_sub(1, release) == 1) ::operator delete(x);`. -/
def release (x : Obj) : Obj :=
  let prev := (fetch_sub x.weak_rc).1
  let x1 : Obj := { x with weak_rc := (fetch_sub x.weak_rc).2 }
  if prev = 1 then x1.operator_delete else x1

end weak_refc_policy

/-! ## `refc_weak_base<T>::strong_refc_policy` -/

namespace strong_refc_policy

/-- `strong_refc_policy::add_ref`: `weak_rc.fetch_add(1)`, then `return rc.fetch_add(1)`. -/
def add_ref (x : Obj) : Nat × Obj :=
  let x1 : Obj := { x with weak_rc := (fetch_add x.weak_rc).2 }
  ((fetch_add x1.rc).1, { x1 with rc := (fetch_add x1.rc).2 })

/-- The states of the object after each counter update of `add_ref`. -/
def add_ref_states (x : Obj) : List Obj :=
  let x1 : Obj := { x with weak_rc := (fetch_add x.weak_rc).2 }
  [x1, { x1 with rc := (fetch_add x1.rc).2 }]

/-- The loop `while (r > 0) { if (rc.compare_exchange_weak(r, r + 1)) return r; }` of
`try_ref` followed by the exit path `weak_rc.fetch_sub(1); return r;`.
`x` already has its weak count raised and `r` is the value last read from `rc`.
`spurious` is the number of spurious failures the weak compare-exchange still
produces.  The result is the returned value and the object afterwards. -/
def try_ref_loop (x : Obj) : Nat → Nat → Nat × Obj
  | 0, r =>
    if 0 < r then
      match compare_exchange_weak x.rc r ((r + 1) % ULONG_MOD) false with
      | (true, v, _) => (r, { x with rc := v })
      | (false, _, r1) =>
        -- only when another thread changed `rc` since it was read: one more round
        if 0 < r1 then (r1, { x with rc := (r1 + 1) % ULONG_MOD })
        else (r1, { x with weak_rc := (fetch_sub x.weak_rc).2 })
    else (r, { x with weak_rc := (fetch_sub x.weak_rc).2 })
  | n + 1, r =>
    if 0 < r then
      match compare_exchange_weak x.rc r ((r + 1) % ULONG_MOD) true with
      | (true, v, _) => (r, { x with rc := v })
      | (false, _, r1) => try_ref_loop x n r1
    else (r, { x with weak_rc := (fetch_sub x.weak_rc).2 })

/-- `strong_refc_policy::try_ref`: raise `weak_rc`, read `rc`, run the loop.
The returned value is `0` exactly when the upgrade failed. -/
def try_ref (spurious : Nat) (x : Obj) : Nat × Obj :=
  let x1 : Obj := { x with weak_rc := (fetch_add x.weak_rc).2 }
  let r := x1.rc
  try_ref_loop x1 spurious r

/-- The states of the object after each counter update of `try_ref`: the weak
increment, then either the successful compare-exchange or the weak decrement. -/
def try_ref_states (spurious : Nat) (x : Obj) : List Obj :=
  let x1 : Obj := { x with weak_rc := (fetch_add x.weak_rc).2 }
  [x1, (try_ref_loop x1 spurious x1.rc).2]

/-- `strong_refc_policy::release`:
`if (rc.fetch_sub(1, release) == 1) { fence(acquire); std::destroy_at(x); }`
`if (weak_rc.fetch_sub(1, release) == 1) ::operator delete(x);`. -/
def release (x : Obj) : Obj :=
  let prev := (fetch_sub x.rc).1
  let x1 : Obj := { x with rc := (fetch_sub x.rc).2 }
  let x2 : Obj := if prev = 1 then x1.destroy_at else x1
  let wprev := (fetch_sub x2.weak_rc).1
  let x3 : Obj := { x2 with weak_rc := (fetch_sub x2.weak_rc).2 }
  if wprev = 1 then x3.operator_delete else x3

/-- The states of the object after each counter update of `release` (each state
includes the destructive action, if any, that follows the update). -/
def release_states (x : Obj) : List Obj :=
  let prev := (fetch_sub x.rc).1
  let x1 : Obj := { x with rc := (fetch_sub x.rc).2 }
  let x2 : Obj := if prev = 1 then x1.destroy_at else x1
  [x2, release x]

end strong_refc_policy

/-! ## Handles -/

/-- Selects the base class of the pointee: `refc<T>` (strong-only) or
`refc_weak_base<T>` (strong and weak). -/
inductive Base where
  | refc
  | refc_weak_base
deriving DecidableEq, Repr

/-- A reference counting policy as `refc_ptr` uses it: `Policy::add_ref`, `Policy::release`. -/
structure Policy where
  add_ref : Obj → Nat × Obj
  release : Obj → Obj

/-- `T::policy_type`: `refc_policy` for `refc<T>`, `strong_refc_policy` for `refc_weak_base<T>`. -/
def Base.policy_type : Base → Policy
  | Base.refc => { add_ref := refc_policy.add_ref, release := refc_policy.release }
  | Base.refc_weak_base =>
    { add_ref := strong_refc_policy.add_ref, release := strong_refc_policy.release }

/-- The objects by address.  Address `0` is `nullptr`; no operation touches it. -/
abbrev Heap := Nat → Obj

/-- The heap with the object at address `a` replaced. -/
def Heap.set (h : Heap) (a : Nat) (o : Obj) : Heap := fun b => if b = a then o else h b

/-- The heap in which every address holds a freshly allocated object. -/
def Heap.fresh : Heap := fun _ => Obj.fresh

namespace refc_ptr

/-- `refc_ptr(T *p, bool ref = true)`: `ptr(p)`, then `if (p && ref) policy::add_ref(p)`.
The result is the new handle's `ptr` and the heap. -/
def ctor (P : Policy) (p : Nat) (ref : Bool) (h : Heap) : Nat × Heap :=
  if p ≠ 0 ∧ ref = true then (p, Heap.set h p (P.add_ref (h p)).2) else (p, h)

/-- `refc_ptr(const refc_ptr &o)`: `ptr(o.ptr)`, then `if (o) policy::add_ref(ptr)`. -/
def copy (P : Policy) (o : Nat) (h : Heap) : Nat × Heap :=
  if o ≠ 0 then (o, Heap.set h o (P.add_ref (h o)).2) else (o, h)

/-- `refc_ptr(refc_ptr &&o)`: `ptr(o.ptr)`, `o.ptr = nullptr`.  The result is the new
handle's `ptr` and the source's `ptr`. -/
def move (o : Nat) : Nat × Nat := (o, 0)

/-- `~refc_ptr()`: `if (ptr) policy::release(ptr)`. -/
def dtor (P : Policy) (ptr : Nat) (h : Heap) : Heap :=
  if ptr ≠ 0 then Heap.set h ptr (P.release (h ptr)) else h

/-- `swap(refc_ptr &rhs)`: `std::swap(ptr, rhs.ptr)`; the result is (`ptr`, `rhs.ptr`). -/
def swap (ptr rhs : Nat) : Nat × Nat := (rhs, ptr)

/-- `detach()`: returns `ptr` and clears it; the result is (returned value, `ptr`). -/
def detach (ptr : Nat) : Nat × Nat := (ptr, 0)

/-- `explicit operator bool()`. -/
def toBool (ptr : Nat) : Bool := decide (ptr ≠ 0)

/-- `get()`: the address held. -/
def get (ptr : Nat) : Nat := ptr

/-- `operator==(const refc_ptr<T> &a, const refc_ptr<U> &b)`: `a.get() == b.get()`. -/
def eq (a b : Nat) : Bool := decide (get a = get b)

/-- `operator!=(refc_ptr<T> const &a, refc_ptr<T> const &b)`: `a.get() != b.get()`. -/
def ne (a b : Nat) : Bool := decide (get a ≠ get b)

/-- `operator<(refc_ptr<T> const &a, refc_ptr<T> const &b)`: `a.get() < b.get()`, the
built-in comparison of the two addresses. -/
def lt (a b : Nat) : Bool := decide (get a < get b)

/-- `template <typename U, ...> refc_ptr(const refc_ptr<U> &o)`, the converting
constructor (enabled when `U *` converts to `T *`):
`ptr = o.get(); if (ptr) policy::add_ref(ptr);`. -/
def conv_copy (P : Policy) (o : Nat) (h : Heap) : Nat × Heap :=
  let ptr := get o
  if ptr ≠ 0 then (ptr, Heap.set h ptr (P.add_ref (h ptr)).2) else (ptr, h)

/-- `refc_ptr<T> t(std::move(u))` for `u` a `refc_ptr<U>` with `U` another type than `T`.
The class has no constructor taking `refc_ptr<U> &&`; the constructor that accepts
the argument is the converting `refc_ptr(const refc_ptr<U> &)`, which binds `u` by
const reference, so `u.ptr` stays as it is.  The result is the new handle's `ptr`,
the source's `ptr` and the heap. -/
def conv_move (P : Policy) (u : Nat) (h : Heap) : Nat × Nat × Heap :=
  let t := conv_copy P u h
  (t.1, u, t.2)

/-- `template <class U> operator=(refc_ptr<U> &&rhs)` for `U` another type than `T`:
`refc_ptr(std::move(rhs)).swap(*this); return *this;`, then the temporary is
destroyed.  The result is `ptr`, `rhs.ptr` and the heap. -/
def conv_move_assign (P : Policy) (ptr rhs : Nat) (h : Heap) : Nat × Nat × Heap :=
  let tmp := conv_move P rhs h
  let sw := swap tmp.1 ptr
  (sw.2, tmp.2.1, dtor P sw.1 tmp.2.2)

/-- The handle and the heap after each step of `operator=(const refc_ptr &rhs)`, that
is of `refc_ptr(rhs).swap(*this)`: the temporary is constructed, the two are
swapped, the temporary is destroyed. -/
def assign_states (P : Policy) (ptr rhs : Nat) (h : Heap) : List (Nat × Heap) :=
  let tmp := copy P rhs h
  let sw := swap tmp.1 ptr
  [(ptr, tmp.2), (sw.2, tmp.2), (sw.2, dtor P sw.1 tmp.2)]

/-- The handle and the heap after each step of `reset(T *to, bool add_ref = true)`,
that is of `refc_ptr(to, add_ref).swap(*this)`: the temporary is constructed, the
two are swapped, the temporary is destroyed. -/
def reset_states (P : Policy) (ptr to_ : Nat) (add_ref : Bool) (h : Heap) : List (Nat × Heap) :=
  let tmp := ctor P to_ add_ref h
  let sw := swap tmp.1 ptr
  [(ptr, tmp.2), (sw.2, tmp.2), (sw.2, dtor P sw.1 tmp.2)]

end refc_ptr

namespace refc_weak_ptr

/-- `refc_weak_ptr(const refc_ptr<T> &o)`: `if (o) { ptr = o.get(); weak_policy::add_ref(ptr); }`,
and equally `refc_weak_ptr(const refc_weak_ptr &o)`. -/
def ctor (o : Nat) (h : Heap) : Nat × Heap :=
  if o ≠ 0 then (o, Heap.set h o (weak_refc_policy.add_ref (h o)).2) else (0, h)

/-- `refc_weak_ptr(refc_weak_ptr &&o)`: `ptr = o.ptr; o.ptr = nullptr`. -/
def move (o : Nat) : Nat × Nat := (o, 0)

/-- `~refc_weak_ptr()`: `if (ptr) weak_policy::release(ptr)`. -/
def dtor (ptr : Nat) (h : Heap) : Heap :=
  if ptr ≠ 0 then Heap.set h ptr (weak_refc_policy.release (h ptr)) else h

/-- `lock()`: `if (!ptr) return {}; auto c = policy::try_ref(ptr); if (c == 0) return {};`
`return refc_ptr<T>(ptr, false);`.  The result is the returned handle's `ptr` and the heap. -/
def lock (spurious : Nat) (ptr : Nat) (h : Heap) : Nat × Heap :=
  if ptr = 0 then (0, h)
  else
    let c := strong_refc_policy.try_ref spurious (h ptr)
    let h1 := Heap.set h ptr c.2
    if c.1 = 0 then (0, h1)
    else refc_ptr.ctor Base.refc_weak_base.policy_type ptr false h1

end refc_weak_ptr

/-! ## Pointer casts and `shared_from_this` -/

namespace std

/-- `static_cast<T *>(p)` between related types, on the address of the object.  An
object is identified by its address here; an adjustment of the address for a base
sub-object is not modelled. -/
def static_cast (p : Nat) : Nat := p

/-- `const_cast<T *>(p)`. -/
def const_cast (p : Nat) : Nat := p

/-- `dynamic_cast<T *>(p)`: `p` when it is non-null and the dynamic type of the object
is `T` or derived from it (`is_T p`), the null address otherwise. -/
def dynamic_cast (is_T : Nat → Bool) (p : Nat) : Nat := if p ≠ 0 ∧ is_T p = true then p else 0

/-- `static_pointer_cast(refc_ptr<U> const &p)`: `return static_cast<T *>(p.get());`.
The returned handle is built from the address by `refc_ptr(T *p, bool ref = true)`.
The result is the returned handle's `ptr` and the heap. -/
def static_pointer_cast (P : Policy) (p : Nat) (h : Heap) : Nat × Heap :=
  refc_ptr.ctor P (static_cast (refc_ptr.get p)) true h

/-- `const_pointer_cast(refc_ptr<U> const &p)`: `return const_cast<T *>(p.get());`. -/
def const_pointer_cast (P : Policy) (p : Nat) (h : Heap) : Nat × Heap :=
  refc_ptr.ctor P (const_cast (refc_ptr.get p)) true h

/-- `dynamic_pointer_cast(refc_ptr<U> const &p)`: `return dynamic_cast<T *>(p.get());`. -/
def dynamic_pointer_cast (P : Policy) (is_T : Nat → Bool) (p : Nat) (h : Heap) : Nat × Heap :=
  refc_ptr.ctor P (dynamic_cast is_T (refc_ptr.get p)) true h

/-- `static_pointer_cast(refc_ptr<U> &&p)`:
`return refc_ptr<T>(static_cast<T *>(p.detach()), false);`.
The result is the returned handle's `ptr`, `p.ptr` afterwards, and the heap. -/
def static_pointer_cast_move (P : Policy) (p : Nat) (h : Heap) : Nat × Nat × Heap :=
  let d := refc_ptr.detach p
  let r := refc_ptr.ctor P (static_cast d.1) false h
  (r.1, d.2, r.2)

/-- `const_pointer_cast(refc_ptr<U> &&p)`:
`return refc_ptr<T>(const_cast<T *>(p.detach()), false);`. -/
def const_pointer_cast_move (P : Policy) (p : Nat) (h : Heap) : Nat × Nat × Heap :=
  let d := refc_ptr.detach p
  let r := refc_ptr.ctor P (const_cast d.1) false h
  (r.1, d.2, r.2)

/-- `dynamic_pointer_cast(refc_ptr<U> &&p)`:
`T *p2 = dynamic_cast<T *>(p.get()); refc_ptr<T> r(p2, false); if (p2) p.detach();`
`return r;`.  The result is the returned handle's `ptr`, `p.ptr` afterwards, and the
heap. -/
def dynamic_pointer_cast_move (P : Policy) (is_T : Nat → Bool) (p : Nat) (h : Heap) :
    Nat × Nat × Heap :=
  let p2 := dynamic_cast is_T (refc_ptr.get p)
  let r := refc_ptr.ctor P p2 false h
  let p1 := if p2 ≠ 0 then (refc_ptr.detach p).2 else p
  (r.1, p1, r.2)

end std

/-- `refc<T>::shared_from_this()`: `return static_cast<Y *>(this);`, the returned
`refc_ptr<Y>` being built from the address by `refc_ptr(T *p, bool ref = true)`. -/
def refc.shared_from_this (P : Policy) (this : Nat) (h : Heap) : Nat × Heap :=
  refc_ptr.ctor P (std.static_cast this) true h

/-! ## Objects that have a handle as a member -/

/-- An object with one `refc_ptr` member that points to an object of its own type
(`self_` of `self_ref`, `next` of `Dn` in the tests): the counters and the log, and
the member's `ptr`. -/
structure Node where
  obj : Obj
  member : Nat
deriving DecidableEq, Repr

/-- A freshly allocated object; its member is default-constructed, `ptr = nullptr`. -/
def Node.fresh : Node := { obj := Obj.fresh, member := 0 }

/-- The objects by address, each with its member handle. -/
abbrev NHeap := Nat → Node

/-- The heap with the object at address `a` replaced. -/
def NHeap.set (h : NHeap) (a : Nat) (n : Node) : NHeap := fun b => if b = a then n else h b

/-- The heap in which every address holds a freshly allocated object. -/
def NHeap.fresh : NHeap := fun _ => Node.fresh

/-- Replaces the counters and the log of the object at `a`. -/
def NHeap.set_obj (h : NHeap) (a : Nat) (o : Obj) : NHeap :=
  NHeap.set h a { h a with obj := o }

/-- Replaces the `ptr` of the member handle of the object at `a`. -/
def NHeap.set_member (h : NHeap) (a : Nat) (m : Nat) : NHeap :=
  NHeap.set h a { h a with member := m }

/-- `policy::release(x)` on the object at `x`, whose destructor destroys the member
handle: `~refc_ptr()`, `if (ptr) policy::release(ptr)`, which may in turn destroy
the object the member holds.  `fuel` bounds the depth of that nesting; the result is
`none` when it does not suffice.
For `refc_policy`: `if (rc.fetch_sub(1) == 1) delete p;`, and `delete p` runs the
destructor and then frees the storage.
For `strong_refc_policy`: `if (rc.fetch_sub(1) == 1) std::destroy_at(x);`
`if (weak_rc.fetch_sub(1) == 1) ::operator delete(x);`. -/
def NHeap.release (b : Base) : Nat → NHeap → Nat → Option NHeap
  | 0, _, _ => none
  | fuel + 1, h, x =>
    let prev := (fetch_sub (h x).obj.rc).1
    let h1 := h.set_obj x { (h x).obj with rc := (fetch_sub (h x).obj.rc).2 }
    -- the destructor, when the count was 1: the payload, then the member handle
    let destroyed : Option NHeap :=
      if prev = 1 then
        let h2 := h1.set_obj x (h1 x).obj.destroy_at
        if (h2 x).member ≠ 0 then NHeap.release b fuel h2 (h2 x).member else some h2
      else some h1
    match destroyed with
    | none => none
    | some h3 =>
      match b with
      | Base.refc => some (if prev = 1 then h3.set_obj x (h3 x).obj.operator_delete else h3)
      | Base.refc_weak_base =>
        let wprev := (fetch_sub (h3 x).obj.weak_rc).1
        let h4 := h3.set_obj x { (h3 x).obj with weak_rc := (fetch_sub (h3 x).obj.weak_rc).2 }
        some (if wprev = 1 then h4.set_obj x (h4 x).obj.operator_delete else h4)

/-- `policy::add_ref(x)` on the object at `x`. -/
def NHeap.add_ref (b : Base) (h : NHeap) (x : Nat) : NHeap :=
  h.set_obj x (b.policy_type.add_ref (h x).obj).2

/-- `refc_ptr(T *p, bool ref = true)` for objects with a member handle. -/
def NHeap.ctor (b : Base) (p : Nat) (ref : Bool) (h : NHeap) : Nat × NHeap :=
  if p ≠ 0 ∧ ref = true then (p, h.add_ref b p) else (p, h)

/-- `refc_ptr(const refc_ptr &o)` for objects with a member handle. -/
def NHeap.copy (b : Base) (o : Nat) (h : NHeap) : Nat × NHeap :=
  if o ≠ 0 then (o, h.add_ref b o) else (o, h)

/-- `~refc_ptr()` for objects with a member handle: `if (ptr) policy::release(ptr)`. -/
def NHeap.dtor (b : Base) (fuel : Nat) (ptr : Nat) (h : NHeap) : Option NHeap :=
  if ptr ≠ 0 then NHeap.release b fuel h ptr else some h

/-- `operator=(const refc_ptr &rhs)` for objects with a member handle:
`refc_ptr(rhs).swap(*this)`, then the temporary is destroyed.  The result is `ptr`
and the heap. -/
def NHeap.assign (b : Base) (fuel : Nat) (ptr rhs : Nat) (h : NHeap) : Option (Nat × NHeap) :=
  let tmp := NHeap.copy b rhs h
  let sw := refc_ptr.swap tmp.1 ptr
  match NHeap.dtor b fuel sw.1 tmp.2 with
  | some h1 => some (sw.2, h1)
  | none => none

/-- `new self_ref` at address `this`: the constructor `self_ref() : self_(this) {}`
builds the member by `refc_ptr(this)`. -/
def self_ref.ctor (b : Base) (h : NHeap) (this : Nat) : NHeap :=
  let r := NHeap.ctor b this true h
  r.2.set_member this r.1

/-- `self_ref::reset()`: `self_.reset()`, that is `refc_ptr().swap(self_)`, then the
temporary is destroyed. -/
def self_ref.reset (b : Base) (fuel : Nat) (h : NHeap) (this : Nat) : Option NHeap :=
  let sw := refc_ptr.swap 0 (h this).member
  NHeap.dtor b fuel sw.1 (h.set_member this sw.2)

/-- The first two statements of the test `transitive`, with the two objects allocated
at `a` and `c`: `refc_ptr<Dn> p(new Dn); p->next = refc_ptr<Dn>(new Dn);`.  The
assignment is `refc_ptr(std::move(rhs)).swap(*this)` on the member `next`, then the
two temporaries are destroyed.  The result is `p.ptr` and the heap. -/
def Dn.chain (b : Base) (fuel : Nat) (h : NHeap) (a c : Nat) : Option (Nat × NHeap) :=
  let p := NHeap.ctor b a true h
  let t := NHeap.ctor b c true p.2
  let mv := refc_ptr.move t.1
  let sw := refc_ptr.swap mv.1 (t.2 p.1).member
  match NHeap.dtor b fuel sw.1 (t.2.set_member p.1 sw.2) with
  | some h1 =>
    match NHeap.dtor b fuel mv.2 h1 with
    | some h2 => some (p.1, h2)
    | none => none
  | none => none

/-- The statement `p = p->next` of the test `transitive`: copy assignment from the
member `next` of the object that `p` holds. -/
def Dn.assign_next (b : Base) (fuel : Nat) (p : Nat) (h : NHeap) : Option (Nat × NHeap) :=
  NHeap.assign b fuel p (h p).member h

/-! ## Memory orders of the release functions -/

/-- The `std::memory_order` arguments that occur in `ptr.h`. -/
inductive memory_order where
  | relaxed
  | acquire
  | release
deriving DecidableEq, Repr

/-- The two atomic counters of an object. -/
inductive Counter where
  | rc
  | weak_rc
deriving DecidableEq, Repr

/-- What a release function executes, one entry per atomic operation, fence or
destructive action. -/
inductive Instr where
  /-- `c.fetch_sub(1, o)` -/
  | fetch_sub (c : Counter) (o : memory_order)
  /-- `std::atomic_thread_fence(o)` -/
  | atomic_thread_fence (o : memory_order)
  /-- `delete p`: the destructor and the deallocation -/
  | delete
  /-- `std::destroy_at(x)`: the destructor -/
  | destroy_at
  /-- `::operator delete(x)`: the deallocation -/
  | operator_delete
deriving DecidableEq, Repr

/-- `refc_policy::release`, in program order, when `rc.fetch_sub` returns `prev`:
`if (p->rc.fetch_sub(1, std::memory_order_release) == 1) {`
`std::atomic_thread_fence(std::memory_order_acquire); delete p; }`. -/
def refc_policy.release_path (prev : Nat) : List Instr :=
  [Instr.fetch_sub Counter.rc memory_order.release] ++
    (if prev = 1 then [Instr.atomic_thread_fence memory_order.acquire, Instr.delete] else [])

/-- `weak_refc_policy::release`, in program order, when `weak_rc.fetch_sub` returns
`prev`: `if (x->weak_rc.fetch_sub(1, std::memory_order_release) == 1) {`
`::operator delete(x); }`. -/
def weak_refc_policy.release_path (prev : Nat) : List Instr :=
  [Instr.fetch_sub Counter.weak_rc memory_order.release] ++
    (if prev = 1 then [Instr.operator_delete] else [])

/-- `strong_refc_policy::release`, in program order, when `rc.fetch_sub` returns `prev`
and `weak_rc.fetch_sub` returns `wprev`:
`if (x->rc.fetch_sub(1, std::memory_order_release) == 1) {`
`std::atomic_thread_fence(std::memory_order_acquire); std::destroy_at(x); }`
`if (x->weak_rc.fetch_sub(1, std::memory_order_release) == 1) {`
`::operator delete(x); }`. -/
def strong_refc_policy.release_path (prev wprev : Nat) : List Instr :=
  [Instr.fetch_sub Counter.rc memory_order.release] ++
    (if prev = 1 then [Instr.atomic_thread_fence memory_order.acquire, Instr.destroy_at]
      else []) ++
    [Instr.fetch_sub Counter.weak_rc memory_order.release] ++
    (if wprev = 1 then [Instr.operator_delete] else [])

/-- The ordering contract for the decrement of counter `c` and the destructive action
`d` in a path: the decrement of `c` with release ordering, later an acquire fence,
later `d`. -/
def Instr.fenced (c : Counter) (d : Instr) (path : List Instr) : Prop :=
  List.Sublist
    [Instr.fetch_sub c memory_order.release, Instr.atomic_thread_fence memory_order.acquire, d]
    path

instance (c : Counter) (d : Instr) (path : List Instr) : Decidable (Instr.fenced c d path) := by
  unfold Instr.fenced
  infer_instance

/-- The events a destructive instruction adds to the log of its object. -/
def Instr.events : Instr → List Event
  | Instr.delete => [Event.destroyed, Event.deallocated]
  | Instr.destroy_at => [Event.destroyed]
  | Instr.operator_delete => [Event.deallocated]
  | _ => []

/-- The events of a path, in program order. -/
def path_events (path : List Instr) : List Event := (path.map Instr.events).flatten

/-! ## `mach_absolute_time_clock` -/

namespace mach_absolute_time_clock

/-- `static constexpr int fixed_point_scale = 32;`. -/
def fixed_point_scale : Nat := 32

/-- `static constexpr int64_t half_place_mask = (1ll < (fixed_point_scale - 1));`: the
comparison `1 < 31`, whose `bool` value is converted to `int64_t`. -/
def half_place_mask : Int := if (1 : Int) < (fixed_point_scale : Int) - 1 then 1 else 0

/-- `(int64_t) x` for an `__int128_t` value `x`: the low 64 bits, read as a signed
two's complement number. -/
def int64_cast (x : Int) : Int := (x + 2 ^ 63) % 2 ^ 64 - 2 ^ 63

/-- The body shared by `to_nanoseconds` and `from_nanoseconds`, for a given mask:
`scaled = (__int128_t) ticks * factor;`
`ns = (scaled >> fixed_point_scale) + ((scaled & mask) != 0); return (int64_t) ns;`.
The product of two `int64_t` values fits `__int128_t`. -/
def convert (mask factor ticks : Int) : Int :=
  let scaled := ticks * factor
  let ns := (scaled >>> fixed_point_scale) + (if Int.land scaled mask ≠ 0 then 1 else 0)
  int64_cast ns

/-- `to_nanoseconds(int64_t ticks)`, with the static member
`nanoseconds_per_tick_scaled` as a parameter. -/
def to_nanoseconds (nanoseconds_per_tick_scaled ticks : Int) : Int :=
  convert half_place_mask nanoseconds_per_tick_scaled ticks

/-- `from_nanoseconds(int64_t ns)`, with the static member `ticks_per_nanosecond_scaled`
as a parameter. -/
def from_nanoseconds (ticks_per_nanosecond_scaled ns : Int) : Int :=
  convert half_place_mask ticks_per_nanosecond_scaled ns

end mach_absolute_time_clock

/-- `nanoseconds_per_tick_scaled()` of `mach_clock.cpp`:
`(1ll << fixed_point_scale) * tb.numer / tb.denom` for the `uint32_t` fields of the
timebase, computed in `long long`, where
`1ll << fixed_point_scale` is `2 ^ fixed_point_scale`; there is no value when `denom` is 0 or the
product does not fit. -/
def nanoseconds_per_tick_scaled (numer denom : Nat) : Option Int :=
  if denom = 0 ∨ 2 ^ 63 ≤ (2 : Int) ^ mach_absolute_time_clock.fixed_point_scale * numer then none
  else some ((2 : Int) ^ mach_absolute_time_clock.fixed_point_scale * numer / denom)

/-- `ticks_per_nanosecond_scaled()` of `mach_clock.cpp`:
`(1ll << fixed_point_scale) * tb.denom / tb.numer`. -/
def ticks_per_nanosecond_scaled (numer denom : Nat) : Option Int :=
  if numer = 0 ∨ 2 ^ 63 ≤ (2 : Int) ^ mach_absolute_time_clock.fixed_point_scale * denom then none
  else some ((2 : Int) ^ mach_absolute_time_clock.fixed_point_scale * denom / numer)

/-! ## A program state: the heap and the handles that exist -/

/-- The heap together with every `refc_ptr` and `refc_weak_ptr` variable of the program.
A handle is named by its position; the entry is `none` once the handle has been
destroyed and `some ptr` (with `ptr = 0` for `nullptr`) while it exists. -/
structure World where
  heap : Heap
  sp : List (Option Nat)
  wp : List (Option Nat)

/-- No handles, every object freshly allocated. -/
def World.init : World := { heap := Heap.fresh, sp := [], wp := [] }

/-- The `ptr` of the `refc_ptr` named `i`, if that handle exists. -/
def World.sget (w : World) (i : Nat) : Option Nat := w.sp.getD i none

/-- The `ptr` of the `refc_weak_ptr` named `i`, if that handle exists. -/
def World.wget (w : World) (i : Nat) : Option Nat := w.wp.getD i none

/-- Number of existing `refc_ptr` handles whose `ptr` is `a`. -/
def World.scount (w : World) (a : Nat) : Nat := w.sp.count (some a)

/-- Number of existing `refc_weak_ptr` handles whose `ptr` is `a`. -/
def World.wcount (w : World) (a : Nat) : Nat := w.wp.count (some a)

/-- One statement of a client program.  Handles are named by position; a statement
that declares a handle appends it. -/
inductive Op where
  /-- declare `refc_ptr<T> h(p, ref)` from the raw address `p` -/
  | ctor (p : Nat) (ref : Bool)
  /-- declare `refc_ptr<T> h(o)` -/
  | copy (o : Nat)
  /-- declare `refc_ptr<T> h(std::move(o))` -/
  | move (o : Nat)
  /-- the copy assignment `this = rhs` -/
  | assign (this rhs : Nat)
  /-- the move assignment `this = std::move(rhs)` of same-type handles -/
  | move_assign (this rhs : Nat)
  /-- `this.swap(rhs)` -/
  | swap (this rhs : Nat)
  /-- `this.reset()` -/
  | reset (this : Nat)
  /-- `this.reset(to_, add_ref)`, `to_` being the raw address `to` -/
  | reset_to (this : Nat) (to_ : Nat) (add_ref : Bool)
  /-- `this.detach()`, the returned raw address dropped -/
  | detach (this : Nat)
  /-- the `refc_ptr` named `this` goes out of scope -/
  | dtor (this : Nat)
  /-- declare `refc_weak_ptr<T> h(o)` from the `refc_ptr` named `o` -/
  | weak_from (o : Nat)
  /-- declare `refc_weak_ptr<T> h(o)` from the `refc_weak_ptr` named `o` -/
  | weak_copy (o : Nat)
  /-- declare `refc_weak_ptr<T> h(std::move(o))` -/
  | weak_move (o : Nat)
  /-- the copy assignment `this = rhs` of weak handles -/
  | weak_assign (this rhs : Nat)
  /-- the move assignment `this = std::move(rhs)` of weak handles -/
  | weak_move_assign (this rhs : Nat)
  /-- the assignment `this = rhs` of the `refc_ptr` named `rhs` to a weak handle -/
  | weak_assign_from (this rhs : Nat)
  /-- `this.swap(rhs)` of weak handles -/
  | weak_swap (this rhs : Nat)
  /-- declare `refc_ptr<T> h = this.lock()`; `spurious` as in `try_ref` -/
  | weak_lock (this : Nat) (spurious : Nat)
  /-- the `refc_weak_ptr` named `this` goes out of scope -/
  | weak_dtor (this : Nat)
deriving DecidableEq, Repr

/-- A raw address may be handed to a handle only while the object behind it has not
been destroyed (or for `nullptr`); any other use of it is undefined. -/
def World.raw_ok (w : World) (p : Nat) : Bool := decide (p = 0 ∨ (w.heap p).log = [])

/-- Executes one statement.  `none` stands for a statement that has no defined
behaviour: it names a handle that does not exist, it uses a weak handle on a
strong-only type, or it passes a dangling raw address. -/
def step (b : Base) (w : World) : Op → Option World
  | Op.ctor p ref =>
    if w.raw_ok p then
      let r := refc_ptr.ctor b.policy_type p ref w.heap
      some { w with heap := r.2, sp := w.sp ++ [some r.1] }
    else none
  | Op.copy o =>
    match w.sget o with
    | some po =>
      let r := refc_ptr.copy b.policy_type po w.heap
      some { w with heap := r.2, sp := w.sp ++ [some r.1] }
    | none => none
  | Op.move o =>
    match w.sget o with
    | some po =>
      let r := refc_ptr.move po
      some { w with sp := (w.sp.set o (some r.2)) ++ [some r.1] }
    | none => none
  | Op.assign this rhs =>
    match w.sget this, w.sget rhs with
    | some pt, some pr =>
      -- refc_ptr(rhs).swap(*this); then the temporary is destroyed
      let tmp := refc_ptr.copy b.policy_type pr w.heap
      let sw := refc_ptr.swap tmp.1 pt
      some { w with heap := refc_ptr.dtor b.policy_type sw.1 tmp.2, sp := w.sp.set this (some sw.2) }
    | _, _ => none
  | Op.move_assign this rhs =>
    match w.sget this, w.sget rhs with
    | some _, some pr =>
      -- refc_ptr(std::move(rhs)).swap(*this); then the temporary is destroyed
      let mv := refc_ptr.move pr
      let sp1 := w.sp.set rhs (some mv.2)
      let sw := refc_ptr.swap mv.1 ((sp1.getD this none).getD 0)
      some { w with heap := refc_ptr.dtor b.policy_type sw.1 w.heap, sp := sp1.set this (some sw.2) }
    | _, _ => none
  | Op.swap this rhs =>
    match w.sget this, w.sget rhs with
    | some pt, some pr =>
      let sw := refc_ptr.swap pt pr
      some { w with sp := (w.sp.set this (some sw.1)).set rhs (some sw.2) }
    | _, _ => none
  | Op.reset this =>
    match w.sget this with
    | some pt =>
      -- refc_ptr().swap(*this); then the temporary is destroyed
      let sw := refc_ptr.swap 0 pt
      some { w with heap := refc_ptr.dtor b.policy_type sw.1 w.heap, sp := w.sp.set this (some sw.2) }
    | none => none
  | Op.reset_to this to_ add_ref =>
    match w.sget this with
    | some pt =>
      if w.raw_ok to_ then
        -- refc_ptr(to, add_ref).swap(*this); then the temporary is destroyed
        let tmp := refc_ptr.ctor b.policy_type to_ add_ref w.heap
        let sw := refc_ptr.swap tmp.1 pt
        some { w with heap := refc_ptr.dtor b.policy_type sw.1 tmp.2, sp := w.sp.set this (some sw.2) }
      else none
    | none => none
  | Op.detach this =>
    match w.sget this with
    | some pt => some { w with sp := w.sp.set this (some (refc_ptr.detach pt).2) }
    | none => none
  | Op.dtor this =>
    match w.sget this with
    | some pt => some { w with heap := refc_ptr.dtor b.policy_type pt w.heap, sp := w.sp.set this none }
    | none => none
  | Op.weak_from o =>
    match b, w.sget o with
    | Base.refc_weak_base, some po =>
      let r := refc_weak_ptr.ctor po w.heap
      some { w with heap := r.2, wp := w.wp ++ [some r.1] }
    | _, _ => none
  | Op.weak_copy o =>
    match b, w.wget o with
    | Base.refc_weak_base, some po =>
      let r := refc_weak_ptr.ctor po w.heap
      some { w with heap := r.2, wp := w.wp ++ [some r.1] }
    | _, _ => none
  | Op.weak_move o =>
    match b, w.wget o with
    | Base.refc_weak_base, some po =>
      let r := refc_weak_ptr.move po
      some { w with wp := (w.wp.set o (some r.2)) ++ [some r.1] }
    | _, _ => none
  | Op.weak_assign this rhs =>
    match b, w.wget this, w.wget rhs with
    | Base.refc_weak_base, some pt, some pr =>
      -- refc_weak_ptr(rhs).swap(*this); then the temporary is destroyed
      let tmp := refc_weak_ptr.ctor pr w.heap
      some { w with heap := refc_weak_ptr.dtor pt tmp.2, wp := w.wp.set this (some tmp.1) }
    | _, _, _ => none
  | Op.weak_move_assign this rhs =>
    match b, w.wget this, w.wget rhs with
    | Base.refc_weak_base, some _, some pr =>
      -- refc_weak_ptr(std::move(rhs)).swap(*this); then the temporary is destroyed
      let mv := refc_weak_ptr.move pr
      let wp1 := w.wp.set rhs (some mv.2)
      let old := (wp1.getD this none).getD 0
      some { w with heap := refc_weak_ptr.dtor old w.heap, wp := wp1.set this (some mv.1) }
    | _, _, _ => none
  | Op.weak_assign_from this rhs =>
    match b, w.wget this, w.sget rhs with
    | Base.refc_weak_base, some pt, some pr =>
      -- refc_weak_ptr(rhs).swap(*this); then the temporary is destroyed
      let tmp := refc_weak_ptr.ctor pr w.heap
      some { w with heap := refc_weak_ptr.dtor pt tmp.2, wp := w.wp.set this (some tmp.1) }
    | _, _, _ => none
  | Op.weak_swap this rhs =>
    match b, w.wget this, w.wget rhs with
    | Base.refc_weak_base, some pt, some pr =>
      some { w with wp := (w.wp.set this (some pr)).set rhs (some pt) }
    | _, _, _ => none
  | Op.weak_lock this spurious =>
    match b, w.wget this with
    | Base.refc_weak_base, some pt =>
      let r := refc_weak_ptr.lock spurious pt w.heap
      some { w with heap := r.2, sp := w.sp ++ [some r.1] }
    | _, _ => none
  | Op.weak_dtor this =>
    match b, w.wget this with
    | Base.refc_weak_base, some pt =>
      some { w with heap := refc_weak_ptr.dtor pt w.heap, wp := w.wp.set this none }
    | _, _ => none

/-- Executes a program, statement by statement. -/
def run (b : Base) : World → List Op → Option World
  | w, [] => some w
  | w, op :: ops =>
    match step b w op with
    | some w1 => run b w1 ops
    | none => none

/-! ## The policy calls made on one object -/

/-- A call of one of the policy functions on a fixed object. -/
inductive PolicyOp where
  /-- `policy_type::add_ref` -/
  | strong_add_ref
  /-- `strong_refc_policy::try_ref`, with the number of spurious compare-exchange failures -/
  | try_ref (spurious : Nat)
  /-- `weak_refc_policy::add_ref` -/
  | weak_add_ref
  /-- `policy_type::release` -/
  | strong_release
  /-- `weak_refc_policy::release` -/
  | weak_release
deriving DecidableEq, Repr

/-- An object together with the number of strong and weak units that have been
acquired on it and not yet given back (bookkeeping, not part of the program). -/
structure Units where
  obj : Obj
  strong : Nat
  weak : Nat
deriving DecidableEq, Repr

/-- A fresh object with no unit outstanding. -/
def Units.fresh : Units := { obj := Obj.fresh, strong := 0, weak := 0 }

/-- Performs one policy call.  A release has to give back a unit that is outstanding;
`try_ref` and the weak policy exist for `refc_weak_base` only. -/
def Units.step (b : Base) (u : Units) : PolicyOp → Option Units
  | PolicyOp.strong_add_ref =>
    some { u with obj := (b.policy_type.add_ref u.obj).2, strong := u.strong + 1 }
  | PolicyOp.try_ref n =>
    match b with
    | Base.refc_weak_base =>
      let r := strong_refc_policy.try_ref n u.obj
      some { u with obj := r.2, strong := if r.1 = 0 then u.strong else u.strong + 1 }
    | Base.refc => none
  | PolicyOp.weak_add_ref =>
    match b with
    | Base.refc_weak_base =>
      some { u with obj := (weak_refc_policy.add_ref u.obj).2, weak := u.weak + 1 }
    | Base.refc => none
  | PolicyOp.strong_release =>
    if u.strong = 0 then none
    else some { u with obj := b.policy_type.release u.obj, strong := u.strong - 1 }
  | PolicyOp.weak_release =>
    match b with
    | Base.refc_weak_base =>
      if u.weak = 0 then none
      else some { u with obj := weak_refc_policy.release u.obj, weak := u.weak - 1 }
    | Base.refc => none

/-- Performs a sequence of policy calls. -/
def Units.run (b : Base) : Units → List PolicyOp → Option Units
  | u, [] => some u
  | u, c :: cs =>
    match Units.step b u c with
    | some u1 => Units.run b u1 cs
    | none => none

/-- The states of the object after each counter update of one policy call. -/
def PolicyOp.states (x : Obj) : PolicyOp → List Obj
  | PolicyOp.strong_add_ref => strong_refc_policy.add_ref_states x
  | PolicyOp.try_ref n => strong_refc_policy.try_ref_states n x
  | PolicyOp.weak_add_ref => [(weak_refc_policy.add_ref x).2]
  | PolicyOp.strong_release => strong_refc_policy.release_states x
  | PolicyOp.weak_release => [weak_refc_policy.release x]

/-- Whether the caller can have a valid address for the call: an acquiring call needs
either an existing handle to go through (a strong one for `add_ref`) or an object
that has not been destroyed or freed. -/
def Units.pointer_ok (u : Units) : PolicyOp → Bool
  | PolicyOp.strong_add_ref => decide (1 ≤ u.strong ∨ u.obj.log = [])
  | PolicyOp.try_ref _ => decide (1 ≤ u.strong + u.weak ∨ u.obj.log = [])
  | PolicyOp.weak_add_ref => decide (1 ≤ u.strong + u.weak ∨ u.obj.log = [])
  | PolicyOp.strong_release => true
  | PolicyOp.weak_release => true

/-- Performs a sequence of policy calls, each through a valid address. -/
def Units.run_safe (b : Base) : Units → List PolicyOp → Option Units
  | u, [] => some u
  | u, c :: cs =>
    if u.pointer_ok c then
      match Units.step b u c with
      | some u1 => Units.run_safe b u1 cs
      | none => none
    else none

/-- The object at address `a` with the handles that hold it. -/
def World.units (w : World) (a : Nat) : Units :=
  { obj := w.heap a, strong := w.scount a, weak := w.wcount a }

/-- The call `c` if the handle value `p` is the address `a`, nothing otherwise. -/
def on_addr (a p : Nat) (c : PolicyOp) : List PolicyOp := if p = a then [c] else []

/-- The policy calls a statement makes on the object at address `a`, in order. -/
def Op.calls (w : World) (a : Nat) : Op → List PolicyOp
  | Op.ctor p ref => if ref = true then on_addr a p PolicyOp.strong_add_ref else []
  | Op.copy o => on_addr a ((w.sget o).getD 0) PolicyOp.strong_add_ref
  | Op.move _ => []
  | Op.assign this rhs =>
    on_addr a ((w.sget rhs).getD 0) PolicyOp.strong_add_ref ++
      on_addr a ((w.sget this).getD 0) PolicyOp.strong_release
  | Op.move_assign this rhs =>
    if this = rhs then [] else on_addr a ((w.sget this).getD 0) PolicyOp.strong_release
  | Op.swap _ _ => []
  | Op.reset this => on_addr a ((w.sget this).getD 0) PolicyOp.strong_release
  | Op.reset_to this to_ add_ref =>
    (if add_ref = true then on_addr a to_ PolicyOp.strong_add_ref else []) ++
      on_addr a ((w.sget this).getD 0) PolicyOp.strong_release
  | Op.detach _ => []
  | Op.dtor this => on_addr a ((w.sget this).getD 0) PolicyOp.strong_release
  | Op.weak_from o => on_addr a ((w.sget o).getD 0) PolicyOp.weak_add_ref
  | Op.weak_copy o => on_addr a ((w.wget o).getD 0) PolicyOp.weak_add_ref
  | Op.weak_move _ => []
  | Op.weak_assign this rhs =>
    on_addr a ((w.wget rhs).getD 0) PolicyOp.weak_add_ref ++
      on_addr a ((w.wget this).getD 0) PolicyOp.weak_release
  | Op.weak_move_assign this rhs =>
    if this = rhs then [] else on_addr a ((w.wget this).getD 0) PolicyOp.weak_release
  | Op.weak_assign_from this rhs =>
    on_addr a ((w.sget rhs).getD 0) PolicyOp.weak_add_ref ++
      on_addr a ((w.wget this).getD 0) PolicyOp.weak_release
  | Op.weak_swap _ _ => []
  | Op.weak_lock this n => on_addr a ((w.wget this).getD 0) (PolicyOp.try_ref n)
  | Op.weak_dtor this => on_addr a ((w.wget this).getD 0) PolicyOp.weak_release

/-- The statements in which every handle accounts for a unit of its own: no
adoption of an already counted reference (`ref = false`) and no `detach`. -/
def Op.counted : Op → Bool
  | Op.ctor _ ref => ref
  | Op.reset_to _ _ add_ref => add_ref
  | Op.detach _ => false
  | _ => true

/-- The statement hands the raw address `a` to a handle that takes a unit on it. -/
def Op.adopts (a : Nat) : Op → Bool
  | Op.ctor p ref => decide (p = a) && ref
  | Op.reset_to _ to_ add_ref => decide (to_ = a) && add_ref
  | _ => false

/-! ## Threads: the atomic steps of the weak-capable policies, interleaved -/

/-- Where a thread is in the code of the policy functions of `refc_weak_base`. -/
inductive Pc where
  /-- between two calls -/
  | idle
  /-- in `strong_refc_policy::add_ref`, after `weak_rc.fetch_add`, before `rc.fetch_add` -/
  | add_ref_rc
  /-- in `try_ref`, after `weak_rc.fetch_add`, before `rc.load` -/
  | try_ref_load
  /-- in `try_ref`, at the loop test, with the value of the local `r` -/
  | try_ref_loop (r : Nat)
  /-- in `strong_refc_policy::release`, after `rc.fetch_sub` returned 1, before
  `std::destroy_at` -/
  | release_destroy
  /-- in `strong_refc_policy::release`, before `weak_rc.fetch_sub` -/
  | release_weak
  /-- in either `release`, after `weak_rc.fetch_sub` returned 1, before
  `::operator delete` -/
  | release_delete
deriving DecidableEq, Repr

/-- A thread: where it is in the code, and how many `refc_ptr` and `refc_weak_ptr`
handles to the object it owns. -/
structure Thread where
  pc : Pc
  strong : Nat
  weak : Nat
deriving DecidableEq, Repr

/-- The call a thread starts when it is between two calls: copying one of its
`refc_ptr`s, making a `refc_weak_ptr` from one of its handles, `lock()` on one of its
`refc_weak_ptr`s, destroying one of its `refc_ptr`s, destroying one of its
`refc_weak_ptr`s. -/
inductive Call where
  | add_ref
  | weak_add_ref
  | try_ref
  | release
  | weak_release
deriving DecidableEq, Repr

/-- The next atomic step of thread `t` on the object `x`: the first operation of the
call `c` when the thread is between calls (there is none when the thread owns no
handle to make the call through), the next operation of the call in progress
otherwise.  `spurious` says whether a `compare_exchange_weak` executed in this step
fails spuriously. -/
def Thread.step (x : Obj) (t : Thread) (c : Call) (spurious : Bool) : Option (Obj × Thread) :=
  match t.pc with
  | Pc.idle =>
    match c with
    | Call.add_ref =>
      -- strong_refc_policy::add_ref: x->weak_rc.fetch_add(1)
      if 1 ≤ t.strong then
        some ({ x with weak_rc := (fetch_add x.weak_rc).2 }, { t with pc := Pc.add_ref_rc })
      else none
    | Call.weak_add_ref =>
      -- weak_refc_policy::add_ref: x->weak_rc.fetch_add(1)
      if 1 ≤ t.strong + t.weak then
        some ((weak_refc_policy.add_ref x).2, { t with weak := t.weak + 1 })
      else none
    | Call.try_ref =>
      -- try_ref: x->weak_rc.fetch_add(1)
      if 1 ≤ t.weak then
        some ({ x with weak_rc := (fetch_add x.weak_rc).2 }, { t with pc := Pc.try_ref_load })
      else none
    | Call.release =>
      -- strong_refc_policy::release: if (x->rc.fetch_sub(1) == 1)
      if 1 ≤ t.strong then
        some ({ x with rc := (fetch_sub x.rc).2 },
          { t with pc := if (fetch_sub x.rc).1 = 1 then Pc.release_destroy else Pc.release_weak,
                   strong := t.strong - 1 })
      else none
    | Call.weak_release =>
      -- weak_refc_policy::release: if (x->weak_rc.fetch_sub(1) == 1)
      if 1 ≤ t.weak then
        some ({ x with weak_rc := (fetch_sub x.weak_rc).2 },
          { t with pc := if (fetch_sub x.weak_rc).1 = 1 then Pc.release_delete else Pc.idle,
                   weak := t.weak - 1 })
      else none
  | Pc.add_ref_rc =>
    -- return x->rc.fetch_add(1)
    some ({ x with rc := (fetch_add x.rc).2 }, { t with pc := Pc.idle, strong := t.strong + 1 })
  | Pc.try_ref_load =>
    -- auto r = x->rc.load()
    some (x, { t with pc := Pc.try_ref_loop x.rc })
  | Pc.try_ref_loop r =>
    if 0 < r then
      -- if (x->rc.compare_exchange_weak(r, r + 1)) return r;
      match compare_exchange_weak x.rc r ((r + 1) % ULONG_MOD) spurious with
      | (true, v, _) =>
        some ({ x with rc := v }, { t with pc := Pc.idle, strong := t.strong + 1 })
      | (false, _, r1) => some (x, { t with pc := Pc.try_ref_loop r1 })
    else
      -- x->weak_rc.fetch_sub(1); return r;
      some ({ x with weak_rc := (fetch_sub x.weak_rc).2 }, { t with pc := Pc.idle })
  | Pc.release_destroy =>
    -- std::destroy_at(x)
    some (x.destroy_at, { t with pc := Pc.release_weak })
  | Pc.release_weak =>
    -- if (x->weak_rc.fetch_sub(1) == 1)
    some ({ x with weak_rc := (fetch_sub x.weak_rc).2 },
      { t with pc := if (fetch_sub x.weak_rc).1 = 1 then Pc.release_delete else Pc.idle })
  | Pc.release_delete =>
    -- ::operator delete(x)
    some (x.operator_delete, { t with pc := Pc.idle })

/-- One weak-capable object and the threads that use it. -/
structure Conc where
  obj : Obj
  threads : List Thread
deriving DecidableEq, Repr

/-- A scheduling decision: which thread moves, which call it starts if it is between
calls, and whether a compare-exchange it executes fails spuriously. -/
structure Pick where
  thread : Nat
  call : Call
  spurious : Bool
deriving DecidableEq, Repr

/-- One step of the program: the picked thread executes its next atomic step. -/
def Conc.step (st : Conc) (p : Pick) : Option Conc :=
  match st.threads[p.thread]? with
  | none => none
  | some t =>
    match Thread.step st.obj t p.call p.spurious with
    | none => none
    | some r => some { obj := r.1, threads := st.threads.set p.thread r.2 }

/-- An interleaving: the steps of a schedule, one after the other. -/
def Conc.run : Conc → List Pick → Option Conc
  | st, [] => some st
  | st, p :: ps =>
    match Conc.step st p with
    | some st1 => Conc.run st1 ps
    | none => none

/-- The number of weak units a thread accounts for: one for each handle it owns, and
one while it is inside a call between that call's increment of `weak_rc` and its
decrement (or, for `add_ref` and a successful `try_ref`, the creation of the new
`refc_ptr`, which keeps the unit). -/
def Thread.weak_units (t : Thread) : Nat :=
  t.strong + t.weak +
    (match t.pc with
     | Pc.idle => 0
     | Pc.add_ref_rc => 1
     | Pc.try_ref_load => 1
     | Pc.try_ref_loop _ => 1
     | Pc.release_destroy => 1
     | Pc.release_weak => 1
     | Pc.release_delete => 0)

/-- 1 for a thread that is about to run the destructor, 0 otherwise. -/
def Thread.destroying (t : Thread) : Nat := if t.pc = Pc.release_destroy then 1 else 0

/-- 1 for a thread that is about to free the storage, 0 otherwise. -/
def Thread.freeing (t : Thread) : Nat := if t.pc = Pc.release_delete then 1 else 0

/-- The handles a call in progress goes through are still there: the source of a copy
is a `refc_ptr` of the thread, and `lock()` runs on a `refc_weak_ptr` of the thread. -/
def Thread.wf (t : Thread) : Prop :=
  (t.pc = Pc.add_ref_rc → 1 ≤ t.strong) ∧
  (t.pc = Pc.try_ref_load → 1 ≤ t.weak) ∧
  (∀ r, t.pc = Pc.try_ref_loop r → 1 ≤ t.weak)

/-- The sum of a quantity over the threads. -/
def total (f : Thread → Nat) (l : List Thread) : Nat := (l.map f).sum

/-- A thread between calls that owns `hs.1` strong and `hs.2` weak handles. -/
def Thread.idle (hs : Nat × Nat) : Thread := { pc := Pc.idle, strong := hs.1, weak := hs.2 }

/-- The state in which the threads are between calls and own the given numbers of
(strong, weak) handles to a live object, whose counters count these handles. -/
def Conc.init (handles : List (Nat × Nat)) : Conc :=
  { obj := { rc := total Thread.strong (handles.map Thread.idle),
             weak_rc := total Thread.weak_units (handles.map Thread.idle),
             log := [] },
    threads := handles.map Thread.idle }

/-- The invariant of the interleaved executions: the counters count the handles and
the calls in progress, at most one thread is about to run the destructor and at most
one is about to free the storage, and the log holds `dr` destructor runs followed by
`fr` deallocations, matching the counters. -/
def Conc.Inv (st : Conc) : Prop :=
  (∀ t ∈ st.threads, t.wf) ∧
  ∃ dr fr : Nat,
    st.obj.rc = total Thread.strong st.threads ∧
    st.obj.weak_rc = total Thread.weak_units st.threads ∧
    st.obj.log = List.replicate dr Event.destroyed ++ List.replicate fr Event.deallocated ∧
    (total Thread.strong st.threads = 0 → dr + total Thread.destroying st.threads = 1) ∧
    (1 ≤ total Thread.strong st.threads → dr + total Thread.destroying st.threads = 0) ∧
    (total Thread.weak_units st.threads = 0 → fr + total Thread.freeing st.threads = 1) ∧
    (1 ≤ total Thread.weak_units st.threads → fr + total Thread.freeing st.threads = 0)

/-! ## Invariants -/

/-- The counters agree with the outstanding units, modulo the width of the counter. -/
def Units.Acc (b : Base) (u : Units) : Prop :=
  u.obj.rc = u.strong % ULONG_MOD ∧
    (b = Base.refc_weak_base → u.obj.weak_rc = (u.strong + u.weak) % ULONG_MOD)

/-- The life cycle of a weak-capable object whose counters have not overflowed: the
counters are the outstanding units, and the log is empty while the object has not
lost its last strong unit, `[destroyed]` while only weak units remain after that,
and ends with `deallocated` once no unit remains. -/
def Units.Life (u : Units) : Prop :=
  u.obj.rc = u.strong ∧ u.obj.weak_rc = u.strong + u.weak ∧ u.strong + u.weak < ULONG_MOD ∧
    (u.obj.log = [] ∨
     (u.obj.log = [Event.destroyed] ∧ u.strong = 0 ∧ 1 ≤ u.weak) ∨
     (u.obj.log = [Event.destroyed, Event.deallocated] ∧ u.strong = 0 ∧ u.weak = 0) ∨
     (u.obj.log = [Event.deallocated] ∧ u.strong = 0 ∧ u.weak = 0))

/-- The object has had a strong unit: one is outstanding, or the destructor has run. -/
def Units.EverStrong (u : Units) : Prop := 1 ≤ u.strong ∨ Event.destroyed ∈ u.obj.log

/-- The object has had a unit of some kind: one is outstanding, or the log is not empty. -/
def Units.Touched (u : Units) : Prop := 1 ≤ u.strong + u.weak ∨ u.obj.log ≠ []

/-! ## Sample programs -/

/-- A program run: the state after the program, or the initial state if the program
has no defined behaviour. -/
def final (b : Base) (ops : List Op) : World := (run b World.init ops).getD World.init

/-- A small `refc_ptr` program on the object at address `1`. -/
def prog_strong : List Op :=
  [Op.ctor 1 true, Op.copy 0, Op.move 1, Op.assign 1 0, Op.reset_to 2 1 true, Op.swap 0 2,
   Op.reset 1, Op.move_assign 1 2, Op.dtor 2]

/-- The program of the test `weak_ptr_basic` up to the point where the last strong
handle is gone and three weak handles remain. -/
def prog_weak : List Op :=
  [Op.ctor 0 true, Op.weak_from 0, Op.ctor 1 true, Op.weak_assign_from 0 1, Op.weak_lock 0 0,
   Op.dtor 2, Op.weak_copy 0, Op.weak_lock 1 2, Op.dtor 3, Op.dtor 1, Op.weak_copy 0]

/-- Policy calls that take an object through its whole life: two strong units, a
weak unit, an upgrade, and every unit given back. -/
def calls_life : List PolicyOp :=
  [PolicyOp.strong_add_ref, PolicyOp.weak_add_ref, PolicyOp.try_ref 1, PolicyOp.strong_add_ref,
   PolicyOp.strong_release, PolicyOp.strong_release]

/-- The end of the test `weak_ptr_basic`: a failing `lock()`, and the three weak
handles go out of scope. -/
def prog_weak_tail : List Op :=
  [Op.weak_lock 0 0, Op.weak_dtor 0, Op.weak_dtor 1, Op.weak_dtor 2]

/-- The program of the test `weak_ptr_basic` in full: the weak handles are dropped too. -/
def prog_weak_done : List Op := prog_weak ++ prog_weak_tail

/-- Policy calls on an object that only ever has weak units: two are taken, an
upgrade is tried, both are given back. -/
def calls_weak_only : List PolicyOp :=
  [PolicyOp.weak_add_ref, PolicyOp.weak_add_ref, PolicyOp.try_ref 0, PolicyOp.weak_release,
   PolicyOp.weak_release]

/-- Two objects, each held by one strong handle: handle 0 holds address 7 and handle 1
holds address 9. -/
def prog_two : List Op := [Op.ctor 7 true, Op.ctor 9 true]

/-- The heap after the first two statements of the test `transitive`, with the two
objects allocated at 7 and 9. -/
def chain_heap (b : Base) : NHeap := ((Dn.chain b 0 NHeap.fresh 7 9).getD (0, NHeap.fresh)).2

/-- `p->refcount_ref()++` of the tests: `base_t::refcount_ref()` returns a reference to
the strong counter `rc`, and `++` on the atomic adds one to it.  The weak counter is
not touched. -/
def base_t.refcount_ref_incr (x : Obj) : Obj := { x with rc := (fetch_add x.rc).2 }

/-- A sequence of calls of `release` on one weak-capable object, each either the
strong policy's (`true`) or the weak policy's (`false`). -/
def release_all : List Bool → Obj → Obj
  | [], y => y
  | true :: rs, y => release_all rs (strong_refc_policy.release y)
  | false :: rs, y => release_all rs (weak_refc_policy.release y)

/-- A schedule for two threads, the first owning the only `refc_ptr` and the second a
`refc_weak_ptr`: the second starts `lock()`, the first starts the release of its
handle (the strong count reaches 0), the second reads the count, the first runs the
destructor, the second gives up and then destroys its weak handle, and the first
finishes its release and frees the storage. -/
def sched_race : List Pick :=
  [⟨1, Call.try_ref, false⟩, ⟨0, Call.release, false⟩, ⟨1, Call.try_ref, false⟩,
   ⟨0, Call.release, false⟩, ⟨1, Call.try_ref, false⟩, ⟨1, Call.weak_release, false⟩,
   ⟨0, Call.release, false⟩, ⟨0, Call.release, false⟩]

/-- A schedule for the same two threads in which `lock()` wins the race: the second
thread increments the weak count, reads the strong count, fails its compare-exchange
spuriously, and succeeds on the next round. -/
def sched_lock : List Pick :=
  [⟨1, Call.try_ref, false⟩, ⟨1, Call.try_ref, false⟩, ⟨1, Call.try_ref, true⟩]

/-- The state an interleaving leads to, or the initial state if the schedule asks a
thread for a call it has no handle for. -/
def final_conc (handles : List (Nat × Nat)) (ps : List Pick) : Conc :=
  (Conc.run (Conc.init handles) ps).getD (Conc.init handles)

/-- A bound on the number of atomic steps thread `t` needs, running alone on the
object `x`, to finish its call in progress and then destroy all its handles. -/
def Thread.steps_left (x : Obj) (t : Thread) : Nat :=
  4 * t.strong + 2 * t.weak +
    (match t.pc with
     | Pc.idle => 0
     | Pc.add_ref_rc => 5
     | Pc.try_ref_load => 8
     | Pc.try_ref_loop r => if r = x.rc ∨ r = 0 then 6 else 7
     | Pc.release_destroy => 3
     | Pc.release_weak => 2
     | Pc.release_delete => 1)

/-! ## The policy functions -/

theorem ULONG_MOD_eq : ULONG_MOD = 18446744073709551616 := by
  norm_num [ULONG_MOD]

theorem try_ref_loop_eq (x : Obj) (n : Nat) :
    strong_refc_policy.try_ref_loop x n x.rc =
      (x.rc, if x.rc = 0 then { x with weak_rc := (fetch_sub x.weak_rc).2 }
             else { x with rc := (x.rc + 1) % ULONG_MOD }) := by
  induction n with
  | zero =>
    by_cases h : x.rc = 0
    · simp [strong_refc_policy.try_ref_loop, h]
    · have hp : 0 < x.rc := Nat.pos_of_ne_zero h
      simp [strong_refc_policy.try_ref_loop, h, hp, compare_exchange_weak]
  | succ n ih =>
    by_cases h : x.rc = 0
    · simp [strong_refc_policy.try_ref_loop, h]
    · have hp : 0 < x.rc := Nat.pos_of_ne_zero h
      simp only [strong_refc_policy.try_ref_loop, hp, if_true, compare_exchange_weak]
      simpa using ih

theorem try_ref_eq (n : Nat) (x : Obj) :
    strong_refc_policy.try_ref n x =
      (x.rc, if x.rc = 0 then
               { x with weak_rc := ((x.weak_rc + 1) % ULONG_MOD + ULONG_MOD - 1) % ULONG_MOD }
             else { x with rc := (x.rc + 1) % ULONG_MOD,
                           weak_rc := (x.weak_rc + 1) % ULONG_MOD }) := by
  unfold strong_refc_policy.try_ref
  have := try_ref_loop_eq { x with weak_rc := (fetch_add x.weak_rc).2 } n
  simp only [] at this ⊢
  rw [this]
  by_cases h : x.rc = 0 <;> simp [h, fetch_add, fetch_sub]

theorem rc_add_ref (b : Base) (o : Obj) :
    (b.policy_type.add_ref o).2.rc = (o.rc + 1) % ULONG_MOD := by
  cases b <;> rfl

theorem rc_release (b : Base) (o : Obj) :
    (b.policy_type.release o).rc = (o.rc + ULONG_MOD - 1) % ULONG_MOD := by
  cases b
  · simp only [Base.policy_type, refc_policy.release, fetch_sub]
    split_ifs <;> rfl
  · simp only [Base.policy_type, strong_refc_policy.release, fetch_sub]
    split_ifs <;> rfl

theorem strong_add_ref_eq (x : Obj) :
    strong_refc_policy.add_ref x =
      (x.rc, { x with rc := (x.rc + 1) % ULONG_MOD, weak_rc := (x.weak_rc + 1) % ULONG_MOD }) := by
  simp [strong_refc_policy.add_ref, fetch_add]

theorem strong_release_eq (x : Obj) :
    strong_refc_policy.release x =
      { rc := (x.rc + ULONG_MOD - 1) % ULONG_MOD,
        weak_rc := (x.weak_rc + ULONG_MOD - 1) % ULONG_MOD,
        log := x.log ++ (if x.rc = 1 then [Event.destroyed] else []) ++
          (if x.weak_rc = 1 then [Event.deallocated] else []) } := by
  simp only [strong_refc_policy.release, fetch_sub, Obj.destroy_at, Obj.operator_delete]
  by_cases h1 : x.rc = 1 <;> by_cases h2 : x.weak_rc = 1 <;> simp [h1, h2]

theorem weak_add_ref_eq (x : Obj) :
    weak_refc_policy.add_ref x =
      (x.weak_rc, { x with weak_rc := (x.weak_rc + 1) % ULONG_MOD }) := by
  simp [weak_refc_policy.add_ref, fetch_add]

theorem weak_release_eq (x : Obj) :
    weak_refc_policy.release x =
      { x with weak_rc := (x.weak_rc + ULONG_MOD - 1) % ULONG_MOD,
               log := x.log ++ (if x.weak_rc = 1 then [Event.deallocated] else []) } := by
  simp only [weak_refc_policy.release, fetch_sub, Obj.operator_delete]
  by_cases h2 : x.weak_rc = 1 <;> simp [h2]

/-! ## Accounting modulo the counter width -/

theorem ULONG_MOD_pos : 0 < ULONG_MOD := by
  rw [ULONG_MOD_eq]; decide

theorem succ_mod (x : Nat) : (x % ULONG_MOD + 1) % ULONG_MOD = (x + 1) % ULONG_MOD :=
  Nat.mod_add_mod x ULONG_MOD 1

theorem pred_mod (x : Nat) (h : 1 ≤ x) :
    (x % ULONG_MOD + ULONG_MOD - 1) % ULONG_MOD = (x - 1) % ULONG_MOD := by
  have hM := ULONG_MOD_pos
  rw [Nat.add_sub_assoc hM, Nat.mod_add_mod]
  have : x + (ULONG_MOD - 1) = (x - 1) + ULONG_MOD := by omega
  rw [this, Nat.add_mod_right]

theorem weak_strong_add_ref (x : Obj) :
    (strong_refc_policy.add_ref x).2.weak_rc = (x.weak_rc + 1) % ULONG_MOD := rfl

theorem weak_strong_release (x : Obj) :
    (strong_refc_policy.release x).weak_rc = (x.weak_rc + ULONG_MOD - 1) % ULONG_MOD := by
  rw [strong_release_eq]

theorem rc_weak_add_ref (x : Obj) : (weak_refc_policy.add_ref x).2.rc = x.rc := rfl

theorem weak_weak_add_ref (x : Obj) :
    (weak_refc_policy.add_ref x).2.weak_rc = (x.weak_rc + 1) % ULONG_MOD := rfl

theorem rc_weak_release (x : Obj) : (weak_refc_policy.release x).rc = x.rc := by
  rw [weak_release_eq]

theorem weak_weak_release (x : Obj) :
    (weak_refc_policy.release x).weak_rc = (x.weak_rc + ULONG_MOD - 1) % ULONG_MOD := by
  rw [weak_release_eq]

theorem try_ref_fst (n : Nat) (x : Obj) : (strong_refc_policy.try_ref n x).1 = x.rc := by
  rw [try_ref_eq]

theorem try_ref_rc (n : Nat) (x : Obj) :
    (strong_refc_policy.try_ref n x).2.rc = if x.rc = 0 then 0 else (x.rc + 1) % ULONG_MOD := by
  rw [try_ref_eq]
  by_cases h : x.rc = 0 <;> simp only [h, if_true, if_false]

theorem try_ref_weak (n : Nat) (x : Obj) :
    (strong_refc_policy.try_ref n x).2.weak_rc =
      if x.rc = 0 then ((x.weak_rc + 1) % ULONG_MOD + ULONG_MOD - 1) % ULONG_MOD
      else (x.weak_rc + 1) % ULONG_MOD := by
  rw [try_ref_eq]
  by_cases h : x.rc = 0 <;> simp only [h, if_true, if_false]

theorem try_ref_log (n : Nat) (x : Obj) : (strong_refc_policy.try_ref n x).2.log = x.log := by
  rw [try_ref_eq]
  by_cases h : x.rc = 0 <;> simp only [h, if_true, if_false]

theorem Units.acc_step (b : Base) (u u1 : Units) (c : PolicyOp) (hacc : u.Acc b)
    (h : Units.step b u c = some u1) : u1.Acc b := by
  obtain ⟨h1, h2⟩ := hacc
  cases c with
  | strong_add_ref =>
    simp only [Units.step, Option.some.injEq] at h
    subst h
    refine ⟨?_, ?_⟩
    · show (b.policy_type.add_ref u.obj).2.rc = (u.strong + 1) % ULONG_MOD
      rw [rc_add_ref, h1, succ_mod]
    · intro hb; subst hb
      show (strong_refc_policy.add_ref u.obj).2.weak_rc = (u.strong + 1 + u.weak) % ULONG_MOD
      rw [weak_strong_add_ref, h2 rfl, succ_mod, Nat.add_right_comm]
  | try_ref n =>
    cases b with
    | refc => simp only [Units.step] at h; exact absurd h (by simp)
    | refc_weak_base =>
      simp only [Units.step, Option.some.injEq] at h
      subst h
      have h2 := h2 rfl
      by_cases hz : u.obj.rc = 0
      · refine ⟨?_, fun _ => ?_⟩
        · show (strong_refc_policy.try_ref n u.obj).2.rc =
            (if (strong_refc_policy.try_ref n u.obj).1 = 0 then u.strong else u.strong + 1) %
              ULONG_MOD
          rw [try_ref_rc, try_ref_fst, if_pos hz, if_pos hz, ← h1, hz]
        · show (strong_refc_policy.try_ref n u.obj).2.weak_rc =
            ((if (strong_refc_policy.try_ref n u.obj).1 = 0 then u.strong else u.strong + 1) +
              u.weak) % ULONG_MOD
          rw [try_ref_weak, try_ref_fst, if_pos hz, if_pos hz, h2, succ_mod,
            pred_mod (u.strong + u.weak + 1) (Nat.succ_le_succ (Nat.zero_le _)),
            Nat.add_sub_cancel]
      · refine ⟨?_, fun _ => ?_⟩
        · show (strong_refc_policy.try_ref n u.obj).2.rc =
            (if (strong_refc_policy.try_ref n u.obj).1 = 0 then u.strong else u.strong + 1) %
              ULONG_MOD
          rw [try_ref_rc, try_ref_fst, if_neg hz, if_neg hz, h1, succ_mod]
        · show (strong_refc_policy.try_ref n u.obj).2.weak_rc =
            ((if (strong_refc_policy.try_ref n u.obj).1 = 0 then u.strong else u.strong + 1) +
              u.weak) % ULONG_MOD
          rw [try_ref_weak, try_ref_fst, if_neg hz, if_neg hz, h2, succ_mod, Nat.add_right_comm]
  | weak_add_ref =>
    cases b with
    | refc => simp only [Units.step] at h; exact absurd h (by simp)
    | refc_weak_base =>
      simp only [Units.step, Option.some.injEq] at h
      subst h
      refine ⟨?_, fun _ => ?_⟩
      · show (weak_refc_policy.add_ref u.obj).2.rc = u.strong % ULONG_MOD
        rw [rc_weak_add_ref, h1]
      · show (weak_refc_policy.add_ref u.obj).2.weak_rc = (u.strong + (u.weak + 1)) % ULONG_MOD
        rw [weak_weak_add_ref, h2 rfl, succ_mod, Nat.add_assoc]
  | strong_release =>
    by_cases hs : u.strong = 0
    · simp only [Units.step, hs, if_true] at h; exact absurd h (by simp)
    · simp only [Units.step, hs, if_false, Option.some.injEq] at h
      subst h
      have hs1 : 1 ≤ u.strong := Nat.pos_of_ne_zero hs
      refine ⟨?_, ?_⟩
      · show (b.policy_type.release u.obj).rc = (u.strong - 1) % ULONG_MOD
        rw [rc_release, h1, pred_mod _ hs1]
      · intro hb; subst hb
        show (strong_refc_policy.release u.obj).weak_rc = (u.strong - 1 + u.weak) % ULONG_MOD
        rw [weak_strong_release, h2 rfl, pred_mod _ (by omega)]
        congr 1
        omega
  | weak_release =>
    cases b with
    | refc => simp only [Units.step] at h; exact absurd h (by simp)
    | refc_weak_base =>
      by_cases hs : u.weak = 0
      · simp only [Units.step, hs, if_true] at h; exact absurd h (by simp)
      · simp only [Units.step, hs, if_false, Option.some.injEq] at h
        subst h
        have hs1 : 1 ≤ u.weak := Nat.pos_of_ne_zero hs
        refine ⟨?_, fun _ => ?_⟩
        · show (weak_refc_policy.release u.obj).rc = u.strong % ULONG_MOD
          rw [rc_weak_release, h1]
        · show (weak_refc_policy.release u.obj).weak_rc = (u.strong + (u.weak - 1)) % ULONG_MOD
          rw [weak_weak_release, h2 rfl, pred_mod _ (by omega)]
          congr 1
          omega

/-! ## Lists of handles -/

theorem count_set_getD (l : List (Option Nat)) (i : Nat) (v : Nat) (x y : Option Nat)
    (h : l.getD i none = some v) :
    (l.set i x).count y + (if some v = y then 1 else 0) = l.count y + (if x = y then 1 else 0) := by
  induction l generalizing i with
  | nil => simp at h
  | cons z l ih =>
    cases i with
    | zero =>
      simp at h
      subst h
      simp [List.count_cons]
      split_ifs <;> omega
    | succ i =>
      rw [List.getD_cons_succ] at h
      have := ih i h
      simp [List.count_cons]
      omega

theorem getD_set_self (l : List (Option Nat)) (i : Nat) (v : Nat) (x : Option Nat)
    (h : l.getD i none = some v) : (l.set i x).getD i none = x := by
  induction l generalizing i with
  | nil => simp at h
  | cons z l ih =>
    cases i with
    | zero => simp
    | succ i =>
      rw [List.getD_cons_succ] at h
      simpa using ih i h

theorem getD_set_other (l : List (Option Nat)) (i j : Nat) (x : Option Nat) (h : i ≠ j) :
    (l.set i x).getD j none = l.getD j none := by
  simp [List.getD_eq_getElem?_getD, List.getElem?_set_ne h]

theorem Heap.set_apply (h : Heap) (p : Nat) (o : Obj) (a : Nat) :
    Heap.set h p o a = if a = p then o else h a := rfl

theorem count_pos_of_getD (l : List (Option Nat)) (i : Nat) (v : Nat)
    (h : l.getD i none = some v) : 1 ≤ l.count (some v) := by
  have hm : some v ∈ l := by
    rw [List.getD_eq_getElem?_getD] at h
    cases hi : l[i]? with
    | none => simp [hi] at h
    | some x =>
      simp [hi] at h
      subst h
      exact List.getElem?_mem hi
  exact List.count_pos_iff.mpr hm

theorem ctor_fst (P : Policy) (p : Nat) (ref : Bool) (h : Heap) :
    (refc_ptr.ctor P p ref h).1 = p := by
  unfold refc_ptr.ctor; split_ifs <;> rfl

theorem ctor_snd (P : Policy) (p : Nat) (ref : Bool) (h : Heap) (a : Nat) (ha : a ≠ 0) :
    (refc_ptr.ctor P p ref h).2 a = if p = a ∧ ref = true then (P.add_ref (h a)).2 else h a := by
  unfold refc_ptr.ctor
  by_cases hp : p = a
  · subst hp; by_cases hr : ref = true <;> simp [hr, ha, Heap.set]
  · have : ¬ a = p := fun h => hp h.symm
    simp [hp]; split_ifs <;> simp [Heap.set, this]

theorem copy_fst (P : Policy) (o : Nat) (h : Heap) : (refc_ptr.copy P o h).1 = o := by
  unfold refc_ptr.copy; split_ifs <;> rfl

theorem copy_snd (P : Policy) (o : Nat) (h : Heap) (a : Nat) (ha : a ≠ 0) :
    (refc_ptr.copy P o h).2 a = if o = a then (P.add_ref (h a)).2 else h a := by
  unfold refc_ptr.copy
  by_cases hp : o = a
  · subst hp; simp [ha, Heap.set]
  · have : ¬ a = o := fun h => hp h.symm
    simp [hp]; split_ifs <;> simp [Heap.set, this]

theorem dtor_apply (P : Policy) (p : Nat) (h : Heap) (a : Nat) (ha : a ≠ 0) :
    refc_ptr.dtor P p h a = if p = a then P.release (h a) else h a := by
  unfold refc_ptr.dtor
  by_cases hp : p = a
  · subst hp; simp [ha, Heap.set]
  · have : ¬ a = p := fun h => hp h.symm
    simp [hp]; split_ifs <;> simp [Heap.set, this]


theorem run_safe_acquire_release (b : Base) (o : Obj) (c c1 k a pr pt : Nat)
    (hc : c1 + (if pt = a then 1 else 0) = c + (if pr = a then 1 else 0))
    (hpt : pt = a → 1 ≤ c) (hok : pr = a → 1 ≤ c ∨ o.log = []) :
    Units.run_safe b { obj := o, strong := c, weak := k }
        (on_addr a pr PolicyOp.strong_add_ref ++ on_addr a pt PolicyOp.strong_release) =
      some { obj := if pt = a then
                b.policy_type.release (if pr = a then (b.policy_type.add_ref o).2 else o)
              else (if pr = a then (b.policy_type.add_ref o).2 else o),
             strong := c1, weak := k } := by
  by_cases h1 : pr = a <;> by_cases h2 : pt = a
  · have := hok h1
    simp only [h1, h2, if_true] at hc ⊢
    simp [on_addr, Units.run_safe, Units.step, Units.pointer_ok, this]
    omega
  · have := hok h1
    simp only [h1, h2, if_true, if_false] at hc ⊢
    simp [on_addr, Units.run_safe, Units.step, Units.pointer_ok, this, h2]
    omega
  · have := hpt h2
    have hne : c ≠ 0 := by omega
    simp only [h1, h2, if_true, if_false] at hc ⊢
    simp [on_addr, Units.run_safe, Units.step, Units.pointer_ok, hne, h1]
    omega
  · simp only [h1, h2, if_false] at hc ⊢
    simp [on_addr, Units.run_safe, Units.step, Units.pointer_ok, h1, h2]
    omega


theorem run_safe_weak_acquire_release (o : Obj) (c k k1 a pr pt : Nat)
    (hk : k1 + (if pt = a then 1 else 0) = k + (if pr = a then 1 else 0))
    (hpt : pt = a → 1 ≤ k) (hok : pr = a → 1 ≤ c + k ∨ o.log = []) :
    Units.run_safe Base.refc_weak_base { obj := o, strong := c, weak := k }
        (on_addr a pr PolicyOp.weak_add_ref ++ on_addr a pt PolicyOp.weak_release) =
      some { obj := if pt = a then
                weak_refc_policy.release (if pr = a then (weak_refc_policy.add_ref o).2 else o)
              else (if pr = a then (weak_refc_policy.add_ref o).2 else o),
             strong := c, weak := k1 } := by
  by_cases h1 : pr = a <;> by_cases h2 : pt = a
  · have := hok h1
    simp only [h1, h2, if_true] at hk ⊢
    simp [on_addr, Units.run_safe, Units.step, Units.pointer_ok, this]
    omega
  · have := hok h1
    simp only [h1, h2, if_true, if_false] at hk ⊢
    simp [on_addr, Units.run_safe, Units.step, Units.pointer_ok, this, h2]
    omega
  · have := hpt h2
    have hne : k ≠ 0 := by omega
    simp only [h1, h2, if_true, if_false] at hk ⊢
    simp [on_addr, Units.run_safe, Units.step, Units.pointer_ok, hne, h1]
    omega
  · simp only [h1, h2, if_false] at hk ⊢
    simp [on_addr, Units.run_safe, Units.step, Units.pointer_ok, h1, h2]
    omega

theorem run_safe_try_ref (o : Obj) (c c1 k a pt n : Nat)
    (hc : c1 = c + (if pt = a ∧ (strong_refc_policy.try_ref n o).1 ≠ 0 then 1 else 0))
    (hok : pt = a → 1 ≤ c + k ∨ o.log = []) :
    Units.run_safe Base.refc_weak_base { obj := o, strong := c, weak := k }
        (on_addr a pt (PolicyOp.try_ref n)) =
      some { obj := if pt = a then (strong_refc_policy.try_ref n o).2 else o,
             strong := c1, weak := k } := by
  by_cases h1 : pt = a
  · have := hok h1
    simp only [h1, if_true, true_and] at hc ⊢
    simp [on_addr, Units.run_safe, Units.step, Units.pointer_ok, this]
    split_ifs at hc ⊢ <;> simp_all
  · simp only [h1, if_false, false_and] at hc ⊢
    simp [on_addr, Units.run_safe, hc, h1]

theorem wctor_fst (o : Nat) (h : Heap) : (refc_weak_ptr.ctor o h).1 = o := by
  unfold refc_weak_ptr.ctor; split_ifs with h0
  · rfl
  · simp at h0; simp [h0]

theorem wctor_snd (o : Nat) (h : Heap) (a : Nat) (ha : a ≠ 0) :
    (refc_weak_ptr.ctor o h).2 a = if o = a then (weak_refc_policy.add_ref (h a)).2 else h a := by
  unfold refc_weak_ptr.ctor
  by_cases hp : o = a
  · subst hp; simp [ha, Heap.set]
  · have : ¬ a = o := fun h => hp h.symm
    simp [hp]; split_ifs <;> simp [Heap.set, this]

theorem wdtor_apply (p : Nat) (h : Heap) (a : Nat) (ha : a ≠ 0) :
    refc_weak_ptr.dtor p h a = if p = a then weak_refc_policy.release (h a) else h a := by
  unfold refc_weak_ptr.dtor
  by_cases hp : p = a
  · subst hp; simp [ha, Heap.set]
  · have : ¬ a = p := fun h => hp h.symm
    simp [hp]; split_ifs <;> simp [Heap.set, this]

theorem lock_fst (n p : Nat) (h : Heap) :
    (refc_weak_ptr.lock n p h).1 =
      if (strong_refc_policy.try_ref n (h p)).1 = 0 then 0 else p := by
  unfold refc_weak_ptr.lock
  by_cases hp : p = 0
  · simp [hp]
  · simp only [hp, if_false]
    split_ifs
    · rfl
    · exact ctor_fst _ _ _ _

theorem lock_snd (n p : Nat) (h : Heap) (a : Nat) (ha : a ≠ 0) :
    (refc_weak_ptr.lock n p h).2 a =
      if p = a then (strong_refc_policy.try_ref n (h a)).2 else h a := by
  unfold refc_weak_ptr.lock
  by_cases hp : p = 0
  · have h0 : ¬ 0 = a := fun e => ha e.symm
    subst hp
    simp [h0]
  · simp only [hp, if_false]
    by_cases hpa : p = a
    · subst hpa
      by_cases hz : (strong_refc_policy.try_ref n (h p)).1 = 0 <;>
        simp [hz, refc_ptr.ctor, Heap.set]
    · have : ¬ a = p := fun h => hpa h.symm
      by_cases hz : (strong_refc_policy.try_ref n (h p)).1 = 0 <;>
        simp [hz, refc_ptr.ctor, Heap.set, this, hpa]

theorem count_snoc (l : List (Option Nat)) (x y : Option Nat) :
    (l ++ [x]).count y = l.count y + (if x = y then 1 else 0) := by
  simp [List.count_append, List.count_singleton]


theorem count_snoc_some (l : List (Option Nat)) (p a : Nat) :
    (l ++ [some p]).count (some a) = l.count (some a) + (if p = a then 1 else 0) := by
  simpa using count_snoc l (some p) (some a)

theorem count_set_some (l : List (Option Nat)) (i v x a : Nat) (h : l.getD i none = some v) :
    (l.set i (some x)).count (some a) + (if v = a then 1 else 0) =
      l.count (some a) + (if x = a then 1 else 0) := by
  simpa using count_set_getD l i v (some x) (some a) h

theorem count_set_none (l : List (Option Nat)) (i v a : Nat) (h : l.getD i none = some v) :
    (l.set i none).count (some a) + (if v = a then 1 else 0) = l.count (some a) := by
  simpa using count_set_getD l i v none (some a) h

theorem run_safe_acquire (b : Base) (o : Obj) (c c1 k a pr : Nat) (ha : a ≠ 0)
    (hc : c1 = c + (if pr = a then 1 else 0)) (hok : pr = a → 1 ≤ c ∨ o.log = []) :
    Units.run_safe b { obj := o, strong := c, weak := k } (on_addr a pr PolicyOp.strong_add_ref) =
      some { obj := if pr = a then (b.policy_type.add_ref o).2 else o, strong := c1, weak := k } := by
  have h0 : ¬ 0 = a := fun e => ha e.symm
  have := run_safe_acquire_release b o c c1 k a pr 0 (by simp [h0, hc]) (fun e => absurd e h0) hok
  simpa [on_addr, h0] using this

theorem run_safe_release (b : Base) (o : Obj) (c c1 k a pt : Nat) (ha : a ≠ 0)
    (hc : c1 + (if pt = a then 1 else 0) = c) (hpt : pt = a → 1 ≤ c) :
    Units.run_safe b { obj := o, strong := c, weak := k } (on_addr a pt PolicyOp.strong_release) =
      some { obj := if pt = a then b.policy_type.release o else o, strong := c1, weak := k } := by
  have h0 : ¬ 0 = a := fun e => ha e.symm
  have := run_safe_acquire_release b o c c1 k a 0 pt (by simp [h0, hc]) hpt (fun e => absurd e h0)
  simpa [on_addr, h0] using this

theorem run_safe_weak_acquire (o : Obj) (c k k1 a pr : Nat) (ha : a ≠ 0)
    (hk : k1 = k + (if pr = a then 1 else 0)) (hok : pr = a → 1 ≤ c + k ∨ o.log = []) :
    Units.run_safe Base.refc_weak_base { obj := o, strong := c, weak := k }
        (on_addr a pr PolicyOp.weak_add_ref) =
      some { obj := if pr = a then (weak_refc_policy.add_ref o).2 else o, strong := c, weak := k1 } := by
  have h0 : ¬ 0 = a := fun e => ha e.symm
  have := run_safe_weak_acquire_release o c k k1 a pr 0 (by simp [h0, hk]) (fun e => absurd e h0) hok
  simpa [on_addr, h0] using this

theorem run_safe_weak_release (o : Obj) (c k k1 a pt : Nat) (ha : a ≠ 0)
    (hk : k1 + (if pt = a then 1 else 0) = k) (hpt : pt = a → 1 ≤ k) :
    Units.run_safe Base.refc_weak_base { obj := o, strong := c, weak := k }
        (on_addr a pt PolicyOp.weak_release) =
      some { obj := if pt = a then weak_refc_policy.release o else o, strong := c, weak := k1 } := by
  have h0 : ¬ 0 = a := fun e => ha e.symm
  have := run_safe_weak_acquire_release o c k k1 a 0 pt (by simp [h0, hk]) hpt (fun e => absurd e h0)
  simpa [on_addr, h0] using this

theorem step_units_ctor (b : Base) (w w1 : World) (p : Nat) (a : Nat) (ha : a ≠ 0)
    (h : step b w (Op.ctor p true) = some w1) :
    Units.run_safe b (w.units a) ((Op.ctor p true).calls w a) = some (w1.units a) := by
  simp only [step] at h
  by_cases hr : w.raw_ok p = true
  · simp only [hr, if_true, Option.some.injEq] at h
    subst h
    have hok : p = a → 1 ≤ w.scount a ∨ (w.heap a).log = [] := by
      intro e
      subst e
      simp only [World.raw_ok, decide_eq_true_eq] at hr
      exact Or.inr (hr.resolve_left ha)
    have key := run_safe_acquire b (w.heap a) (w.scount a) _ (w.wcount a) a p ha
      (count_snoc_some w.sp p a) hok
    simpa only [Op.calls, if_true, World.units, World.scount, World.wcount, ctor_fst,
      ctor_snd _ _ _ _ _ ha, and_true, Option.some.injEq] using key
  · simp [hr] at h

theorem step_units_copy (b : Base) (w w1 : World) (o : Nat) (a : Nat) (ha : a ≠ 0)
    (h : step b w (Op.copy o) = some w1) :
    Units.run_safe b (w.units a) ((Op.copy o).calls w a) = some (w1.units a) := by
  simp only [step] at h
  cases ho : w.sget o with
  | none => simp [ho] at h
  | some po =>
    simp only [ho, Option.some.injEq] at h
    subst h
    have hpo := count_pos_of_getD w.sp o po ho
    have key := run_safe_acquire b (w.heap a) (w.scount a) _ (w.wcount a) a po ha
      (count_snoc_some w.sp po a) (fun e => Or.inl (e ▸ hpo))
    simpa only [Op.calls, ho, Option.getD_some, World.units, World.scount, World.wcount, copy_fst,
      copy_snd _ _ _ _ ha, Option.some.injEq] using key

theorem units_eq (w w1 : World) (a : Nat) (hh : w1.heap a = w.heap a)
    (hs : w1.sp.count (some a) = w.sp.count (some a))
    (hw : w1.wp.count (some a) = w.wp.count (some a)) :
    w.units a = w1.units a := by
  simp only [World.units, World.scount, World.wcount, hh, hs, hw]

theorem if_zero_eq (a : Nat) (ha : a ≠ 0) : (if 0 = a then 1 else 0) = 0 := by
  have h0 : ¬ 0 = a := fun e => ha e.symm
  simp [h0]

theorem step_units_move (b : Base) (w w1 : World) (o : Nat) (a : Nat) (ha : a ≠ 0)
    (h : step b w (Op.move o) = some w1) :
    Units.run_safe b (w.units a) ((Op.move o).calls w a) = some (w1.units a) := by
  simp only [step] at h
  cases ho : w.sget o with
  | none => simp [ho] at h
  | some po =>
    simp only [ho, Option.some.injEq] at h
    subst h
    have h1 := count_set_some w.sp o po 0 a ho
    have h2 := count_snoc_some (w.sp.set o (some 0)) po a
    rw [if_zero_eq a ha] at h1
    simp only [Op.calls, Units.run_safe, Option.some.injEq, refc_ptr.move]
    refine units_eq _ _ a rfl ?_ rfl
    dsimp only
    omega

theorem getD_set_same_or (l : List (Option Nat)) (i j : Nat) (vi vj : Nat) (x : Option Nat)
    (hi : l.getD i none = some vi) (hj : l.getD j none = some vj) :
    (l.set i x).getD j none = if i = j then x else some vj := by
  by_cases e : i = j
  · subst e; simp only [if_true]; exact getD_set_self l i vi x hi
  · simp only [e, if_false]; rw [getD_set_other l i j x e, hj]

theorem step_units_swap (b : Base) (w w1 : World) (this rhs : Nat) (a : Nat)
    (h : step b w (Op.swap this rhs) = some w1) :
    Units.run_safe b (w.units a) ((Op.swap this rhs).calls w a) = some (w1.units a) := by
  simp only [step] at h
  cases ht : w.sget this with
  | none => simp [ht] at h
  | some pt =>
    cases hr : w.sget rhs with
    | none => simp [ht, hr] at h
    | some pr =>
      simp only [ht, hr, Option.some.injEq, refc_ptr.swap] at h
      subst h
      have h1 := count_set_some w.sp this pt pr a ht
      have hg : (w.sp.set this (some pr)).getD rhs none = some pr := by
        rw [getD_set_same_or w.sp this rhs pt pr (some pr) ht hr]
        split_ifs <;> rfl
      have h2 := count_set_some (w.sp.set this (some pr)) rhs pr pt a hg
      simp only [Op.calls, Units.run_safe, Option.some.injEq]
      refine units_eq _ _ a rfl ?_ rfl
      dsimp only
      omega

theorem step_units_assign (b : Base) (w w1 : World) (this rhs : Nat) (a : Nat) (ha : a ≠ 0)
    (h : step b w (Op.assign this rhs) = some w1) :
    Units.run_safe b (w.units a) ((Op.assign this rhs).calls w a) = some (w1.units a) := by
  simp only [step] at h
  cases ht : w.sget this with
  | none => simp [ht] at h
  | some pt =>
    cases hr : w.sget rhs with
    | none => simp [ht, hr] at h
    | some pr =>
      simp only [ht, hr, Option.some.injEq] at h
      subst h
      have hc := count_set_some w.sp this pt pr a ht
      have hpt := count_pos_of_getD w.sp this pt ht
      have hpr := count_pos_of_getD w.sp rhs pr hr
      have key := run_safe_acquire_release b (w.heap a) _ _ (w.wcount a) a pr pt hc
        (fun e => e ▸ hpt) (fun e => Or.inl (e ▸ hpr))
      simpa only [Op.calls, ht, hr, Option.getD_some, refc_ptr.swap, copy_fst,
        World.units, World.scount, World.wcount, dtor_apply _ _ _ _ ha, copy_snd _ _ _ _ ha]
        using key

theorem step_units_move_assign (b : Base) (w w1 : World) (this rhs : Nat) (a : Nat) (ha : a ≠ 0)
    (h : step b w (Op.move_assign this rhs) = some w1) :
    Units.run_safe b (w.units a) ((Op.move_assign this rhs).calls w a) = some (w1.units a) := by
  simp only [step] at h
  cases ht : w.sget this with
  | none => simp [ht] at h
  | some pt =>
    cases hr : w.sget rhs with
    | none => simp [ht, hr] at h
    | some pr =>
      simp only [ht, hr, Option.some.injEq, refc_ptr.move, refc_ptr.swap] at h
      subst h
      have h1 := count_set_some w.sp rhs pr 0 a hr
      rw [if_zero_eq a ha] at h1
      have hg := getD_set_same_or w.sp rhs this pr pt (some 0) hr ht
      have hpt := count_pos_of_getD w.sp this pt ht
      by_cases e : this = rhs
      · subst e
        simp only [if_true] at hg
        have h2 := count_set_some (w.sp.set this (some 0)) this 0 pr a hg
        rw [if_zero_eq a ha] at h2
        simp only [Op.calls, if_true, Units.run_safe, Option.some.injEq, hg, Option.getD_some]
        have h0 : ¬ 0 = a := fun e => ha e.symm
        refine units_eq _ _ a ?_ ?_ rfl
        · simp only [dtor_apply _ _ _ _ ha, h0, if_false]
        · dsimp only
          omega
      · have e1 : ¬ rhs = this := fun x => e x.symm
        simp only [e1, if_false] at hg
        have h2 := count_set_some (w.sp.set rhs (some 0)) this pt pr a hg
        have key := run_safe_release b (w.heap a) (w.scount a)
          (List.count (some a) ((w.sp.set rhs (some 0)).set this (some pr))) (w.wcount a) a pt ha
          (by simp only [World.scount]; omega) (fun x => x ▸ hpt)
        simpa only [Op.calls, e, if_false, ht, hg, Option.getD_some, World.units, World.scount,
          World.wcount, dtor_apply _ _ _ _ ha] using key

theorem step_units_reset (b : Base) (w w1 : World) (this : Nat) (a : Nat) (ha : a ≠ 0)
    (h : step b w (Op.reset this) = some w1) :
    Units.run_safe b (w.units a) ((Op.reset this).calls w a) = some (w1.units a) := by
  simp only [step] at h
  cases ht : w.sget this with
  | none => simp [ht] at h
  | some pt =>
    simp only [ht, Option.some.injEq, refc_ptr.swap] at h
    subst h
    have hc := count_set_some w.sp this pt 0 a ht
    rw [if_zero_eq a ha] at hc
    have hpt := count_pos_of_getD w.sp this pt ht
    have key := run_safe_release b (w.heap a) (w.scount a)
      (List.count (some a) (w.sp.set this (some 0))) (w.wcount a) a pt ha
      (by simp only [World.scount]; omega) (fun x => x ▸ hpt)
    simpa only [Op.calls, ht, Option.getD_some, World.units, World.scount,
      World.wcount, dtor_apply _ _ _ _ ha] using key

theorem step_units_reset_to (b : Base) (w w1 : World) (this to_ : Nat) (a : Nat) (ha : a ≠ 0)
    (h : step b w (Op.reset_to this to_ true) = some w1) :
    Units.run_safe b (w.units a) ((Op.reset_to this to_ true).calls w a) = some (w1.units a) := by
  simp only [step] at h
  cases ht : w.sget this with
  | none => simp [ht] at h
  | some pt =>
    by_cases hr : w.raw_ok to_ = true
    · simp only [ht, hr, if_true, Option.some.injEq, refc_ptr.swap, ctor_fst] at h
      subst h
      have hok : to_ = a → 1 ≤ w.scount a ∨ (w.heap a).log = [] := by
        intro e
        subst e
        simp only [World.raw_ok, decide_eq_true_eq] at hr
        exact Or.inr (hr.resolve_left ha)
      have hc := count_set_some w.sp this pt to_ a ht
      have hpt := count_pos_of_getD w.sp this pt ht
      have key := run_safe_acquire_release b (w.heap a) _ _ (w.wcount a) a to_ pt hc
        (fun e => e ▸ hpt) hok
      simpa only [Op.calls, if_true, ht, Option.getD_some, World.units, World.scount,
        World.wcount, dtor_apply _ _ _ _ ha, ctor_snd _ _ _ _ _ ha, and_true] using key
    · simp [ht, hr] at h

theorem step_units_dtor (b : Base) (w w1 : World) (this : Nat) (a : Nat) (ha : a ≠ 0)
    (h : step b w (Op.dtor this) = some w1) :
    Units.run_safe b (w.units a) ((Op.dtor this).calls w a) = some (w1.units a) := by
  simp only [step] at h
  cases ht : w.sget this with
  | none => simp [ht] at h
  | some pt =>
    simp only [ht, Option.some.injEq] at h
    subst h
    have hc := count_set_none w.sp this pt a ht
    have hpt := count_pos_of_getD w.sp this pt ht
    have key := run_safe_release b (w.heap a) (w.scount a)
      (List.count (some a) (w.sp.set this none)) (w.wcount a) a pt ha
      (by simp only [World.scount]; omega) (fun x => x ▸ hpt)
    simpa only [Op.calls, ht, Option.getD_some, World.units, World.scount,
      World.wcount, dtor_apply _ _ _ _ ha] using key

theorem step_units_weak_from (b : Base) (w w1 : World) (o : Nat) (a : Nat) (ha : a ≠ 0)
    (h : step b w (Op.weak_from o) = some w1) :
    Units.run_safe b (w.units a) ((Op.weak_from o).calls w a) = some (w1.units a) := by
  simp only [step] at h
  cases b with
  | refc => simp at h
  | refc_weak_base =>
    cases ho : w.sget o with
    | none => simp [ho] at h
    | some po =>
      simp only [ho, Option.some.injEq, wctor_fst] at h
      subst h
      have hpo := count_pos_of_getD w.sp o po ho
      have key := run_safe_weak_acquire (w.heap a) (w.scount a) (w.wcount a) _ a po ha
        (count_snoc_some w.wp po a)
        (fun e => Or.inl (by subst e; simp only [World.scount]; omega))
      simpa only [Op.calls, ho, Option.getD_some, World.units, World.scount, World.wcount,
        wctor_snd _ _ _ ha] using key

theorem step_units_weak_copy (b : Base) (w w1 : World) (o : Nat) (a : Nat) (ha : a ≠ 0)
    (h : step b w (Op.weak_copy o) = some w1) :
    Units.run_safe b (w.units a) ((Op.weak_copy o).calls w a) = some (w1.units a) := by
  simp only [step] at h
  cases b with
  | refc => simp at h
  | refc_weak_base =>
    cases ho : w.wget o with
    | none => simp [ho] at h
    | some po =>
      simp only [ho, Option.some.injEq, wctor_fst] at h
      subst h
      have hpo := count_pos_of_getD w.wp o po ho
      have key := run_safe_weak_acquire (w.heap a) (w.scount a) (w.wcount a) _ a po ha
        (count_snoc_some w.wp po a)
        (fun e => Or.inl (by subst e; simp only [World.wcount]; omega))
      simpa only [Op.calls, ho, Option.getD_some, World.units, World.scount, World.wcount,
        wctor_snd _ _ _ ha] using key

theorem step_units_weak_move (b : Base) (w w1 : World) (o : Nat) (a : Nat) (ha : a ≠ 0)
    (h : step b w (Op.weak_move o) = some w1) :
    Units.run_safe b (w.units a) ((Op.weak_move o).calls w a) = some (w1.units a) := by
  simp only [step] at h
  cases b with
  | refc => simp at h
  | refc_weak_base =>
    cases ho : w.wget o with
    | none => simp [ho] at h
    | some po =>
      simp only [ho, Option.some.injEq, refc_weak_ptr.move] at h
      subst h
      have h1 := count_set_some w.wp o po 0 a ho
      have h2 := count_snoc_some (w.wp.set o (some 0)) po a
      rw [if_zero_eq a ha] at h1
      simp only [Op.calls, Units.run_safe, Option.some.injEq]
      refine units_eq _ _ a rfl rfl ?_
      dsimp only
      omega

theorem step_units_weak_swap (b : Base) (w w1 : World) (this rhs : Nat) (a : Nat)
    (h : step b w (Op.weak_swap this rhs) = some w1) :
    Units.run_safe b (w.units a) ((Op.weak_swap this rhs).calls w a) = some (w1.units a) := by
  simp only [step] at h
  cases b with
  | refc => simp at h
  | refc_weak_base =>
    cases ht : w.wget this with
    | none => simp [ht] at h
    | some pt =>
      cases hr : w.wget rhs with
      | none => simp [ht, hr] at h
      | some pr =>
        simp only [ht, hr, Option.some.injEq] at h
        subst h
        have h1 := count_set_some w.wp this pt pr a ht
        have hg : (w.wp.set this (some pr)).getD rhs none = some pr := by
          rw [getD_set_same_or w.wp this rhs pt pr (some pr) ht hr]
          split_ifs <;> rfl
        have h2 := count_set_some (w.wp.set this (some pr)) rhs pr pt a hg
        simp only [Op.calls, Units.run_safe, Option.some.injEq]
        refine units_eq _ _ a rfl rfl ?_
        dsimp only
        omega

theorem step_units_weak_assign (b : Base) (w w1 : World) (this rhs : Nat) (a : Nat) (ha : a ≠ 0)
    (h : step b w (Op.weak_assign this rhs) = some w1) :
    Units.run_safe b (w.units a) ((Op.weak_assign this rhs).calls w a) = some (w1.units a) := by
  simp only [step] at h
  cases b with
  | refc => simp at h
  | refc_weak_base =>
    cases ht : w.wget this with
    | none => simp [ht] at h
    | some pt =>
      cases hr : w.wget rhs with
      | none => simp [ht, hr] at h
      | some pr =>
        simp only [ht, hr, Option.some.injEq, wctor_fst] at h
        subst h
        have hc := count_set_some w.wp this pt pr a ht
        have hpt := count_pos_of_getD w.wp this pt ht
        have hpr := count_pos_of_getD w.wp rhs pr hr
        have key := run_safe_weak_acquire_release (w.heap a) (w.scount a) _ _ a pr pt hc
          (fun e => e ▸ hpt) (fun e => Or.inl (by subst e; omega))
        simpa only [Op.calls, ht, hr, Option.getD_some, World.units, World.scount, World.wcount,
          wdtor_apply _ _ _ ha, wctor_snd _ _ _ ha] using key

theorem step_units_weak_assign_from (b : Base) (w w1 : World) (this rhs : Nat) (a : Nat)
    (ha : a ≠ 0) (h : step b w (Op.weak_assign_from this rhs) = some w1) :
    Units.run_safe b (w.units a) ((Op.weak_assign_from this rhs).calls w a) =
      some (w1.units a) := by
  simp only [step] at h
  cases b with
  | refc => simp at h
  | refc_weak_base =>
    cases ht : w.wget this with
    | none => simp [ht] at h
    | some pt =>
      cases hr : w.sget rhs with
      | none => simp [ht, hr] at h
      | some pr =>
        simp only [ht, hr, Option.some.injEq, wctor_fst] at h
        subst h
        have hc := count_set_some w.wp this pt pr a ht
        have hpt := count_pos_of_getD w.wp this pt ht
        have hpr := count_pos_of_getD w.sp rhs pr hr
        have key := run_safe_weak_acquire_release (w.heap a) (w.scount a) _ _ a pr pt hc
          (fun e => e ▸ hpt) (fun e => Or.inl (by subst e; simp only [World.scount]; omega))
        simpa only [Op.calls, ht, hr, Option.getD_some, World.units, World.scount, World.wcount,
          wdtor_apply _ _ _ ha, wctor_snd _ _ _ ha] using key

theorem step_units_weak_move_assign (b : Base) (w w1 : World) (this rhs : Nat) (a : Nat)
    (ha : a ≠ 0) (h : step b w (Op.weak_move_assign this rhs) = some w1) :
    Units.run_safe b (w.units a) ((Op.weak_move_assign this rhs).calls w a) =
      some (w1.units a) := by
  simp only [step] at h
  cases b with
  | refc => simp at h
  | refc_weak_base =>
    cases ht : w.wget this with
    | none => simp [ht] at h
    | some pt =>
      cases hr : w.wget rhs with
      | none => simp [ht, hr] at h
      | some pr =>
        simp only [ht, hr, Option.some.injEq, refc_weak_ptr.move] at h
        subst h
        have h1 := count_set_some w.wp rhs pr 0 a hr
        rw [if_zero_eq a ha] at h1
        have hg := getD_set_same_or w.wp rhs this pr pt (some 0) hr ht
        have hpt := count_pos_of_getD w.wp this pt ht
        by_cases e : this = rhs
        · subst e
          simp only [if_true] at hg
          have h2 := count_set_some (w.wp.set this (some 0)) this 0 pr a hg
          rw [if_zero_eq a ha] at h2
          simp only [Op.calls, if_true, Units.run_safe, Option.some.injEq, hg, Option.getD_some]
          have h0 : ¬ 0 = a := fun e => ha e.symm
          refine units_eq _ _ a ?_ rfl ?_
          · simp only [wdtor_apply _ _ _ ha, h0, if_false]
          · dsimp only
            omega
        · have e1 : ¬ rhs = this := fun x => e x.symm
          simp only [e1, if_false] at hg
          have h2 := count_set_some (w.wp.set rhs (some 0)) this pt pr a hg
          have key := run_safe_weak_release (w.heap a) (w.scount a) (w.wcount a)
            (List.count (some a) ((w.wp.set rhs (some 0)).set this (some pr))) a pt ha
            (by simp only [World.wcount]; omega) (fun x => x ▸ hpt)
          simpa only [Op.calls, e, if_false, ht, hg, Option.getD_some, World.units, World.scount,
            World.wcount, wdtor_apply _ _ _ ha] using key

theorem step_units_weak_dtor (b : Base) (w w1 : World) (this : Nat) (a : Nat) (ha : a ≠ 0)
    (h : step b w (Op.weak_dtor this) = some w1) :
    Units.run_safe b (w.units a) ((Op.weak_dtor this).calls w a) = some (w1.units a) := by
  simp only [step] at h
  cases b with
  | refc => simp at h
  | refc_weak_base =>
    cases ht : w.wget this with
    | none => simp [ht] at h
    | some pt =>
      simp only [ht, Option.some.injEq] at h
      subst h
      have hc := count_set_none w.wp this pt a ht
      have hpt := count_pos_of_getD w.wp this pt ht
      have key := run_safe_weak_release (w.heap a) (w.scount a) (w.wcount a)
        (List.count (some a) (w.wp.set this none)) a pt ha
        (by simp only [World.wcount]; omega) (fun x => x ▸ hpt)
      simpa only [Op.calls, ht, Option.getD_some, World.units, World.scount,
        World.wcount, wdtor_apply _ _ _ ha] using key

theorem step_units_weak_lock (b : Base) (w w1 : World) (this n : Nat) (a : Nat) (ha : a ≠ 0)
    (h : step b w (Op.weak_lock this n) = some w1) :
    Units.run_safe b (w.units a) ((Op.weak_lock this n).calls w a) = some (w1.units a) := by
  simp only [step] at h
  cases b with
  | refc => simp at h
  | refc_weak_base =>
    cases ht : w.wget this with
    | none => simp [ht] at h
    | some pt =>
      simp only [ht, Option.some.injEq] at h
      subst h
      have hpt := count_pos_of_getD w.wp this pt ht
      have hc : List.count (some a) (w.sp ++ [some (refc_weak_ptr.lock n pt w.heap).1]) =
          w.scount a + (if pt = a ∧ (strong_refc_policy.try_ref n (w.heap a)).1 ≠ 0
            then 1 else 0) := by
        rw [count_snoc_some, lock_fst]
        simp only [World.scount]
        by_cases e : pt = a
        · subst e
          by_cases z : (strong_refc_policy.try_ref n (w.heap pt)).1 = 0
          · simp [z, if_zero_eq pt ha]
          · simp [z]
        · by_cases z : (strong_refc_policy.try_ref n (w.heap pt)).1 = 0
          · simp [z, e, if_zero_eq a ha]
          · simp [z, e]
      have key := run_safe_try_ref (w.heap a) (w.scount a) _ (w.wcount a) a pt n hc
        (fun e => Or.inl (by subst e; simp only [World.wcount]; omega))
      simpa only [Op.calls, ht, Option.getD_some, World.units, World.scount,
        World.wcount, lock_snd _ _ _ _ ha] using key

theorem step_units (b : Base) (w w1 : World) (op : Op) (a : Nat) (ha : a ≠ 0)
    (hcnt : op.counted = true) (h : step b w op = some w1) :
    Units.run_safe b (w.units a) (op.calls w a) = some (w1.units a) := by
  cases op with
  | ctor p ref =>
    simp only [Op.counted] at hcnt; subst hcnt
    exact step_units_ctor b w w1 p a ha h
  | copy o => exact step_units_copy b w w1 o a ha h
  | move o => exact step_units_move b w w1 o a ha h
  | assign this rhs => exact step_units_assign b w w1 this rhs a ha h
  | move_assign this rhs => exact step_units_move_assign b w w1 this rhs a ha h
  | swap this rhs => exact step_units_swap b w w1 this rhs a h
  | reset this => exact step_units_reset b w w1 this a ha h
  | reset_to this to_ add_ref =>
    simp only [Op.counted] at hcnt; subst hcnt
    exact step_units_reset_to b w w1 this to_ a ha h
  | detach this => simp [Op.counted] at hcnt
  | dtor this => exact step_units_dtor b w w1 this a ha h
  | weak_from o => exact step_units_weak_from b w w1 o a ha h
  | weak_copy o => exact step_units_weak_copy b w w1 o a ha h
  | weak_move o => exact step_units_weak_move b w w1 o a ha h
  | weak_assign this rhs => exact step_units_weak_assign b w w1 this rhs a ha h
  | weak_move_assign this rhs => exact step_units_weak_move_assign b w w1 this rhs a ha h
  | weak_assign_from this rhs => exact step_units_weak_assign_from b w w1 this rhs a ha h
  | weak_swap this rhs => exact step_units_weak_swap b w w1 this rhs a h
  | weak_lock this n => exact step_units_weak_lock b w w1 this n a ha h
  | weak_dtor this => exact step_units_weak_dtor b w w1 this a ha h

/-! ## From statements to policy calls: accounting for whole programs -/

theorem Units.run_of_run_safe (b : Base) (cs : List PolicyOp) (u u1 : Units)
    (h : Units.run_safe b u cs = some u1) : Units.run b u cs = some u1 := by
  induction cs generalizing u with
  | nil => simpa [Units.run_safe, Units.run] using h
  | cons c cs ih =>
    simp only [Units.run_safe] at h
    by_cases hp : u.pointer_ok c = true
    · simp only [hp, if_true] at h
      cases hs : Units.step b u c with
      | none => simp [hs] at h
      | some u2 =>
        simp only [hs] at h
        simp only [Units.run, hs]
        exact ih u2 h
    · simp [hp] at h

theorem Units.acc_run (b : Base) (cs : List PolicyOp) (u u1 : Units) (hacc : u.Acc b)
    (h : Units.run b u cs = some u1) : u1.Acc b := by
  induction cs generalizing u with
  | nil =>
    simp only [Units.run, Option.some.injEq] at h
    exact h ▸ hacc
  | cons c cs ih =>
    simp only [Units.run] at h
    cases hs : Units.step b u c with
    | none => simp [hs] at h
    | some u2 =>
      simp only [hs] at h
      exact ih u2 (Units.acc_step b u u2 c hacc hs) h

theorem acc_init (b : Base) (a : Nat) : (World.init.units a).Acc b := by
  refine ⟨?_, fun _ => ?_⟩
  · show (0 : Nat) = (List.count (some a) []) % ULONG_MOD
    simp
  · show (0 : Nat) = (List.count (some a) [] + List.count (some a) []) % ULONG_MOD
    simp

theorem acc_world_run (b : Base) (ops : List Op) (w w1 : World)
    (hacc : ∀ a, a ≠ 0 → (w.units a).Acc b)
    (hops : ∀ op ∈ ops, op.counted = true)
    (h : run b w ops = some w1) : ∀ a, a ≠ 0 → (w1.units a).Acc b := by
  induction ops generalizing w with
  | nil =>
    simp only [run, Option.some.injEq] at h
    exact h ▸ hacc
  | cons op ops ih =>
    simp only [run] at h
    cases hs : step b w op with
    | none => simp [hs] at h
    | some w2 =>
      simp only [hs] at h
      refine ih w2 (fun a ha => ?_) (fun o ho => hops o (List.mem_cons_of_mem _ ho)) h
      have hu := step_units b w w2 op a ha (hops op (List.mem_cons_self _ _)) hs
      exact Units.acc_run b _ _ _ (hacc a ha) (Units.run_of_run_safe b _ _ _ hu)

/-! ## Counters that have not overflowed -/

theorem add_one_mod (x : Nat) (h : x + 1 < ULONG_MOD) : (x + 1) % ULONG_MOD = x + 1 :=
  Nat.mod_eq_of_lt h

theorem sub_one_mod (x : Nat) (h1 : 1 ≤ x) (h2 : x < ULONG_MOD) :
    (x + ULONG_MOD - 1) % ULONG_MOD = x - 1 := by
  have : x + ULONG_MOD - 1 = (x - 1) + ULONG_MOD := by omega
  rw [this, Nat.add_mod_right]
  exact Nat.mod_eq_of_lt (by omega)

theorem Units.exact_of_acc (u : Units) (hacc : u.Acc Base.refc_weak_base)
    (hfit : u.strong + u.weak < ULONG_MOD) :
    u.obj.rc = u.strong ∧ u.obj.weak_rc = u.strong + u.weak := by
  obtain ⟨h1, h2⟩ := hacc
  refine ⟨?_, ?_⟩
  · rw [h1]; exact Nat.mod_eq_of_lt (by omega)
  · rw [h2 rfl]; exact Nat.mod_eq_of_lt hfit

theorem states_strong_add_ref (x : Obj) (s k : Nat) (hr : x.rc = s) (hw : x.weak_rc = s + k)
    (hfit : s + k + 1 < ULONG_MOD) :
    ∀ o ∈ strong_refc_policy.add_ref_states x, o.rc ≤ o.weak_rc := by
  intro o ho
  simp only [strong_refc_policy.add_ref_states, fetch_add, List.mem_cons, List.mem_singleton,
    List.not_mem_nil, or_false] at ho
  rcases ho with rfl | rfl
  · show x.rc ≤ (x.weak_rc + 1) % ULONG_MOD
    rw [hr, hw, add_one_mod _ hfit]; omega
  · show (x.rc + 1) % ULONG_MOD ≤ (x.weak_rc + 1) % ULONG_MOD
    rw [hr, hw, add_one_mod _ hfit, add_one_mod _ (by omega)]; omega

theorem states_try_ref (n : Nat) (x : Obj) (s k : Nat) (hr : x.rc = s) (hw : x.weak_rc = s + k)
    (hfit : s + k + 1 < ULONG_MOD) :
    ∀ o ∈ strong_refc_policy.try_ref_states n x, o.rc ≤ o.weak_rc := by
  intro o ho
  simp only [strong_refc_policy.try_ref_states, fetch_add, List.mem_cons, List.mem_singleton,
    List.not_mem_nil, or_false] at ho
  rcases ho with rfl | rfl
  · show x.rc ≤ (x.weak_rc + 1) % ULONG_MOD
    rw [hr, hw, add_one_mod _ hfit]; omega
  · have h := try_ref_loop_eq { x with weak_rc := (x.weak_rc + 1) % ULONG_MOD } n
    simp only [] at h
    rw [h]
    by_cases hz : x.rc = 0
    · simp only [hz, if_true, fetch_sub]
      exact Nat.zero_le _
    · simp only [hz, if_false]
      show (x.rc + 1) % ULONG_MOD ≤ (x.weak_rc + 1) % ULONG_MOD
      rw [hr, hw, add_one_mod _ hfit, add_one_mod _ (by omega)]; omega

theorem states_strong_release (x : Obj) (s k : Nat) (hr : x.rc = s) (hw : x.weak_rc = s + k)
    (hs : 1 ≤ s) (hfit : s + k < ULONG_MOD) :
    ∀ o ∈ strong_refc_policy.release_states x, o.rc ≤ o.weak_rc := by
  intro o ho
  simp only [strong_refc_policy.release_states, fetch_sub, List.mem_cons, List.mem_singleton,
    List.not_mem_nil, or_false] at ho
  rcases ho with rfl | rfl
  · have : (x.rc + ULONG_MOD - 1) % ULONG_MOD ≤ x.weak_rc := by
      rw [hr, hw, sub_one_mod _ hs (by omega)]; omega
    by_cases h1 : x.rc = 1
    · simpa only [h1, if_true, Obj.destroy_at] using this
    · simpa only [h1, if_false] using this
  · rw [strong_release_eq]
    show (x.rc + ULONG_MOD - 1) % ULONG_MOD ≤ (x.weak_rc + ULONG_MOD - 1) % ULONG_MOD
    rw [hr, hw, sub_one_mod _ hs (by omega), sub_one_mod _ (by omega) hfit]; omega

theorem try_ref_zero (n : Nat) (x : Obj) (hr : x.rc = 0) (hw : x.weak_rc < ULONG_MOD) :
    strong_refc_policy.try_ref n x = (0, x) := by
  have hwk : ((x.weak_rc + 1) % ULONG_MOD + ULONG_MOD - 1) % ULONG_MOD = x.weak_rc := by
    rw [pred_mod (x.weak_rc + 1) (Nat.succ_le_succ (Nat.zero_le _)),
      Nat.add_sub_cancel, Nat.mod_eq_of_lt hw]
  rw [try_ref_eq, if_pos hr, hr, hwk]
  cases x with
  | mk rc weak_rc log =>
    simp only [] at hr
    subst hr
    rfl

theorem rc_strong_release (x : Obj) :
    (strong_refc_policy.release x).rc = (x.rc + ULONG_MOD - 1) % ULONG_MOD := by
  rw [strong_release_eq]

/-! ## The life cycle of a weak-capable object -/

theorem log_strong_add_ref (x : Obj) : (strong_refc_policy.add_ref x).2.log = x.log := rfl

theorem log_weak_add_ref (x : Obj) : (weak_refc_policy.add_ref x).2.log = x.log := rfl

theorem log_strong_release (x : Obj) :
    (strong_refc_policy.release x).log =
      x.log ++ (if x.rc = 1 then [Event.destroyed] else []) ++
        (if x.weak_rc = 1 then [Event.deallocated] else []) := by
  rw [strong_release_eq]

theorem log_weak_release (x : Obj) :
    (weak_refc_policy.release x).log =
      x.log ++ (if x.weak_rc = 1 then [Event.deallocated] else []) := by
  rw [weak_release_eq]

theorem rc_strong_add_ref (x : Obj) :
    (strong_refc_policy.add_ref x).2.rc = (x.rc + 1) % ULONG_MOD := rfl

theorem Units.fresh_life : Units.fresh.Life := by
  refine ⟨rfl, rfl, ?_, Or.inl rfl⟩
  show 0 + 0 < ULONG_MOD
  exact ULONG_MOD_pos

theorem Units.step_units_le (u u1 : Units) (c : PolicyOp)
    (h : Units.step Base.refc_weak_base u c = some u1) :
    u1.strong + u1.weak ≤ u.strong + u.weak + 1 := by
  cases c with
  | strong_add_ref =>
    simp only [Units.step, Option.some.injEq] at h
    subst h
    show u.strong + 1 + u.weak ≤ u.strong + u.weak + 1
    omega
  | try_ref n =>
    simp only [Units.step, Option.some.injEq] at h
    subst h
    show (if (strong_refc_policy.try_ref n u.obj).1 = 0 then u.strong else u.strong + 1) + u.weak
      ≤ u.strong + u.weak + 1
    split_ifs <;> omega
  | weak_add_ref =>
    simp only [Units.step, Option.some.injEq] at h
    subst h
    show u.strong + (u.weak + 1) ≤ u.strong + u.weak + 1
    omega
  | strong_release =>
    by_cases hs : u.strong = 0
    · simp only [Units.step, hs, if_true] at h; exact absurd h (by simp)
    · simp only [Units.step, hs, if_false, Option.some.injEq] at h
      subst h
      show u.strong - 1 + u.weak ≤ u.strong + u.weak + 1
      omega
  | weak_release =>
    by_cases hs : u.weak = 0
    · simp only [Units.step, hs, if_true] at h; exact absurd h (by simp)
    · simp only [Units.step, hs, if_false, Option.some.injEq] at h
      subst h
      show u.strong + (u.weak - 1) ≤ u.strong + u.weak + 1
      omega

theorem Units.life_strong_add_ref (u : Units) (hl : u.Life)
    (hok : u.pointer_ok PolicyOp.strong_add_ref = true)
    (hfit : u.strong + 1 + u.weak < ULONG_MOD) :
    Units.Life { u with obj := (strong_refc_policy.add_ref u.obj).2, strong := u.strong + 1 } := by
  obtain ⟨h1, h2, _, h4⟩ := hl
  simp only [Units.pointer_ok, decide_eq_true_eq] at hok
  have hlog : u.obj.log = [] := by
    rcases hok with hs | hl
    · rcases h4 with h | ⟨_, h, _⟩ | ⟨_, h, _⟩ | ⟨_, h, _⟩
      · exact h
      all_goals omega
    · exact hl
  refine ⟨?_, ?_, hfit, Or.inl ?_⟩
  · show (strong_refc_policy.add_ref u.obj).2.rc = u.strong + 1
    rw [rc_strong_add_ref, h1, add_one_mod _ (by omega)]
  · show (strong_refc_policy.add_ref u.obj).2.weak_rc = u.strong + 1 + u.weak
    rw [weak_strong_add_ref, h2, add_one_mod _ (by omega)]
    omega
  · show (strong_refc_policy.add_ref u.obj).2.log = []
    rw [log_strong_add_ref, hlog]

theorem Units.life_weak_add_ref (u : Units) (hl : u.Life)
    (hok : u.pointer_ok PolicyOp.weak_add_ref = true)
    (hfit : u.strong + (u.weak + 1) < ULONG_MOD) :
    Units.Life { u with obj := (weak_refc_policy.add_ref u.obj).2, weak := u.weak + 1 } := by
  obtain ⟨h1, h2, _, h4⟩ := hl
  simp only [Units.pointer_ok, decide_eq_true_eq] at hok
  refine ⟨?_, ?_, hfit, ?_⟩
  · show (weak_refc_policy.add_ref u.obj).2.rc = u.strong
    rw [rc_weak_add_ref, h1]
  · show (weak_refc_policy.add_ref u.obj).2.weak_rc = u.strong + (u.weak + 1)
    rw [weak_weak_add_ref, h2, add_one_mod _ (by omega)]
    omega
  · show (weak_refc_policy.add_ref u.obj).2.log = [] ∨
      ((weak_refc_policy.add_ref u.obj).2.log = [Event.destroyed] ∧ u.strong = 0 ∧ 1 ≤ u.weak + 1) ∨
      ((weak_refc_policy.add_ref u.obj).2.log = [Event.destroyed, Event.deallocated] ∧
        u.strong = 0 ∧ u.weak + 1 = 0) ∨
      ((weak_refc_policy.add_ref u.obj).2.log = [Event.deallocated] ∧ u.strong = 0 ∧ u.weak + 1 = 0)
    rw [log_weak_add_ref]
    rcases h4 with h | ⟨h, hs, _⟩ | ⟨h, hs, hk⟩ | ⟨h, hs, hk⟩
    · exact Or.inl h
    · exact Or.inr (Or.inl ⟨h, hs, by omega⟩)
    · rcases hok with hp | hp
      · omega
      · rw [h] at hp; exact absurd hp (by simp)
    · rcases hok with hp | hp
      · omega
      · rw [h] at hp; exact absurd hp (by simp)

theorem Units.life_try_ref (n : Nat) (u : Units) (hl : u.Life)
    (hfit : u.strong + 1 + u.weak < ULONG_MOD) :
    Units.Life { u with obj := (strong_refc_policy.try_ref n u.obj).2,
                        strong := if (strong_refc_policy.try_ref n u.obj).1 = 0 then u.strong
                                  else u.strong + 1 } := by
  obtain ⟨h1, h2, h3, h4⟩ := hl
  by_cases hz : u.obj.rc = 0
  · have hw : u.obj.weak_rc < ULONG_MOD := by omega
    have e := try_ref_zero n u.obj hz hw
    have e1 : (strong_refc_policy.try_ref n u.obj).1 = 0 := by rw [e]
    have e2 : (strong_refc_policy.try_ref n u.obj).2 = u.obj := by rw [e]
    rw [e2, if_pos e1]
    exact ⟨h1, h2, h3, h4⟩
  · have e1 : ¬ (strong_refc_policy.try_ref n u.obj).1 = 0 := by rw [try_ref_fst]; exact hz
    rw [if_neg e1]
    have hlog : u.obj.log = [] := by
      rcases h4 with h | ⟨_, h, _⟩ | ⟨_, h, _⟩ | ⟨_, h, _⟩
      · exact h
      all_goals omega
    refine ⟨?_, ?_, hfit, Or.inl ?_⟩
    · show (strong_refc_policy.try_ref n u.obj).2.rc = u.strong + 1
      rw [try_ref_rc, if_neg hz, h1, add_one_mod _ (by omega)]
    · show (strong_refc_policy.try_ref n u.obj).2.weak_rc = u.strong + 1 + u.weak
      rw [try_ref_weak, if_neg hz, h2, add_one_mod _ (by omega)]
      omega
    · show (strong_refc_policy.try_ref n u.obj).2.log = []
      rw [try_ref_log, hlog]

theorem Units.life_strong_release (u : Units) (hl : u.Life) (hs : 1 ≤ u.strong) :
    Units.Life { u with obj := strong_refc_policy.release u.obj, strong := u.strong - 1 } := by
  obtain ⟨h1, h2, h3, h4⟩ := hl
  have hlog : u.obj.log = [] := by
    rcases h4 with h | ⟨_, h, _⟩ | ⟨_, h, _⟩ | ⟨_, h, _⟩
    · exact h
    all_goals omega
  refine ⟨?_, ?_, ?_, ?_⟩
  · show (strong_refc_policy.release u.obj).rc = u.strong - 1
    rw [rc_strong_release, h1, sub_one_mod _ hs (by omega)]
  · show (strong_refc_policy.release u.obj).weak_rc = u.strong - 1 + u.weak
    rw [weak_strong_release, h2, sub_one_mod _ (by omega) h3]
    omega
  · show u.strong - 1 + u.weak < ULONG_MOD
    omega
  · show (strong_refc_policy.release u.obj).log = [] ∨
      ((strong_refc_policy.release u.obj).log = [Event.destroyed] ∧
        u.strong - 1 = 0 ∧ 1 ≤ u.weak) ∨
      ((strong_refc_policy.release u.obj).log = [Event.destroyed, Event.deallocated] ∧
        u.strong - 1 = 0 ∧ u.weak = 0) ∨
      ((strong_refc_policy.release u.obj).log = [Event.deallocated] ∧
        u.strong - 1 = 0 ∧ u.weak = 0)
    rw [log_strong_release, hlog, h1, h2]
    by_cases e1 : u.strong = 1
    · by_cases e2 : u.weak = 0
      · have e3 : u.strong + u.weak = 1 := by omega
        rw [if_pos e1, if_pos e3]
        exact Or.inr (Or.inr (Or.inl ⟨rfl, by omega, e2⟩))
      · have e3 : ¬ u.strong + u.weak = 1 := by omega
        rw [if_pos e1, if_neg e3]
        exact Or.inr (Or.inl ⟨rfl, by omega, by omega⟩)
    · have e3 : ¬ u.strong + u.weak = 1 := by omega
      rw [if_neg e1, if_neg e3]
      exact Or.inl rfl

theorem Units.life_weak_release (u : Units) (hl : u.Life) (hk : 1 ≤ u.weak) :
    Units.Life { u with obj := weak_refc_policy.release u.obj, weak := u.weak - 1 } := by
  obtain ⟨h1, h2, h3, h4⟩ := hl
  refine ⟨?_, ?_, ?_, ?_⟩
  · show (weak_refc_policy.release u.obj).rc = u.strong
    rw [rc_weak_release, h1]
  · show (weak_refc_policy.release u.obj).weak_rc = u.strong + (u.weak - 1)
    rw [weak_weak_release, h2, sub_one_mod _ (by omega) h3]
    omega
  · show u.strong + (u.weak - 1) < ULONG_MOD
    omega
  · show (weak_refc_policy.release u.obj).log = [] ∨
      ((weak_refc_policy.release u.obj).log = [Event.destroyed] ∧
        u.strong = 0 ∧ 1 ≤ u.weak - 1) ∨
      ((weak_refc_policy.release u.obj).log = [Event.destroyed, Event.deallocated] ∧
        u.strong = 0 ∧ u.weak - 1 = 0) ∨
      ((weak_refc_policy.release u.obj).log = [Event.deallocated] ∧
        u.strong = 0 ∧ u.weak - 1 = 0)
    rw [log_weak_release, h2]
    rcases h4 with h | ⟨h, hs, _⟩ | ⟨h, hs, hk0⟩ | ⟨h, hs, hk0⟩
    · rw [h]
      by_cases e : u.strong + u.weak = 1
      · rw [if_pos e]
        exact Or.inr (Or.inr (Or.inr ⟨rfl, by omega, by omega⟩))
      · rw [if_neg e]
        exact Or.inl rfl
    · rw [h]
      by_cases e : u.strong + u.weak = 1
      · rw [if_pos e]
        exact Or.inr (Or.inr (Or.inl ⟨rfl, hs, by omega⟩))
      · rw [if_neg e]
        exact Or.inr (Or.inl ⟨rfl, hs, by omega⟩)
    · omega
    · omega

theorem Units.life_step (u u1 : Units) (c : PolicyOp) (hl : u.Life)
    (hok : u.pointer_ok c = true) (h : Units.step Base.refc_weak_base u c = some u1)
    (hfit : u.strong + u.weak + 1 < ULONG_MOD) : u1.Life := by
  cases c with
  | strong_add_ref =>
    simp only [Units.step, Option.some.injEq] at h
    subst h
    exact Units.life_strong_add_ref u hl hok (by omega)
  | try_ref n =>
    simp only [Units.step, Option.some.injEq] at h
    subst h
    exact Units.life_try_ref n u hl (by omega)
  | weak_add_ref =>
    simp only [Units.step, Option.some.injEq] at h
    subst h
    exact Units.life_weak_add_ref u hl hok (by omega)
  | strong_release =>
    by_cases hs : u.strong = 0
    · simp only [Units.step, hs, if_true] at h; exact absurd h (by simp)
    · simp only [Units.step, hs, if_false, Option.some.injEq] at h
      subst h
      exact Units.life_strong_release u hl (Nat.pos_of_ne_zero hs)
  | weak_release =>
    by_cases hs : u.weak = 0
    · simp only [Units.step, hs, if_true] at h; exact absurd h (by simp)
    · simp only [Units.step, hs, if_false, Option.some.injEq] at h
      subst h
      exact Units.life_weak_release u hl (Nat.pos_of_ne_zero hs)

theorem Units.ever_step (u u1 : Units) (c : PolicyOp) (hl : u.Life) (he : u.EverStrong)
    (h : Units.step Base.refc_weak_base u c = some u1) : u1.EverStrong := by
  obtain ⟨h1, h2, h3, _⟩ := hl
  cases c with
  | strong_add_ref =>
    simp only [Units.step, Option.some.injEq] at h
    subst h
    exact Or.inl (Nat.succ_le_succ (Nat.zero_le _))
  | try_ref n =>
    simp only [Units.step, Option.some.injEq] at h
    subst h
    rcases he with he | he
    · left
      show 1 ≤ (if (strong_refc_policy.try_ref n u.obj).1 = 0 then u.strong else u.strong + 1)
      split_ifs <;> omega
    · right
      show Event.destroyed ∈ (strong_refc_policy.try_ref n u.obj).2.log
      rw [try_ref_log]; exact he
  | weak_add_ref =>
    simp only [Units.step, Option.some.injEq] at h
    subst h
    rcases he with he | he
    · exact Or.inl he
    · exact Or.inr he
  | strong_release =>
    by_cases hs : u.strong = 0
    · simp only [Units.step, hs, if_true] at h; exact absurd h (by simp)
    · simp only [Units.step, hs, if_false, Option.some.injEq] at h
      subst h
      by_cases e1 : u.strong = 1
      · right
        show Event.destroyed ∈ (strong_refc_policy.release u.obj).log
        rw [log_strong_release, h1, if_pos e1]
        simp
      · left
        show 1 ≤ u.strong - 1
        omega
  | weak_release =>
    by_cases hs : u.weak = 0
    · simp only [Units.step, hs, if_true] at h; exact absurd h (by simp)
    · simp only [Units.step, hs, if_false, Option.some.injEq] at h
      subst h
      rcases he with he | he
      · exact Or.inl he
      · right
        show Event.destroyed ∈ (weak_refc_policy.release u.obj).log
        rw [log_weak_release]
        exact List.mem_append_left _ he

theorem Units.never_step (u u1 : Units) (c : PolicyOp) (hl : u.Life) (he : ¬ u.EverStrong)
    (hc : c ≠ PolicyOp.strong_add_ref)
    (h : Units.step Base.refc_weak_base u c = some u1) : ¬ u1.EverStrong := by
  obtain ⟨h1, h2, h3, _⟩ := hl
  have hs0 : u.strong = 0 := by
    by_contra hne
    exact he (Or.inl (Nat.pos_of_ne_zero hne))
  have hd : Event.destroyed ∉ u.obj.log := fun hm => he (Or.inr hm)
  cases c with
  | strong_add_ref => exact absurd rfl hc
  | try_ref n =>
    simp only [Units.step, Option.some.injEq] at h
    subst h
    have e := try_ref_zero n u.obj (by omega) (by omega)
    have e1 : (strong_refc_policy.try_ref n u.obj).1 = 0 := by rw [e]
    have e2 : (strong_refc_policy.try_ref n u.obj).2 = u.obj := by rw [e]
    rw [e2, if_pos e1]
    exact he
  | weak_add_ref =>
    simp only [Units.step, Option.some.injEq] at h
    subst h
    exact he
  | strong_release =>
    simp only [Units.step, hs0, if_true] at h; exact absurd h (by simp)
  | weak_release =>
    by_cases hs : u.weak = 0
    · simp only [Units.step, hs, if_true] at h; exact absurd h (by simp)
    · simp only [Units.step, hs, if_false, Option.some.injEq] at h
      subst h
      rintro (h5 | h5)
      · exact he (Or.inl h5)
      · have h6 : Event.destroyed ∈ (weak_refc_policy.release u.obj).log := h5
        rw [log_weak_release] at h6
        rcases List.mem_append.mp h6 with h7 | h7
        · exact hd h7
        · split_ifs at h7 <;> simp at h7

theorem Units.touched_step (u u1 : Units) (c : PolicyOp) (hl : u.Life) (ht : u.Touched)
    (h : Units.step Base.refc_weak_base u c = some u1) : u1.Touched := by
  obtain ⟨h1, h2, h3, _⟩ := hl
  cases c with
  | strong_add_ref =>
    simp only [Units.step, Option.some.injEq] at h
    subst h
    left
    show 1 ≤ u.strong + 1 + u.weak
    omega
  | try_ref n =>
    simp only [Units.step, Option.some.injEq] at h
    subst h
    rcases ht with ht | ht
    · left
      show 1 ≤ (if (strong_refc_policy.try_ref n u.obj).1 = 0 then u.strong else u.strong + 1) +
        u.weak
      split_ifs <;> omega
    · right
      show (strong_refc_policy.try_ref n u.obj).2.log ≠ []
      rw [try_ref_log]; exact ht
  | weak_add_ref =>
    simp only [Units.step, Option.some.injEq] at h
    subst h
    left
    show 1 ≤ u.strong + (u.weak + 1)
    omega
  | strong_release =>
    by_cases hs : u.strong = 0
    · simp only [Units.step, hs, if_true] at h; exact absurd h (by simp)
    · simp only [Units.step, hs, if_false, Option.some.injEq] at h
      subst h
      by_cases e1 : u.strong = 1
      · right
        show (strong_refc_policy.release u.obj).log ≠ []
        rw [log_strong_release, h1, if_pos e1]
        simp
      · left
        show 1 ≤ u.strong - 1 + u.weak
        omega
  | weak_release =>
    by_cases hs : u.weak = 0
    · simp only [Units.step, hs, if_true] at h; exact absurd h (by simp)
    · simp only [Units.step, hs, if_false, Option.some.injEq] at h
      subst h
      by_cases e1 : u.strong + u.weak = 1
      · right
        show (weak_refc_policy.release u.obj).log ≠ []
        rw [log_weak_release, h2, if_pos e1]
        simp
      · left
        show 1 ≤ u.strong + (u.weak - 1)
        omega

theorem Units.untouched_step (u u1 : Units) (c : PolicyOp) (hl : u.Life) (ht : ¬ u.Touched)
    (hc1 : c ≠ PolicyOp.strong_add_ref) (hc2 : c ≠ PolicyOp.weak_add_ref)
    (h : Units.step Base.refc_weak_base u c = some u1) : u1 = u := by
  obtain ⟨h1, h2, h3, _⟩ := hl
  have hs0 : u.strong = 0 := by
    by_contra hne
    exact ht (Or.inl (by omega))
  have hk0 : u.weak = 0 := by
    by_contra hne
    exact ht (Or.inl (by omega))
  cases c with
  | strong_add_ref => exact absurd rfl hc1
  | try_ref n =>
    simp only [Units.step, Option.some.injEq] at h
    subst h
    have e := try_ref_zero n u.obj (by omega) (by omega)
    have e1 : (strong_refc_policy.try_ref n u.obj).1 = 0 := by rw [e]
    have e2 : (strong_refc_policy.try_ref n u.obj).2 = u.obj := by rw [e]
    rw [e2, if_pos e1]
  | weak_add_ref => exact absurd rfl hc2
  | strong_release =>
    simp only [Units.step, hs0, if_true] at h; exact absurd h (by simp)
  | weak_release =>
    simp only [Units.step, hk0, if_true] at h; exact absurd h (by simp)

theorem Units.touched_of_add (u u1 : Units) (c : PolicyOp)
    (hc : c = PolicyOp.strong_add_ref ∨ c = PolicyOp.weak_add_ref)
    (h : Units.step Base.refc_weak_base u c = some u1) : u1.Touched := by
  rcases hc with rfl | rfl
  · simp only [Units.step, Option.some.injEq] at h
    subst h
    left
    show 1 ≤ u.strong + 1 + u.weak
    omega
  · simp only [Units.step, Option.some.injEq] at h
    subst h
    left
    show 1 ≤ u.strong + (u.weak + 1)
    omega

theorem Units.ever_of_strong_add_ref (u u1 : Units)
    (h : Units.step Base.refc_weak_base u PolicyOp.strong_add_ref = some u1) :
    u1.EverStrong := by
  simp only [Units.step, Option.some.injEq] at h
  subst h
  exact Or.inl (Nat.succ_le_succ (Nat.zero_le _))

theorem Units.life_run_safe (cs : List PolicyOp) (u u1 : Units) (hl : u.Life)
    (h : Units.run_safe Base.refc_weak_base u cs = some u1)
    (hfit : u.strong + u.weak + cs.length < ULONG_MOD) :
    u1.Life ∧
    ((u.EverStrong ∨ PolicyOp.strong_add_ref ∈ cs) → u1.EverStrong) ∧
    (¬ u.EverStrong → PolicyOp.strong_add_ref ∉ cs → ¬ u1.EverStrong) ∧
    ((u.Touched ∨ PolicyOp.strong_add_ref ∈ cs ∨ PolicyOp.weak_add_ref ∈ cs) → u1.Touched) ∧
    (¬ u.Touched → PolicyOp.strong_add_ref ∉ cs → PolicyOp.weak_add_ref ∉ cs → u1 = u) := by
  induction cs generalizing u with
  | nil =>
    simp only [Units.run_safe, Option.some.injEq] at h
    subst h
    refine ⟨hl, ?_, fun he _ => he, ?_, fun _ _ _ => rfl⟩
    · rintro (he | he)
      · exact he
      · exact absurd he (List.not_mem_nil _)
    · rintro (he | he | he)
      · exact he
      · exact absurd he (List.not_mem_nil _)
      · exact absurd he (List.not_mem_nil _)
  | cons c cs ih =>
    simp only [Units.run_safe] at h
    by_cases hp : u.pointer_ok c = true
    · simp only [hp, if_true] at h
      cases hs : Units.step Base.refc_weak_base u c with
      | none => simp [hs] at h
      | some u2 =>
        simp only [hs] at h
        simp only [List.length_cons] at hfit
        have hle := Units.step_units_le u u2 c hs
        have hl2 := Units.life_step u u2 c hl hp hs (by omega)
        obtain ⟨r1, r2, r3, r4, r5⟩ := ih u2 hl2 h (by omega)
        refine ⟨r1, ?_, ?_, ?_, ?_⟩
        · rintro (he | he)
          · exact r2 (Or.inl (Units.ever_step u u2 c hl he hs))
          · rcases List.mem_cons.mp he with he | he
            · subst he
              exact r2 (Or.inl (Units.ever_of_strong_add_ref u u2 hs))
            · exact r2 (Or.inr he)
        · intro he hn
          have hc : c ≠ PolicyOp.strong_add_ref := fun e => hn (e ▸ List.mem_cons_self _ _)
          exact r3 (Units.never_step u u2 c hl he hc hs) (fun hm => hn (List.mem_cons_of_mem _ hm))
        · rintro (he | he | he)
          · exact r4 (Or.inl (Units.touched_step u u2 c hl he hs))
          · rcases List.mem_cons.mp he with he | he
            · subst he
              exact r4 (Or.inl (Units.touched_of_add u u2 _ (Or.inl rfl) hs))
            · exact r4 (Or.inr (Or.inl he))
          · rcases List.mem_cons.mp he with he | he
            · subst he
              exact r4 (Or.inl (Units.touched_of_add u u2 _ (Or.inr rfl) hs))
            · exact r4 (Or.inr (Or.inr he))
        · intro ht hn1 hn2
          have hc1 : c ≠ PolicyOp.strong_add_ref := fun e => hn1 (e ▸ List.mem_cons_self _ _)
          have hc2 : c ≠ PolicyOp.weak_add_ref := fun e => hn2 (e ▸ List.mem_cons_self _ _)
          have e := Units.untouched_step u u2 c hl ht hc1 hc2 hs
          subst e
          exact r5 ht (fun hm => hn1 (List.mem_cons_of_mem _ hm))
            (fun hm => hn2 (List.mem_cons_of_mem _ hm))
    · simp [hp] at h

theorem Units.life_end (u : Units) (hl : u.Life) (hs : u.strong = 0) (hk : u.weak = 0) :
    (u.EverStrong → u.obj.log = [Event.destroyed, Event.deallocated]) ∧
    (¬ u.EverStrong → u.Touched → u.obj.log = [Event.deallocated]) ∧
    (¬ u.Touched → u.obj.log = []) := by
  obtain ⟨_, _, _, h4⟩ := hl
  refine ⟨fun he => ?_, fun hn ht => ?_, fun hn => ?_⟩
  · have hd : Event.destroyed ∈ u.obj.log := by
      rcases he with he | he
      · omega
      · exact he
    rcases h4 with h | ⟨_, _, h⟩ | ⟨h, _, _⟩ | ⟨h, _, _⟩
    · rw [h] at hd; exact absurd hd (List.not_mem_nil _)
    · omega
    · exact h
    · rw [h] at hd; simp at hd
  · have hd : Event.destroyed ∉ u.obj.log := fun hm => hn (Or.inr hm)
    have hne : u.obj.log ≠ [] := by
      rcases ht with ht | ht
      · omega
      · exact ht
    rcases h4 with h | ⟨_, _, h⟩ | ⟨h, _, _⟩ | ⟨h, _, _⟩
    · exact absurd h hne
    · omega
    · rw [h] at hd; simp at hd
    · exact h
  · by_contra hne
    exact hn (Or.inr hne)

/-! ## Whole programs on weak-capable objects -/

theorem step_length (b : Base) (w w1 : World) (op : Op) (h : step b w op = some w1) :
    w.sp.length ≤ w1.sp.length ∧ w.wp.length ≤ w1.wp.length := by
  cases op <;> simp only [step] at h <;> (repeat' split at h) <;>
    first
    | (simp only [Option.some.injEq] at h; subst h; simp)
    | (exact absurd h (by simp))

theorem run_length (b : Base) (ops : List Op) (w w1 : World) (h : run b w ops = some w1) :
    w.sp.length ≤ w1.sp.length ∧ w.wp.length ≤ w1.wp.length := by
  induction ops generalizing w with
  | nil =>
    simp only [run, Option.some.injEq] at h
    subst h
    exact ⟨Nat.le_refl _, Nat.le_refl _⟩
  | cons op ops ih =>
    simp only [run] at h
    cases hs : step b w op with
    | none => simp [hs] at h
    | some w2 =>
      simp only [hs] at h
      have h1 := step_length b w w2 op hs
      have h2 := ih w2 h
      exact ⟨Nat.le_trans h1.1 h2.1, Nat.le_trans h1.2 h2.2⟩

theorem calls_length (w : World) (a : Nat) (op : Op) : (op.calls w a).length ≤ 2 := by
  cases op <;> simp only [Op.calls, on_addr] <;> (try split_ifs) <;> simp

theorem units_le_length (w : World) (a : Nat) :
    (w.units a).strong + (w.units a).weak ≤ w.sp.length + w.wp.length := by
  have h1 : w.sp.count (some a) ≤ w.sp.length := List.count_le_length _ _
  have h2 : w.wp.count (some a) ≤ w.wp.length := List.count_le_length _ _
  show w.sp.count (some a) + w.wp.count (some a) ≤ w.sp.length + w.wp.length
  omega

theorem adopts_calls (w : World) (a : Nat) (op : Op) (h : op.adopts a = true) :
    PolicyOp.strong_add_ref ∈ op.calls w a := by
  cases op <;> simp only [Op.adopts, Bool.and_eq_true, decide_eq_true_eq] at h
  case ctor p ref =>
    obtain ⟨rfl, rfl⟩ := h
    simp [Op.calls, on_addr]
  case reset_to this to_ add_ref =>
    obtain ⟨rfl, rfl⟩ := h
    simp [Op.calls, on_addr]
  all_goals exact absurd h (by simp)

theorem log_refc_release (x : Obj) :
    (refc_policy.release x).log =
      x.log ++ (if x.rc = 1 then [Event.destroyed, Event.deallocated] else []) := by
  by_cases h : x.rc = 1
  · have e : refc_policy.release x =
        Obj.delete { x with rc := (fetch_sub x.rc).2 } := by
      simp only [refc_policy.release, fetch_sub, h, if_true]
    rw [e, if_pos h]
    show (x.log ++ [Event.destroyed]) ++ [Event.deallocated] = _
    rw [List.append_assoc]
    rfl
  · have e : refc_policy.release x = { x with rc := (fetch_sub x.rc).2 } := by
      simp only [refc_policy.release, fetch_sub, h, if_false]
    rw [e, if_neg h, List.append_nil]

theorem Units.log_mono_step (b : Base) (u u1 : Units) (c : PolicyOp)
    (h : Units.step b u c = some u1) : ∀ e ∈ u.obj.log, e ∈ u1.obj.log := by
  intro e he
  cases c with
  | strong_add_ref =>
    simp only [Units.step, Option.some.injEq] at h
    subst h
    cases b <;> exact he
  | try_ref n =>
    cases b with
    | refc => simp only [Units.step] at h; exact absurd h (by simp)
    | refc_weak_base =>
      simp only [Units.step, Option.some.injEq] at h
      subst h
      show e ∈ (strong_refc_policy.try_ref n u.obj).2.log
      rw [try_ref_log]; exact he
  | weak_add_ref =>
    cases b with
    | refc => simp only [Units.step] at h; exact absurd h (by simp)
    | refc_weak_base =>
      simp only [Units.step, Option.some.injEq] at h
      subst h
      exact he
  | strong_release =>
    by_cases hs : u.strong = 0
    · simp only [Units.step, hs, if_true] at h; exact absurd h (by simp)
    · simp only [Units.step, hs, if_false, Option.some.injEq] at h
      subst h
      cases b with
      | refc =>
        show e ∈ (refc_policy.release u.obj).log
        rw [log_refc_release]
        exact List.mem_append_left _ he
      | refc_weak_base =>
        show e ∈ (strong_refc_policy.release u.obj).log
        rw [log_strong_release]
        exact List.mem_append_left _ (List.mem_append_left _ he)
  | weak_release =>
    cases b with
    | refc => simp only [Units.step] at h; exact absurd h (by simp)
    | refc_weak_base =>
      by_cases hs : u.weak = 0
      · simp only [Units.step, hs, if_true] at h; exact absurd h (by simp)
      · simp only [Units.step, hs, if_false, Option.some.injEq] at h
        subst h
        show e ∈ (weak_refc_policy.release u.obj).log
        rw [log_weak_release]
        exact List.mem_append_left _ he

theorem Units.log_mono_run (b : Base) (cs : List PolicyOp) (u u1 : Units)
    (h : Units.run b u cs = some u1) : ∀ e ∈ u.obj.log, e ∈ u1.obj.log := by
  induction cs generalizing u with
  | nil =>
    simp only [Units.run, Option.some.injEq] at h
    subst h
    exact fun _ he => he
  | cons c cs ih =>
    simp only [Units.run] at h
    cases hs : Units.step b u c with
    | none => simp [hs] at h
    | some u2 =>
      simp only [hs] at h
      exact fun e he => ih u2 h e (Units.log_mono_step b u u2 c hs e he)

theorem life_world_step (w w1 : World) (op : Op) (a : Nat) (ha : a ≠ 0)
    (hcnt : op.counted = true) (hs : step Base.refc_weak_base w op = some w1)
    (hl : (w.units a).Life) (hfit : w.sp.length + w.wp.length + 2 < ULONG_MOD) :
    (w1.units a).Life ∧
    (((w.units a).EverStrong ∨ op.adopts a = true) → (w1.units a).EverStrong) ∧
    (∀ e ∈ (w.heap a).log, e ∈ (w1.heap a).log) := by
  have hu := step_units Base.refc_weak_base w w1 op a ha hcnt hs
  have h1 := units_le_length w a
  have h2 := calls_length w a op
  obtain ⟨r1, r2, _, _, _⟩ := Units.life_run_safe _ _ _ hl hu (by omega)
  refine ⟨r1, ?_, ?_⟩
  · rintro (he | he)
    · exact r2 (Or.inl he)
    · exact r2 (Or.inr (adopts_calls w a op he))
  · exact Units.log_mono_run _ _ _ _ (Units.run_of_run_safe _ _ _ _ hu)

theorem life_world_run (ops : List Op) (w w1 : World)
    (hl : ∀ a, a ≠ 0 → (w.units a).Life)
    (hops : ∀ op ∈ ops, op.counted = true)
    (h : run Base.refc_weak_base w ops = some w1)
    (hfit : w1.sp.length + w1.wp.length + 2 < ULONG_MOD) :
    ∀ a, a ≠ 0 → (w1.units a).Life ∧
      (((w.units a).EverStrong ∨ ∃ op ∈ ops, op.adopts a = true) → (w1.units a).EverStrong) ∧
      (∀ e ∈ (w.heap a).log, e ∈ (w1.heap a).log) := by
  induction ops generalizing w with
  | nil =>
    simp only [run, Option.some.injEq] at h
    subst h
    intro a ha
    refine ⟨hl a ha, ?_, fun _ he => he⟩
    rintro (he | ⟨op, hm, _⟩)
    · exact he
    · exact absurd hm (List.not_mem_nil _)
  | cons op ops ih =>
    simp only [run] at h
    cases hs : step Base.refc_weak_base w op with
    | none => simp [hs] at h
    | some w2 =>
      simp only [hs] at h
      have hlen := run_length _ _ _ _ h
      have hfit2 : w.sp.length + w.wp.length + 2 < ULONG_MOD := by
        have := step_length _ _ _ _ hs
        omega
      have hcnt := hops op (List.mem_cons_self _ _)
      have hl2 : ∀ a, a ≠ 0 → (w2.units a).Life :=
        fun a ha => (life_world_step w w2 op a ha hcnt hs (hl a ha) hfit2).1
      intro a ha
      obtain ⟨r1, r2, r3⟩ := ih w2 hl2 (fun o ho => hops o (List.mem_cons_of_mem _ ho)) h a ha
      obtain ⟨_, s2, s3⟩ := life_world_step w w2 op a ha hcnt hs (hl a ha) hfit2
      refine ⟨r1, ?_, fun e he => r3 e (s3 e he)⟩
      rintro (he | ⟨o, hm, ho⟩)
      · exact r2 (Or.inl (s2 (Or.inl he)))
      · rcases List.mem_cons.mp hm with e | hm
        · subst e
          exact r2 (Or.inl (s2 (Or.inr ho)))
        · exact r2 (Or.inr ⟨o, hm, ho⟩)

theorem life_init (a : Nat) : (World.init.units a).Life := Units.fresh_life

theorem on_addr_sget (w : World) (a i : Nat) (c : PolicyOp) (ha : a ≠ 0)
    (hs : w.scount a = 0) : on_addr a ((w.sget i).getD 0) c = [] := by
  unfold on_addr
  cases h : w.sget i with
  | none =>
    have h0 : ¬ 0 = a := fun e => ha e.symm
    simp [h0]
  | some p =>
    have hp : ¬ p = a := by
      intro e
      subst e
      have := count_pos_of_getD w.sp i p h
      rw [World.scount] at hs
      omega
    simp [hp]

theorem on_addr_wget (w : World) (a i : Nat) (c : PolicyOp) (ha : a ≠ 0)
    (hk : w.wcount a = 0) : on_addr a ((w.wget i).getD 0) c = [] := by
  unfold on_addr
  cases h : w.wget i with
  | none =>
    have h0 : ¬ 0 = a := fun e => ha e.symm
    simp [h0]
  | some p =>
    have hp : ¬ p = a := by
      intro e
      subst e
      have := count_pos_of_getD w.wp i p h
      rw [World.wcount] at hk
      omega
    simp [hp]

theorem calls_nil (b : Base) (w w1 : World) (op : Op) (a : Nat) (ha : a ≠ 0)
    (hs : w.scount a = 0) (hk : w.wcount a = 0) (hlog : (w.heap a).log ≠ [])
    (h : step b w op = some w1) : op.calls w a = [] := by
  have hraw : w.raw_ok a = false := by
    simp only [World.raw_ok, decide_eq_false_iff_not, not_or]
    exact ⟨ha, hlog⟩
  cases op <;>
    simp only [Op.calls, on_addr_sget w a _ _ ha hs, on_addr_wget w a _ _ ha hk,
      List.append_nil, ite_self]
  case ctor p ref =>
    have hp : ¬ p = a := by
      intro e
      subst e
      simp only [step, hraw] at h
      exact absurd h (by simp)
    simp [on_addr, hp]
  case reset_to this to_ add_ref =>
    have hp : ¬ to_ = a := by
      intro e
      subst e
      simp only [step, hraw] at h
      split at h <;> exact absurd h (by simp)
    simp [on_addr, hp]

theorem getD_snoc_length (l : List (Option Nat)) (y : Option Nat) :
    (l ++ [y]).getD l.length none = y := by
  simp [List.getD_eq_getElem?_getD]

theorem lt_length_of_getD (l : List (Option Nat)) (i v : Nat) (h : l.getD i none = some v) :
    i < l.length := by
  by_contra hn
  rw [List.getD_eq_default _ _ (Nat.le_of_not_lt hn)] at h
  exact absurd h (by simp)

theorem getD_snoc_lt (l : List (Option Nat)) (i : Nat) (y : Option Nat) (h : i < l.length) :
    (l ++ [y]).getD i none = l.getD i none := by
  simp [List.getD_eq_getElem?_getD, List.getElem?_append_left h]

theorem refc_release_eq (x : Obj) :
    refc_policy.release x =
      { rc := (x.rc + ULONG_MOD - 1) % ULONG_MOD,
        weak_rc := x.weak_rc,
        log := x.log ++ (if x.rc = 1 then [Event.destroyed, Event.deallocated] else []) } := by
  by_cases h : x.rc = 1
  · simp only [refc_policy.release, fetch_sub, h, if_true, Obj.delete, Obj.destroy_at,
      Obj.operator_delete, List.append_assoc, List.singleton_append]
  · simp only [refc_policy.release, fetch_sub, h, if_false, List.append_nil]

theorem add_sub_mod (x : Nat) (h : x + 1 < ULONG_MOD) :
    ((x + 1) % ULONG_MOD + ULONG_MOD - 1) % ULONG_MOD = x := by
  rw [add_one_mod x h, sub_one_mod (x + 1) (Nat.le_add_left 1 x) h, Nat.add_sub_cancel]

theorem two_ne_one_mod (x : Nat) (h1 : 1 ≤ x) (h : x + 1 < ULONG_MOD) :
    ¬ (x + 1) % ULONG_MOD = 1 := by
  rw [add_one_mod x h]
  omega

theorem release_add_ref_rc (b : Base) (x : Obj) (h : x.rc + 1 < ULONG_MOD) :
    (b.policy_type.release (b.policy_type.add_ref x).2).rc = x.rc := by
  rw [rc_release, rc_add_ref, add_sub_mod x.rc h]

theorem release_add_ref_dtor_runs (b : Base) (x : Obj) (h1 : 1 ≤ x.rc)
    (h : x.rc + 1 < ULONG_MOD) :
    (b.policy_type.release (b.policy_type.add_ref x).2).dtor_runs = x.dtor_runs := by
  have hne := two_ne_one_mod x.rc h1 h
  cases b
  · show (refc_policy.release (refc_policy.add_ref x).2).log.count Event.destroyed =
      x.log.count Event.destroyed
    rw [log_refc_release]
    have e : (refc_policy.add_ref x).2.rc = (x.rc + 1) % ULONG_MOD := rfl
    rw [e, if_neg hne, List.append_nil]
    rfl
  · show (strong_refc_policy.release (strong_refc_policy.add_ref x).2).log.count Event.destroyed =
      x.log.count Event.destroyed
    rw [log_strong_release, rc_strong_add_ref, if_neg hne, List.append_nil, log_strong_add_ref]
    split_ifs
    · rw [List.count_append]
      simp
    · rw [List.append_nil]

theorem release_add_ref (b : Base) (x : Obj) (h1 : 1 ≤ x.rc) (h : x.rc + 1 < ULONG_MOD)
    (hw : b = Base.refc ∨ (1 ≤ x.weak_rc ∧ x.weak_rc + 1 < ULONG_MOD)) :
    b.policy_type.release (b.policy_type.add_ref x).2 = x := by
  have hne := two_ne_one_mod x.rc h1 h
  cases b
  · show refc_policy.release (refc_policy.add_ref x).2 = x
    rw [refc_release_eq]
    have e : (refc_policy.add_ref x).2.rc = (x.rc + 1) % ULONG_MOD := rfl
    have e2 : (refc_policy.add_ref x).2.weak_rc = x.weak_rc := rfl
    have e3 : (refc_policy.add_ref x).2.log = x.log := rfl
    rw [e, e2, e3, if_neg hne, List.append_nil, add_sub_mod x.rc h]
  · have hw2 : 1 ≤ x.weak_rc ∧ x.weak_rc + 1 < ULONG_MOD := by
      rcases hw with hw | hw
      · exact absurd hw (by decide)
      · exact hw
    have hne2 := two_ne_one_mod x.weak_rc hw2.1 hw2.2
    show strong_refc_policy.release (strong_refc_policy.add_ref x).2 = x
    rw [strong_release_eq, rc_strong_add_ref, weak_strong_add_ref, log_strong_add_ref,
      if_neg hne, if_neg hne2, List.append_nil, List.append_nil, add_sub_mod x.rc h,
      add_sub_mod x.weak_rc hw2.2]

theorem log_add_ref (b : Base) (x : Obj) : (b.policy_type.add_ref x).2.log = x.log := by
  cases b <;> rfl

theorem Heap.set_self (h : Heap) (p : Nat) (o : Obj) : Heap.set h p o p = o := by
  rw [Heap.set_apply, if_pos rfl]

theorem Heap.set_other (h : Heap) (p a : Nat) (o : Obj) (ha : a ≠ p) : Heap.set h p o a = h a := by
  rw [Heap.set_apply, if_neg ha]

theorem Heap.set_same (h : Heap) (p : Nat) : Heap.set h p (h p) = h := by
  funext a
  rw [Heap.set_apply]
  split_ifs with e
  · rw [e]
  · rfl

theorem Heap.set_set (h : Heap) (p : Nat) (x y : Obj) :
    Heap.set (Heap.set h p x) p y = Heap.set h p y := by
  funext a
  rw [Heap.set_apply, Heap.set_apply, Heap.set_apply]
  split_ifs <;> rfl

theorem ctor_true (P : Policy) (p : Nat) (h : Heap) (hp : p ≠ 0) :
    refc_ptr.ctor P p true h = (p, Heap.set h p (P.add_ref (h p)).2) := by
  simp [refc_ptr.ctor, hp]

theorem copy_eq (P : Policy) (p : Nat) (h : Heap) (hp : p ≠ 0) :
    refc_ptr.copy P p h = (p, Heap.set h p (P.add_ref (h p)).2) := by
  simp [refc_ptr.copy, hp]

theorem conv_copy_eq (P : Policy) (p : Nat) (h : Heap) (hp : p ≠ 0) :
    refc_ptr.conv_copy P p h = (p, Heap.set h p (P.add_ref (h p)).2) := by
  simp [refc_ptr.conv_copy, refc_ptr.get, hp]

theorem dtor_eq (P : Policy) (p : Nat) (h : Heap) (hp : p ≠ 0) :
    refc_ptr.dtor P p h = Heap.set h p (P.release (h p)) := by
  simp [refc_ptr.dtor, hp]

theorem dtor_null (P : Policy) (h : Heap) : refc_ptr.dtor P 0 h = h := by
  simp [refc_ptr.dtor]

theorem dtor_set (P : Policy) (p : Nat) (h : Heap) (y : Obj) (hp : p ≠ 0) :
    refc_ptr.dtor P p (Heap.set h p y) = Heap.set h p (P.release y) := by
  rw [dtor_eq P p _ hp, Heap.set_self, Heap.set_set]

theorem set_getD_same (l : List (Option Nat)) (i v : Nat) (h : l.getD i none = some v) :
    l.set i (some v) = l := by
  induction l generalizing i with
  | nil => rfl
  | cons z l ih =>
    cases i with
    | zero =>
      simp only [List.getD_cons_zero] at h
      rw [List.set_cons_zero, h]
    | succ n =>
      rw [List.getD_cons_succ] at h
      rw [List.set_cons_succ, ih n h]

theorem fetch_sub_fst (c : Nat) : (fetch_sub c).1 = c := rfl

theorem fetch_sub_snd (c : Nat) : (fetch_sub c).2 = (c + ULONG_MOD - 1) % ULONG_MOD := rfl

theorem NHeap.set_obj_obj (h : NHeap) (a : Nat) (o : Obj) : (h.set_obj a o a).obj = o := by
  simp [NHeap.set_obj, NHeap.set]

theorem NHeap.set_obj_member (h : NHeap) (a : Nat) (o : Obj) :
    (h.set_obj a o a).member = (h a).member := by
  simp [NHeap.set_obj, NHeap.set]

theorem NHeap.set_obj_other (h : NHeap) (a c : Nat) (o : Obj) (hc : c ≠ a) :
    h.set_obj a o c = h c := by
  simp [NHeap.set_obj, NHeap.set, hc]

theorem NHeap.set_member_obj (h : NHeap) (a : Nat) (m : Nat) :
    (h.set_member a m a).obj = (h a).obj := by
  simp [NHeap.set_member, NHeap.set]

theorem NHeap.set_member_member (h : NHeap) (a : Nat) (m : Nat) :
    (h.set_member a m a).member = m := by
  simp [NHeap.set_member, NHeap.set]

theorem NHeap.set_member_other (h : NHeap) (a c : Nat) (m : Nat) (hc : c ≠ a) :
    h.set_member a m c = h c := by
  simp [NHeap.set_member, NHeap.set, hc]

theorem NHeap.set_obj_set_obj (h : NHeap) (a : Nat) (o1 o2 : Obj) :
    (h.set_obj a o1).set_obj a o2 = h.set_obj a o2 := by
  funext c
  by_cases hc : c = a
  · subst hc; simp [NHeap.set_obj, NHeap.set]
  · simp [NHeap.set_obj, NHeap.set, hc]

/-- When no destructor runs, or the member handle is null, `NHeap.release` is the
policy's `release` on the counters of the object. -/
theorem NHeap.release_flat (b : Base) (fuel : Nat) (h : NHeap) (x : Nat)
    (hx : (h x).obj.rc ≠ 1 ∨ (h x).member = 0) :
    NHeap.release b (fuel + 1) h x = some (h.set_obj x (b.policy_type.release (h x).obj)) := by
  have hf : ∀ c, (fetch_sub c).1 = c := fun _ => rfl
  cases b
  · show NHeap.release Base.refc (fuel + 1) h x =
      some (h.set_obj x (refc_policy.release (h x).obj))
    simp only [NHeap.release, refc_policy.release]
    generalize fetch_sub = f at hf ⊢
    by_cases h1 : (h x).obj.rc = 1
    · have h1b : (f (h x).obj.rc).1 = 1 := by rw [hf]; exact h1
      have hm : (h x).member = 0 := by
        rcases hx with hx | hx
        · exact absurd h1 hx
        · exact hx
      simp only [if_pos h1b]
      simp only [NHeap.set_obj_obj, NHeap.set_obj_member, NHeap.set_obj_set_obj, hm, ne_eq,
        not_true_eq_false, if_false, Obj.delete]
    · have h1b : ¬ (f (h x).obj.rc).1 = 1 := by rw [hf]; exact h1
      simp only [if_neg h1b]
  · show NHeap.release Base.refc_weak_base (fuel + 1) h x =
      some (h.set_obj x (strong_refc_policy.release (h x).obj))
    simp only [NHeap.release, strong_refc_policy.release]
    generalize fetch_sub = f at hf ⊢
    by_cases h1 : (h x).obj.rc = 1
    · have h1b : (f (h x).obj.rc).1 = 1 := by rw [hf]; exact h1
      have hm : (h x).member = 0 := by
        rcases hx with hx | hx
        · exact absurd h1 hx
        · exact hx
      simp only [if_pos h1b]
      simp only [NHeap.set_obj_obj, NHeap.set_obj_member, NHeap.set_obj_set_obj, hm, ne_eq,
        not_true_eq_false, if_false]
      split_ifs <;> rfl
    · have h1b : ¬ (f (h x).obj.rc).1 = 1 := by rw [hf]; exact h1
      simp only [if_neg h1b]
      simp only [NHeap.set_obj_obj, NHeap.set_obj_set_obj]
      split_ifs <;> rfl

/-- When the count was 1 and the member handle holds `m`, `NHeap.release` for
`refc_policy` is `delete p`: the destructor, which releases `m`, then the
deallocation. -/
theorem NHeap.release_cascade_refc (fuel : Nat) (h h3 : NHeap) (x m : Nat)
    (h1 : (h x).obj.rc = 1) (hm : (h x).member = m) (hm0 : m ≠ 0)
    (hin : NHeap.release Base.refc fuel
      (h.set_obj x (Obj.destroy_at
        { rc := (fetch_sub (h x).obj.rc).2, weak_rc := (h x).obj.weak_rc, log := (h x).obj.log }))
      m =
        some h3) :
    NHeap.release Base.refc (fuel + 1) h x =
      some (h3.set_obj x (h3 x).obj.operator_delete) := by
  have h1b : (fetch_sub (h x).obj.rc).1 = 1 := h1
  simp only [NHeap.release]
  simp only [if_pos h1b]
  simp only [NHeap.set_obj_obj, NHeap.set_obj_member, NHeap.set_obj_set_obj, hm, ne_eq, hm0,
    not_false_eq_true, if_true]
  rw [hin]

/-- When the count was 1 and the member handle holds `m`, `NHeap.release` for
`strong_refc_policy` is: the destructor, which releases `m`, then the weak
decrement with the deallocation if that count was 1. -/
theorem NHeap.release_cascade_weak (fuel : Nat) (h h3 : NHeap) (x m : Nat)
    (h1 : (h x).obj.rc = 1) (hm : (h x).member = m) (hm0 : m ≠ 0)
    (hin : NHeap.release Base.refc_weak_base fuel
      (h.set_obj x (Obj.destroy_at
        { rc := (fetch_sub (h x).obj.rc).2, weak_rc := (h x).obj.weak_rc, log := (h x).obj.log }))
      m =
        some h3) :
    NHeap.release Base.refc_weak_base (fuel + 1) h x =
      some (h3.set_obj x (weak_refc_policy.release (h3 x).obj)) := by
  have h1b : (fetch_sub (h x).obj.rc).1 = 1 := h1
  simp only [NHeap.release, weak_refc_policy.release]
  simp only [if_pos h1b]
  simp only [NHeap.set_obj_obj, NHeap.set_obj_member, NHeap.set_obj_set_obj, hm, ne_eq, hm0,
    not_false_eq_true, if_true]
  rw [hin]
  simp only [NHeap.set_obj_obj, NHeap.set_obj_set_obj]
  split_ifs <;> rfl

theorem add_ref_fresh (b : Base) :
    (b.policy_type.add_ref Obj.fresh).2 =
      { rc := 1, weak_rc := if b = Base.refc then 0 else 1, log := [] } := by
  cases b <;> decide

theorem release_last (b : Base) :
    b.policy_type.release { rc := 1, weak_rc := if b = Base.refc then 0 else 1, log := [] } =
      { rc := 0, weak_rc := 0, log := [Event.destroyed, Event.deallocated] } := by
  cases b <;> decide

theorem self_ref_ctor_eq (b : Base) (h : NHeap) (a : Nat) (ha : a ≠ 0) :
    self_ref.ctor b h a = (h.add_ref b a).set_member a a := by
  simp [self_ref.ctor, NHeap.ctor, ha]

theorem self_ref_reset_eq (b : Base) (fuel : Nat) (h : NHeap) (a : Nat)
    (hm : (h a).member ≠ 0) :
    self_ref.reset b fuel h a = NHeap.release b fuel (h.set_member a 0) (h a).member := by
  simp [self_ref.reset, refc_ptr.swap, NHeap.dtor, hm]

theorem destroy_last_refc :
    Obj.operator_delete (Obj.destroy_at { rc := (fetch_sub 1).2, weak_rc := 0, log := [] }) =
      { rc := 0, weak_rc := 0, log := [Event.destroyed, Event.deallocated] } := by
  decide

theorem destroy_last_weak :
    weak_refc_policy.release (Obj.destroy_at { rc := (fetch_sub 1).2, weak_rc := 1, log := [] }) =
      { rc := 0, weak_rc := 0, log := [Event.destroyed, Event.deallocated] } := by
  decide

theorem NHeap.set_obj_shadow (h : NHeap) (x m : Nat) (o1 o2 y : Obj) (hxm : x ≠ m) :
    ((h.set_obj x o1).set_obj m y).set_obj x o2 = (h.set_obj m y).set_obj x o2 := by
  funext c
  by_cases hc : c = x
  · subst hc
    simp [NHeap.set_obj, NHeap.set, hxm]
  · by_cases hm : c = m
    · subst hm
      simp [NHeap.set_obj, NHeap.set, hc]
    · simp [NHeap.set_obj, NHeap.set, hc, hm]

/-- Releasing the only strong unit of an object `x` whose member handle holds one of
two or more strong units of another object `m`: `x` is destroyed and freed and `m`
loses one unit. -/
theorem NHeap.release_owner (b : Base) (fuel : Nat) (h : NHeap) (x m : Nat) (y : Obj)
    (hxm : x ≠ m) (hm0 : m ≠ 0)
    (hx : (h x).obj = { rc := 1, weak_rc := if b = Base.refc then 0 else 1, log := [] })
    (hmem : (h x).member = m)
    (hy : (h m).obj = (b.policy_type.add_ref y).2)
    (hy1 : 1 ≤ y.rc) (hy2 : y.rc + 1 < ULONG_MOD)
    (hyw : b = Base.refc ∨ (1 ≤ y.weak_rc ∧ y.weak_rc + 1 < ULONG_MOD)) :
    NHeap.release b (fuel + 2) h x =
      some ((h.set_obj m y).set_obj x
        { rc := 0, weak_rc := 0, log := [Event.destroyed, Event.deallocated] }) := by
  have hrc : (h x).obj.rc = 1 := by rw [hx]
  have hmx : m ≠ x := Ne.symm hxm
  have hne : ¬ (b.policy_type.add_ref y).2.rc = 1 := by
    rw [rc_add_ref]
    exact two_ne_one_mod y.rc hy1 hy2
  have e1 : ((h.set_obj x
      (Obj.destroy_at
        { rc := (fetch_sub (h x).obj.rc).2, weak_rc := (h x).obj.weak_rc, log := (h x).obj.log })) m).obj =
      (b.policy_type.add_ref y).2 := by
    rw [NHeap.set_obj_other _ _ _ _ hmx, hy]
  have hin : NHeap.release b (fuel + 1)
      (h.set_obj x (Obj.destroy_at
        { rc := (fetch_sub (h x).obj.rc).2, weak_rc := (h x).obj.weak_rc, log := (h x).obj.log })) m =
      some ((h.set_obj x
        (Obj.destroy_at
        { rc := (fetch_sub (h x).obj.rc).2, weak_rc := (h x).obj.weak_rc, log := (h x).obj.log })).set_obj m y) := by
    rw [NHeap.release_flat b fuel _ m (Or.inl (by rw [e1]; exact hne)), e1,
      release_add_ref b y hy1 hy2 hyw]
  have e2 : (((h.set_obj x
      (Obj.destroy_at
        { rc := (fetch_sub (h x).obj.rc).2, weak_rc := (h x).obj.weak_rc, log := (h x).obj.log })).set_obj m y) x).obj =
      Obj.destroy_at { rc := (fetch_sub 1).2, weak_rc := (if b = Base.refc then 0 else 1), log := [] } := by
    rw [NHeap.set_obj_other _ _ _ _ hxm, NHeap.set_obj_obj, hx]
  cases b
  · rw [NHeap.release_cascade_refc (fuel + 1) h _ x m hrc hmem hm0 hin, e2]
    simp only [if_true, destroy_last_refc, NHeap.set_obj_shadow _ _ _ _ _ _ hxm]
  · rw [NHeap.release_cascade_weak (fuel + 1) h _ x m hrc hmem hm0 hin, e2]
    simp only [if_neg (show ¬ Base.refc_weak_base = Base.refc by decide), destroy_last_weak,
      NHeap.set_obj_shadow _ _ _ _ _ _ hxm]

theorem dynamic_cast_ok (is_T : Nat → Bool) (p : Nat) (hp : p ≠ 0) (ht : is_T p = true) :
    std.dynamic_cast is_T p = p := by
  simp [std.dynamic_cast, hp, ht]

theorem dynamic_cast_fail (is_T : Nat → Bool) (p : Nat) (hf : p = 0 ∨ is_T p = false) :
    std.dynamic_cast is_T p = 0 := by
  rcases hf with hf | hf <;> simp [std.dynamic_cast, hf]

theorem ctor_false (P : Policy) (p : Nat) (h : Heap) : refc_ptr.ctor P p false h = (p, h) := by
  simp [refc_ptr.ctor]

theorem ctor_true_rc (b : Base) (p : Nat) (h : Heap) (hp : p ≠ 0) :
    ((refc_ptr.ctor b.policy_type p true h).2 p).rc = ((h p).rc + 1) % ULONG_MOD := by
  rw [ctor_true _ p h hp]
  show (Heap.set h p (b.policy_type.add_ref (h p)).2 p).rc = _
  rw [Heap.set_self, rc_add_ref]

theorem frees_strong_release (x : Obj) :
    (strong_refc_policy.release x).frees = x.frees + (if x.weak_rc = 1 then 1 else 0) := by
  rw [Obj.frees, Obj.frees, log_strong_release]
  by_cases h1 : x.rc = 1 <;> by_cases h2 : x.weak_rc = 1 <;> simp [h1, h2, List.count_append]

theorem frees_weak_release (x : Obj) :
    (weak_refc_policy.release x).frees = x.frees + (if x.weak_rc = 1 then 1 else 0) := by
  rw [Obj.frees, Obj.frees, log_weak_release]
  by_cases h2 : x.weak_rc = 1 <;> simp [h2, List.count_append]

theorem release_all_frees (rs : List Bool) (y : Obj) (h1 : rs.length + 1 ≤ y.weak_rc)
    (h2 : y.weak_rc < ULONG_MOD) : (release_all rs y).frees = y.frees := by
  induction rs generalizing y with
  | nil => rfl
  | cons r rs ih =>
    have hlen : rs.length + 2 ≤ y.weak_rc := by
      simp only [List.length_cons] at h1
      omega
    have hne : ¬ y.weak_rc = 1 := by omega
    cases r
    · show (release_all rs (weak_refc_policy.release y)).frees = y.frees
      have hw : (weak_refc_policy.release y).weak_rc = y.weak_rc - 1 := by
        rw [weak_weak_release, sub_one_mod _ (by omega) h2]
      rw [ih (weak_refc_policy.release y) (by rw [hw]; omega) (by rw [hw]; omega),
        frees_weak_release, if_neg hne, Nat.add_zero]
    · show (release_all rs (strong_refc_policy.release y)).frees = y.frees
      have hw : (strong_refc_policy.release y).weak_rc = y.weak_rc - 1 := by
        rw [weak_strong_release, sub_one_mod _ (by omega) h2]
      rw [ih (strong_refc_policy.release y) (by rw [hw]; omega) (by rw [hw]; omega),
        frees_strong_release, if_neg hne, Nat.add_zero]

theorem release_adopted :
    strong_refc_policy.release { rc := 1, weak_rc := 0, log := [] } =
      { rc := 0, weak_rc := ULONG_MOD - 1, log := [Event.destroyed] } := by
  decide

open mach_absolute_time_clock

theorem land_natCast (m k : Nat) : Int.land (m : Int) (k : Int) = ((m &&& k : Nat) : Int) := rfl

theorem shiftRight_natCast (m s : Nat) : (m : Int) >>> s = ((m / 2 ^ s : Nat) : Int) := by
  rw [Int.shiftRight_eq_div_pow]
  norm_cast

theorem int64_cast_of_lt (x : Int) (h0 : 0 ≤ x) (h1 : x < 2 ^ 63) : int64_cast x = x := by
  unfold int64_cast
  rw [Int.emod_eq_of_lt (by omega) (by omega)]
  omega

/-- On a non-negative product the conversion with mask 1 adds one exactly when the
product is odd. -/
theorem convert_one (m : Nat) :
    (if Int.land (m : Int) 1 ≠ 0 then (1 : Int) else 0) = ((m % 2 : Nat) : Int) := by
  have e : Int.land (m : Int) 1 = ((m &&& 1 : Nat) : Int) := land_natCast m 1
  rw [e, Nat.and_one_is_mod]
  have h2 : m % 2 = 0 ∨ m % 2 = 1 := by omega
  rcases h2 with h2 | h2 <;> simp [h2]

/-- On a non-negative product the conversion with mask `2 ^ 31` rounds to nearest. -/
theorem convert_half (m : Nat) :
    ((m / 2 ^ 32 : Nat) : Int) + (if Int.land (m : Int) (2 ^ 31) ≠ 0 then (1 : Int) else 0) =
      (((m + 2 ^ 31) / 2 ^ 32 : Nat) : Int) := by
  have e : Int.land (m : Int) (2 ^ 31) = ((m &&& 2 ^ 31 : Nat) : Int) := land_natCast m (2 ^ 31)
  rw [e, Nat.and_two_pow, Nat.testBit_to_div_mod]
  have h2 : m / 2 ^ 31 % 2 = 0 ∨ m / 2 ^ 31 % 2 = 1 := by omega
  rcases h2 with h2 | h2
  · simp only [h2]
    norm_num
    omega
  · simp only [h2]
    norm_num
    omega

theorem refc_release_path_log (x : Obj) :
    (refc_policy.release x).log = x.log ++ path_events (refc_policy.release_path x.rc) := by
  rw [log_refc_release]
  by_cases h : x.rc = 1 <;> simp [refc_policy.release_path, path_events, Instr.events, h]

theorem weak_release_path_log (x : Obj) :
    (weak_refc_policy.release x).log =
      x.log ++ path_events (weak_refc_policy.release_path x.weak_rc) := by
  rw [log_weak_release]
  by_cases h : x.weak_rc = 1 <;> simp [weak_refc_policy.release_path, path_events, Instr.events, h]

theorem strong_release_path_log (x : Obj) :
    (strong_refc_policy.release x).log =
      x.log ++ path_events (strong_refc_policy.release_path x.rc x.weak_rc) := by
  rw [log_strong_release]
  by_cases h : x.rc = 1 <;> by_cases h2 : x.weak_rc = 1 <;>
    simp [strong_refc_policy.release_path, path_events, Instr.events, h, h2]

theorem total_nil (f : Thread → Nat) : total f [] = 0 := rfl

theorem total_cons (f : Thread → Nat) (t : Thread) (l : List Thread) :
    total f (t :: l) = f t + total f l := by
  simp [total]

theorem total_set (f : Thread → Nat) (l : List Thread) (i : Nat) (t t1 : Thread)
    (h : l[i]? = some t) : total f (l.set i t1) + f t = total f l + f t1 := by
  induction l generalizing i with
  | nil => simp at h
  | cons z l ih =>
    cases i with
    | zero =>
      simp only [List.getElem?_cons_zero, Option.some.injEq] at h
      subst h
      rw [List.set_cons_zero, total_cons, total_cons]
      omega
    | succ n =>
      simp only [List.getElem?_cons_succ] at h
      rw [List.set_cons_succ, total_cons, total_cons]
      have := ih n h
      omega

theorem le_total (f : Thread → Nat) (l : List Thread) (i : Nat) (t : Thread)
    (h : l[i]? = some t) : f t ≤ total f l := by
  induction l generalizing i with
  | nil => simp at h
  | cons z l ih =>
    cases i with
    | zero =>
      simp only [List.getElem?_cons_zero, Option.some.injEq] at h
      subst h
      rw [total_cons]
      omega
    | succ n =>
      simp only [List.getElem?_cons_succ] at h
      rw [total_cons]
      have := ih n h
      omega

theorem total_add_le (f g k : Thread → Nat) (l : List Thread) (h : ∀ t, f t + g t ≤ k t) :
    total f l + total g l ≤ total k l := by
  induction l with
  | nil => simp [total]
  | cons z l ih =>
    rw [total_cons, total_cons, total_cons]
    have := h z
    omega

theorem total_eq_zero (f : Thread → Nat) (l : List Thread) (h : total f l = 0) :
    ∀ t ∈ l, f t = 0 := by
  induction l with
  | nil => intro t ht; simp at ht
  | cons z l ih =>
    rw [total_cons] at h
    intro t ht
    rcases List.mem_cons.mp ht with e | e
    · subst e; omega
    · exact ih (by omega) t e

theorem total_zero_of_forall (f : Thread → Nat) (l : List Thread) (h : ∀ t ∈ l, f t = 0) :
    total f l = 0 := by
  induction l with
  | nil => rfl
  | cons z l ih =>
    rw [total_cons, h z (List.mem_cons_self _ _), ih (fun t ht => h t (List.mem_cons_of_mem _ ht))]

theorem Thread.strong_add_destroying_le (t : Thread) :
    t.strong + t.destroying ≤ t.weak_units := by
  rcases t with ⟨pc, s, w⟩
  cases pc <;> simp [Thread.destroying, Thread.weak_units] <;> omega

theorem fetch_add_snd (c : Nat) (h : c + 1 < ULONG_MOD) : (fetch_add c).2 = c + 1 :=
  add_one_mod c h

theorem fetch_sub_snd_pos (c : Nat) (h1 : 1 ≤ c) (h2 : c < ULONG_MOD) : (fetch_sub c).2 = c - 1 :=
  sub_one_mod c h1 h2

theorem Thread.step_effect (x x1 : Obj) (t t1 : Thread) (c : Call) (sp : Bool)
    (h : Thread.step x t c sp = some (x1, t1))
    (hwf : t.wf) (hs : t.strong ≤ x.rc) (hw : t.weak_units ≤ x.weak_rc)
    (hfit : x.weak_rc + 1 < ULONG_MOD) (hle : x.rc ≤ x.weak_rc) :
    x1.rc + t.strong = x.rc + t1.strong ∧
    x1.weak_rc + t.weak_units = x.weak_rc + t1.weak_units ∧
    t1.wf ∧
    ((x1.log = x.log ∧ (x1.rc = 0 ↔ x.rc = 0) ∧ (x1.weak_rc = 0 ↔ x.weak_rc = 0) ∧
        t1.destroying = t.destroying ∧ t1.freeing = t.freeing) ∨
     (x1.log = x.log ∧ x.rc = 1 ∧ x1.rc = 0 ∧ x1.weak_rc = x.weak_rc ∧
        t.destroying = 0 ∧ t1.destroying = 1 ∧ t1.freeing = t.freeing) ∨
     (x1.log = x.log ++ [Event.destroyed] ∧ x1.rc = x.rc ∧ x1.weak_rc = x.weak_rc ∧
        t.destroying = 1 ∧ t1.destroying = 0 ∧ t1.freeing = t.freeing) ∨
     (x1.log = x.log ∧ x1.rc = x.rc ∧ x.weak_rc = 1 ∧ x1.weak_rc = 0 ∧
        t.freeing = 0 ∧ t1.freeing = 1 ∧ t1.destroying = t.destroying) ∨
     (x1.log = x.log ++ [Event.deallocated] ∧ x1.rc = x.rc ∧ x1.weak_rc = x.weak_rc ∧
        t.freeing = 1 ∧ t1.freeing = 0 ∧ t1.destroying = t.destroying)) := by
  rcases x with ⟨rc, wk, log⟩
  rcases t with ⟨pc, s, w⟩
  simp only at hs hw hfit hle
  have hfa : (fetch_add wk).2 = wk + 1 := fetch_add_snd wk hfit
  have hfr : (fetch_add rc).2 = rc + 1 := fetch_add_snd rc (by omega)
  have hw0 : s + w ≤ wk := by
    have : s + w ≤ Thread.weak_units { pc := pc, strong := s, weak := w } := Nat.le_add_right _ _
    omega
  cases pc with
  | idle =>
    cases c with
    | add_ref =>
      simp only [Thread.step] at h
      split_ifs at h with h1
      simp only [Option.some.injEq, Prod.mk.injEq] at h
      obtain ⟨rfl, rfl⟩ := h
      refine ⟨?_, ?_, ?_, Or.inl ?_⟩
      all_goals simp [Thread.weak_units, Thread.destroying, Thread.freeing, Thread.wf, hfa]
      all_goals omega
    | weak_add_ref =>
      simp only [Thread.step] at h
      split_ifs at h with h1
      simp only [Option.some.injEq, Prod.mk.injEq] at h
      obtain ⟨rfl, rfl⟩ := h
      have e : (weak_refc_policy.add_ref { rc := rc, weak_rc := wk, log := log }).2 =
          { rc := rc, weak_rc := (fetch_add wk).2, log := log } := rfl
      refine ⟨?_, ?_, ?_, Or.inl ?_⟩
      all_goals simp [e, Thread.weak_units, Thread.destroying, Thread.freeing, Thread.wf, hfa]
      all_goals omega
    | try_ref =>
      simp only [Thread.step] at h
      split_ifs at h with h1
      simp only [Option.some.injEq, Prod.mk.injEq] at h
      obtain ⟨rfl, rfl⟩ := h
      refine ⟨?_, ?_, ?_, Or.inl ?_⟩
      all_goals simp [Thread.weak_units, Thread.destroying, Thread.freeing, Thread.wf, hfa]
      all_goals omega
    | release =>
      by_cases h1 : 1 ≤ s
      · have e : (fetch_sub rc).2 = rc - 1 := fetch_sub_snd_pos rc (by omega) (by omega)
        by_cases h2 : rc = 1
        · simp only [Thread.step, fetch_sub_fst, h1, h2, if_true, Option.some.injEq,
            Prod.mk.injEq] at h
          obtain ⟨rfl, rfl⟩ := h
          have e1 : (fetch_sub 1).2 = 0 := by rw [← h2, e, h2]
          refine ⟨?_, ?_, ?_, Or.inr (Or.inl ?_)⟩
          all_goals simp [Thread.weak_units, Thread.destroying, Thread.freeing, Thread.wf, e1, h2]
          all_goals omega
        · simp only [Thread.step, fetch_sub_fst, h1, h2, if_true, if_false, Option.some.injEq,
            Prod.mk.injEq] at h
          obtain ⟨rfl, rfl⟩ := h
          refine ⟨?_, ?_, ?_, Or.inl ?_⟩
          all_goals simp [Thread.weak_units, Thread.destroying, Thread.freeing, Thread.wf, e]
          all_goals omega
      · simp [Thread.step, h1] at h
    | weak_release =>
      by_cases h1 : 1 ≤ w
      · have e : (fetch_sub wk).2 = wk - 1 := fetch_sub_snd_pos wk (by omega) (by omega)
        by_cases h2 : wk = 1
        · simp only [Thread.step, fetch_sub_fst, h1, h2, if_true, Option.some.injEq,
            Prod.mk.injEq] at h
          obtain ⟨rfl, rfl⟩ := h
          have e1 : (fetch_sub 1).2 = 0 := by rw [← h2, e, h2]
          refine ⟨?_, ?_, ?_, Or.inr (Or.inr (Or.inr (Or.inl ?_)))⟩
          all_goals simp [Thread.weak_units, Thread.destroying, Thread.freeing, Thread.wf, e1, h2]
          all_goals omega
        · simp only [Thread.step, fetch_sub_fst, h1, h2, if_true, if_false, Option.some.injEq,
            Prod.mk.injEq] at h
          obtain ⟨rfl, rfl⟩ := h
          refine ⟨?_, ?_, ?_, Or.inl ?_⟩
          all_goals simp [Thread.weak_units, Thread.destroying, Thread.freeing, Thread.wf, e]
          all_goals omega
      · simp [Thread.step, h1] at h
  | add_ref_rc =>
    simp only [Thread.step, Option.some.injEq, Prod.mk.injEq] at h
    obtain ⟨rfl, rfl⟩ := h
    have h1 : 1 ≤ s := hwf.1 rfl
    refine ⟨?_, ?_, ?_, Or.inl ?_⟩
    all_goals simp [Thread.weak_units, Thread.destroying, Thread.freeing, Thread.wf, hfr]
    all_goals omega
  | try_ref_load =>
    simp only [Thread.step, Option.some.injEq, Prod.mk.injEq] at h
    obtain ⟨rfl, rfl⟩ := h
    have h1 : 1 ≤ w := hwf.2.1 rfl
    refine ⟨?_, ?_, ?_, Or.inl ?_⟩
    all_goals simp [Thread.weak_units, Thread.destroying, Thread.freeing, Thread.wf]
    all_goals omega
  | try_ref_loop r =>
    have h1 : 1 ≤ w := hwf.2.2 r rfl
    simp only [Thread.step] at h
    split_ifs at h with hr
    · by_cases hc : rc = r ∧ sp = false
      · simp only [compare_exchange_weak, hc, and_self, if_true, Option.some.injEq,
          Prod.mk.injEq] at h
        obtain ⟨rfl, rfl⟩ := h
        obtain ⟨rfl, -⟩ := hc
        have e : (rc + 1) % ULONG_MOD = rc + 1 := add_one_mod rc (by omega)
        refine ⟨?_, ?_, ?_, Or.inl ?_⟩
        all_goals simp [Thread.weak_units, Thread.destroying, Thread.freeing, Thread.wf, e]
        all_goals omega
      · simp only [compare_exchange_weak, hc, if_false, Option.some.injEq,
          Prod.mk.injEq] at h
        obtain ⟨rfl, rfl⟩ := h
        refine ⟨?_, ?_, ?_, Or.inl ?_⟩
        all_goals simp [Thread.weak_units, Thread.destroying, Thread.freeing, Thread.wf]
        all_goals omega
    · simp only [Option.some.injEq, Prod.mk.injEq] at h
      obtain ⟨rfl, rfl⟩ := h
      have hw2 : 2 ≤ wk := by
        simp [Thread.weak_units] at hw
        omega
      have e : (fetch_sub wk).2 = wk - 1 := fetch_sub_snd_pos wk (by omega) (by omega)
      refine ⟨?_, ?_, ?_, Or.inl ?_⟩
      all_goals simp [Thread.weak_units, Thread.destroying, Thread.freeing, Thread.wf, e]
      all_goals omega
  | release_destroy =>
    simp only [Thread.step, Option.some.injEq, Prod.mk.injEq] at h
    obtain ⟨rfl, rfl⟩ := h
    refine ⟨?_, ?_, ?_, Or.inr (Or.inr (Or.inl ?_))⟩
    all_goals simp [Thread.weak_units, Thread.destroying, Thread.freeing, Thread.wf, Obj.destroy_at]
  | release_weak =>
    have hw1 : 1 ≤ wk := by
      simp [Thread.weak_units] at hw
      omega
    have e : (fetch_sub wk).2 = wk - 1 := fetch_sub_snd_pos wk hw1 (by omega)
    by_cases h2 : wk = 1
    · simp only [Thread.step, fetch_sub_fst, h2, if_true, Option.some.injEq,
        Prod.mk.injEq] at h
      obtain ⟨rfl, rfl⟩ := h
      have e1 : (fetch_sub 1).2 = 0 := by rw [← h2, e, h2]
      refine ⟨?_, ?_, ?_, Or.inr (Or.inr (Or.inr (Or.inl ?_)))⟩
      all_goals simp [Thread.weak_units, Thread.destroying, Thread.freeing, Thread.wf, e1, h2]
      all_goals omega
    · simp only [Thread.step, fetch_sub_fst, h2, if_false, Option.some.injEq,
        Prod.mk.injEq] at h
      obtain ⟨rfl, rfl⟩ := h
      refine ⟨?_, ?_, ?_, Or.inl ?_⟩
      all_goals simp [Thread.weak_units, Thread.destroying, Thread.freeing, Thread.wf, e]
      all_goals omega
  | release_delete =>
    simp only [Thread.step, Option.some.injEq, Prod.mk.injEq] at h
    obtain ⟨rfl, rfl⟩ := h
    refine ⟨?_, ?_, ?_, Or.inr (Or.inr (Or.inr (Or.inr ?_)))⟩
    all_goals simp [Thread.weak_units, Thread.destroying, Thread.freeing, Thread.wf,
      Obj.operator_delete]

theorem Conc.step_some (st st1 : Conc) (p : Pick) (h : Conc.step st p = some st1) :
    ∃ t r, st.threads[p.thread]? = some t ∧
      Thread.step st.obj t p.call p.spurious = some r ∧
      st1 = { obj := r.1, threads := st.threads.set p.thread r.2 } := by
  unfold Conc.step at h
  cases hg : st.threads[p.thread]? with
  | none => simp [hg] at h
  | some t =>
    cases hs : Thread.step st.obj t p.call p.spurious with
    | none => simp [hg, hs] at h
    | some r =>
      simp only [hg, hs, Option.some.injEq] at h
      exact ⟨t, r, rfl, hs, h.symm⟩

theorem Thread.step_weak_units (x x1 : Obj) (t t1 : Thread) (c : Call) (sp : Bool)
    (h : Thread.step x t c sp = some (x1, t1)) : t1.weak_units ≤ t.weak_units + 1 := by
  rcases t with ⟨pc, s, w⟩
  cases pc with
  | idle =>
    cases c <;> simp only [Thread.step] at h <;> split_ifs at h <;>
      simp only [Option.some.injEq, Prod.mk.injEq] at h <;> obtain ⟨-, rfl⟩ := h <;>
      simp [Thread.weak_units] <;> omega
  | try_ref_loop r =>
    simp only [Thread.step, compare_exchange_weak] at h
    split_ifs at h <;>
      simp only [Option.some.injEq, Prod.mk.injEq] at h <;> obtain ⟨-, rfl⟩ := h <;>
      simp [Thread.weak_units] <;> omega
  | release_weak =>
    simp only [Thread.step] at h
    split_ifs at h <;>
      simp only [Option.some.injEq, Prod.mk.injEq] at h <;> obtain ⟨-, rfl⟩ := h <;>
      simp [Thread.weak_units] <;> omega
  | add_ref_rc =>
    simp only [Thread.step, Option.some.injEq, Prod.mk.injEq] at h
    obtain ⟨-, rfl⟩ := h
    simp [Thread.weak_units]
    omega
  | try_ref_load =>
    simp only [Thread.step, Option.some.injEq, Prod.mk.injEq] at h
    obtain ⟨-, rfl⟩ := h
    simp [Thread.weak_units]
  | release_destroy =>
    simp only [Thread.step, Option.some.injEq, Prod.mk.injEq] at h
    obtain ⟨-, rfl⟩ := h
    simp [Thread.weak_units]
  | release_delete =>
    simp only [Thread.step, Option.some.injEq, Prod.mk.injEq] at h
    obtain ⟨-, rfl⟩ := h
    simp [Thread.weak_units]

theorem Conc.inv_le (st : Conc) (hinv : st.Inv) : st.obj.rc ≤ st.obj.weak_rc := by
  obtain ⟨-, dr, fr, hrc, hwk, -⟩ := hinv
  have := total_add_le Thread.strong Thread.destroying Thread.weak_units st.threads
    Thread.strong_add_destroying_le
  omega

theorem Conc.inv_step (st st1 : Conc) (p : Pick) (hinv : st.Inv)
    (hfit : total Thread.weak_units st.threads + 1 < ULONG_MOD)
    (h : Conc.step st p = some st1) :
    st1.Inv ∧ total Thread.weak_units st1.threads ≤ total Thread.weak_units st.threads + 1 := by
  obtain ⟨t, r, hg, hs, rfl⟩ := Conc.step_some st st1 p h
  have hle := Conc.inv_le st hinv
  obtain ⟨hwf, dr, fr, hrc, hwk, hlog, n1, n2, n3, n4⟩ := hinv
  have hmem : t ∈ st.threads := List.getElem?_mem hg
  have hsd := total_add_le Thread.strong Thread.destroying Thread.weak_units st.threads
    Thread.strong_add_destroying_le
  have htd := Thread.strong_add_destroying_le t
  have ls := le_total Thread.strong st.threads p.thread t hg
  have lw := le_total Thread.weak_units st.threads p.thread t hg
  have es := total_set Thread.strong st.threads p.thread t r.2 hg
  have ew := total_set Thread.weak_units st.threads p.thread t r.2 hg
  have ed := total_set Thread.destroying st.threads p.thread t r.2 hg
  have ef := total_set Thread.freeing st.threads p.thread t r.2 hg
  obtain ⟨c1, c2, c3, c4⟩ := Thread.step_effect st.obj r.1 t r.2 p.call p.spurious hs
    (hwf t hmem) (by omega) (by omega) (by omega) hle
  have hwf1 : ∀ t1 ∈ st.threads.set p.thread r.2, t1.wf := by
    intro t1 ht1
    rcases List.mem_or_eq_of_mem_set ht1 with e | e
    · exact hwf t1 e
    · rw [e]; exact c3
  refine ⟨⟨hwf1, ?_⟩, ?_⟩
  · show ∃ dr1 fr1 : Nat,
      r.1.rc = total Thread.strong (st.threads.set p.thread r.2) ∧
      r.1.weak_rc = total Thread.weak_units (st.threads.set p.thread r.2) ∧
      r.1.log = List.replicate dr1 Event.destroyed ++ List.replicate fr1 Event.deallocated ∧
      (total Thread.strong (st.threads.set p.thread r.2) = 0 →
        dr1 + total Thread.destroying (st.threads.set p.thread r.2) = 1) ∧
      (1 ≤ total Thread.strong (st.threads.set p.thread r.2) →
        dr1 + total Thread.destroying (st.threads.set p.thread r.2) = 0) ∧
      (total Thread.weak_units (st.threads.set p.thread r.2) = 0 →
        fr1 + total Thread.freeing (st.threads.set p.thread r.2) = 1) ∧
      (1 ≤ total Thread.weak_units (st.threads.set p.thread r.2) →
        fr1 + total Thread.freeing (st.threads.set p.thread r.2) = 0)
    rcases c4 with ⟨l1, a1, a2, a3, a4⟩ | ⟨l1, a1, a2, a3, a4, a5, a6⟩ |
      ⟨l1, a1, a2, a3, a4, a5⟩ | ⟨l1, a1, a2, a3, a4, a5, a6⟩ | ⟨l1, a1, a2, a3, a4, a5⟩
    · refine ⟨dr, fr, by omega, by omega, by rw [l1, hlog], ?_, ?_, ?_, ?_⟩ <;> omega
    · refine ⟨dr, fr, by omega, by omega, by rw [l1, hlog], ?_, ?_, ?_, ?_⟩ <;> omega
    · have hfr0 : fr = 0 := by omega
      refine ⟨dr + 1, fr, by omega, by omega, ?_, ?_, ?_, ?_, ?_⟩
      · rw [l1, hlog, hfr0, List.replicate_succ']
        simp
      all_goals omega
    · refine ⟨dr, fr, by omega, by omega, by rw [l1, hlog], ?_, ?_, ?_, ?_⟩ <;> omega
    · refine ⟨dr, fr + 1, by omega, by omega, ?_, ?_, ?_, ?_, ?_⟩
      · rw [l1, hlog, List.replicate_succ', List.append_assoc]
      all_goals omega
  · show total Thread.weak_units (st.threads.set p.thread r.2) ≤
      total Thread.weak_units st.threads + 1
    have := Thread.step_weak_units st.obj r.1 t r.2 p.call p.spurious hs
    omega

theorem Conc.inv_run (ps : List Pick) (st st1 : Conc) (hinv : st.Inv)
    (hfit : total Thread.weak_units st.threads + ps.length < ULONG_MOD)
    (h : Conc.run st ps = some st1) :
    st1.Inv ∧
      total Thread.weak_units st1.threads ≤ total Thread.weak_units st.threads + ps.length := by
  induction ps generalizing st with
  | nil =>
    simp only [Conc.run, Option.some.injEq] at h
    subst h
    exact ⟨hinv, Nat.le_add_right _ _⟩
  | cons p ps ih =>
    simp only [List.length_cons] at hfit
    cases hs : Conc.step st p with
    | none => simp [Conc.run, hs] at h
    | some st2 =>
      simp only [Conc.run, hs] at h
      have h2 := Conc.inv_step st st2 p hinv (by omega) hs
      have h3 := ih st2 h2.1 (by omega) h
      refine ⟨h3.1, ?_⟩
      simp only [List.length_cons]
      omega

theorem Conc.run_append (ps1 ps2 : List Pick) (st : Conc) :
    Conc.run st (ps1 ++ ps2) = (Conc.run st ps1).bind (fun s => Conc.run s ps2) := by
  induction ps1 generalizing st with
  | nil => rfl
  | cons p ps ih =>
    cases hs : Conc.step st p with
    | none => simp [Conc.run, hs]
    | some st2 => simp [Conc.run, hs, ih]

theorem total_idle_destroying (hs : List (Nat × Nat)) :
    total Thread.destroying (hs.map Thread.idle) = 0 := by
  apply total_zero_of_forall
  intro t ht
  obtain ⟨a, -, rfl⟩ := List.mem_map.mp ht
  rfl

theorem total_idle_freeing (hs : List (Nat × Nat)) :
    total Thread.freeing (hs.map Thread.idle) = 0 := by
  apply total_zero_of_forall
  intro t ht
  obtain ⟨a, -, rfl⟩ := List.mem_map.mp ht
  rfl

theorem Conc.inv_init (hs : List (Nat × Nat))
    (h1 : 1 ≤ total Thread.strong (hs.map Thread.idle)) : (Conc.init hs).Inv := by
  have hsd := total_add_le Thread.strong Thread.destroying Thread.weak_units
    (hs.map Thread.idle) Thread.strong_add_destroying_le
  have hd := total_idle_destroying hs
  have hf := total_idle_freeing hs
  refine ⟨?_, 0, 0, rfl, rfl, rfl, ?_, ?_, ?_, ?_⟩
  · intro t ht
    obtain ⟨a, -, rfl⟩ := List.mem_map.mp ht
    exact ⟨fun e => by simp [Thread.idle] at e, fun e => by simp [Thread.idle] at e,
      fun r e => by simp [Thread.idle] at e⟩
  all_goals
    simp only [Conc.init]
    omega

/-- What the invariant says about the log: at most one destructor run, at most one
deallocation, and the deallocation only after the destructor run. -/
theorem Conc.inv_log (st : Conc) (hinv : st.Inv) :
    (st.obj.log = [] ∧ 1 ≤ st.obj.weak_rc ∧
        (st.obj.rc = 0 → total Thread.destroying st.threads = 1)) ∨
    (st.obj.log = [Event.destroyed] ∧ st.obj.rc = 0 ∧ total Thread.destroying st.threads = 0 ∧
        (st.obj.weak_rc = 0 → total Thread.freeing st.threads = 1)) ∨
    (st.obj.log = [Event.destroyed, Event.deallocated] ∧ st.obj.rc = 0 ∧ st.obj.weak_rc = 0 ∧
        total Thread.destroying st.threads = 0 ∧ total Thread.freeing st.threads = 0) := by
  obtain ⟨-, dr, fr, hrc, hwk, hlog, n1, n2, n3, n4⟩ := hinv
  have hsd := total_add_le Thread.strong Thread.destroying Thread.weak_units st.threads
    Thread.strong_add_destroying_le
  have hdr : dr = 0 ∨ dr = 1 := by omega
  have hfr : fr = 0 ∨ fr = 1 := by omega
  rcases hdr with hdr | hdr <;> rcases hfr with hfr | hfr
  · left
    subst hdr; subst hfr
    exact ⟨hlog, by omega, by omega⟩
  · exfalso; omega
  · right; left
    subst hdr; subst hfr
    exact ⟨hlog, by omega, by omega, by omega⟩
  · right; right
    subst hdr; subst hfr
    exact ⟨hlog, by omega, by omega, by omega, by omega⟩

theorem Conc.rc_zero_step (st st1 : Conc) (p : Pick) (hinv : st.Inv)
    (hfit : total Thread.weak_units st.threads + 1 < ULONG_MOD)
    (h : Conc.step st p = some st1) (h0 : st.obj.rc = 0) : st1.obj.rc = 0 := by
  obtain ⟨t, r, hg, hs, rfl⟩ := Conc.step_some st st1 p h
  have hle := Conc.inv_le st hinv
  obtain ⟨hwf, dr, fr, hrc, hwk, -⟩ := hinv
  have hmem : t ∈ st.threads := List.getElem?_mem hg
  have ls := le_total Thread.strong st.threads p.thread t hg
  have lw := le_total Thread.weak_units st.threads p.thread t hg
  obtain ⟨c1, c2, c3, c4⟩ := Thread.step_effect st.obj r.1 t r.2 p.call p.spurious hs
    (hwf t hmem) (by omega) (by omega) (by omega) hle
  show r.1.rc = 0
  rcases c4 with ⟨l1, a1, a2, a3, a4⟩ | ⟨l1, a1, a2, a3, a4, a5, a6⟩ |
    ⟨l1, a1, a2, a3, a4, a5⟩ | ⟨l1, a1, a2, a3, a4, a5, a6⟩ | ⟨l1, a1, a2, a3, a4, a5⟩
  · exact a1.mpr h0
  · omega
  · omega
  · omega
  · omega

theorem Conc.rc_zero_run (ps : List Pick) (st st1 : Conc) (hinv : st.Inv)
    (hfit : total Thread.weak_units st.threads + ps.length < ULONG_MOD)
    (h : Conc.run st ps = some st1) (h0 : st.obj.rc = 0) : st1.obj.rc = 0 := by
  induction ps generalizing st with
  | nil =>
    simp only [Conc.run, Option.some.injEq] at h
    subst h
    exact h0
  | cons p ps ih =>
    simp only [List.length_cons] at hfit
    cases hs : Conc.step st p with
    | none => simp [Conc.run, hs] at h
    | some st2 =>
      simp only [Conc.run, hs] at h
      have h2 := Conc.inv_step st st2 p hinv (by omega) hs
      exact ih st2 h2.1 (by omega) h (Conc.rc_zero_step st st2 p hinv (by omega) hs h0)

theorem getElem?_set_same (l : List Thread) (i : Nat) (t t1 : Thread) (h : l[i]? = some t) :
    (l.set i t1)[i]? = some t1 := by
  induction l generalizing i with
  | nil => simp at h
  | cons z l ih =>
    cases i with
    | zero => simp
    | succ n =>
      simp only [List.getElem?_cons_succ] at h
      simp only [List.set_cons_succ, List.getElem?_cons_succ]
      exact ih n h

theorem Thread.step_lock (x x1 : Obj) (t t1 : Thread) (c : Call) (sp : Bool) (r : Nat)
    (hpc : t.pc = Pc.try_ref_loop r) (h : Thread.step x t c sp = some (x1, t1)) :
    (1 ≤ r ∧ x.rc = r ∧ sp = false ∧ x1 = { x with rc := (r + 1) % ULONG_MOD } ∧
      t1 = { pc := Pc.idle, strong := t.strong + 1, weak := t.weak }) ∨
    (1 ≤ r ∧ x1 = x ∧ t1 = { pc := Pc.try_ref_loop x.rc, strong := t.strong, weak := t.weak }) ∨
    (r = 0 ∧ x1 = { x with weak_rc := (fetch_sub x.weak_rc).2 } ∧
      t1 = { pc := Pc.idle, strong := t.strong, weak := t.weak }) := by
  rcases t with ⟨pc, s, w⟩
  simp only at hpc
  subst hpc
  simp only [Thread.step] at h
  by_cases hr : 0 < r
  · by_cases hc : x.rc = r ∧ sp = false
    · simp only [compare_exchange_weak, hr, hc, and_self, if_true, Option.some.injEq,
        Prod.mk.injEq] at h
      obtain ⟨rfl, rfl⟩ := h
      exact Or.inl ⟨hr, hc.1, hc.2, rfl, rfl⟩
    · simp only [compare_exchange_weak, hr, hc, if_true, if_false, Option.some.injEq,
        Prod.mk.injEq] at h
      obtain ⟨rfl, rfl⟩ := h
      exact Or.inr (Or.inl ⟨hr, rfl, rfl⟩)
  · simp only [hr, if_false, Option.some.injEq, Prod.mk.injEq] at h
    obtain ⟨rfl, rfl⟩ := h
    exact Or.inr (Or.inr ⟨by omega, rfl, rfl⟩)

theorem Thread.step_no_handle (x : Obj) (c : Call) (sp : Bool) :
    Thread.step x { pc := Pc.idle, strong := 0, weak := 0 } c sp = none := by
  cases c <;> simp [Thread.step]

/-- With the invariant, a thread that owns a strong handle sees a live object. -/
theorem Conc.inv_alive (st : Conc) (hinv : st.Inv) (t : Thread) (ht : t ∈ st.threads)
    (hs : 1 ≤ t.strong) :
    st.obj.log = [] ∧ total Thread.destroying st.threads = 0 ∧ 1 ≤ st.obj.rc := by
  obtain ⟨i, hi⟩ := List.getElem?_of_mem ht
  have ls := le_total Thread.strong st.threads i t hi
  have hrc : st.obj.rc = total Thread.strong st.threads := by
    obtain ⟨-, dr, fr, hrc, -⟩ := hinv
    exact hrc
  rcases Conc.inv_log st hinv with ⟨h1, -, -⟩ | ⟨-, h2, -⟩ | ⟨-, h2, -⟩
  · obtain ⟨-, dr, fr, -, -, -, -, n2, -, -⟩ := hinv
    exact ⟨h1, by omega, by omega⟩
  · omega
  · omega

/-- A thread that is in a call or owns a handle can take a step that brings it closer
to having finished and dropped everything, without adding a weak unit. -/
theorem Thread.step_drain (x : Obj) (t : Thread) (h : 0 < t.steps_left x) :
    ∃ c r, Thread.step x t c false = some r ∧ r.2.steps_left r.1 < t.steps_left x ∧
      r.2.weak_units ≤ t.weak_units := by
  rcases t with ⟨pc, s, w⟩
  cases pc with
  | idle =>
    by_cases hs : 1 ≤ s
    · refine ⟨Call.release, _, by simp only [Thread.step, if_pos hs]; rfl, ?_, ?_⟩
      · by_cases h1 : (fetch_sub x.rc).1 = 1
        all_goals simp only [Thread.steps_left, h1, if_true, if_false]
        all_goals omega
      · by_cases h1 : (fetch_sub x.rc).1 = 1
        all_goals simp only [Thread.weak_units, h1, if_true, if_false]
        all_goals omega
    · have hw : 1 ≤ w := by
        simp only [Thread.steps_left] at h
        omega
      refine ⟨Call.weak_release, _, by simp only [Thread.step, if_pos hw]; rfl, ?_, ?_⟩
      · by_cases h1 : (fetch_sub x.weak_rc).1 = 1
        all_goals simp only [Thread.steps_left, h1, if_true, if_false]
        all_goals omega
      · by_cases h1 : (fetch_sub x.weak_rc).1 = 1
        all_goals simp only [Thread.weak_units, h1, if_true, if_false]
        all_goals omega
  | add_ref_rc =>
    refine ⟨Call.release, _, by simp only [Thread.step]; rfl, ?_, ?_⟩
    · simp only [Thread.steps_left]
      omega
    · simp only [Thread.weak_units]
      omega
  | try_ref_load =>
    refine ⟨Call.release, _, by simp only [Thread.step]; rfl, ?_, ?_⟩
    · simp only [Thread.steps_left, true_or, if_true]
      omega
    · simp only [Thread.weak_units]
      omega
  | try_ref_loop r =>
    by_cases hr : 0 < r
    · by_cases hc : x.rc = r
      · refine ⟨Call.release, _,
          by simp only [Thread.step, if_pos hr, compare_exchange_weak, hc, and_self, if_true]; rfl, ?_, ?_⟩
        · simp only [Thread.steps_left]
          split_ifs
          all_goals omega
        · simp only [Thread.weak_units]
          omega
      · have hc1 : ¬ (x.rc = r ∧ false = false) := fun h => hc h.1
        have hc2 : ¬ (r = x.rc ∨ r = 0) := by
          intro h
          rcases h with h | h
          · exact hc h.symm
          · omega
        refine ⟨Call.release, _,
          by simp only [Thread.step, if_pos hr, compare_exchange_weak, hc, false_and, if_false]; rfl, ?_, ?_⟩
        · simp only [Thread.steps_left, true_or, if_true, if_neg hc2]
          omega
        · simp only [Thread.weak_units]
          omega
    · have hr0 : r = 0 := by omega
      subst hr0
      refine ⟨Call.release, _, by simp only [Thread.step, if_neg hr]; rfl, ?_, ?_⟩
      · simp only [Thread.steps_left, or_true, if_true]
        omega
      · simp only [Thread.weak_units]
        omega
  | release_destroy =>
    refine ⟨Call.release, _, by simp only [Thread.step]; rfl, ?_, ?_⟩
    · simp only [Thread.steps_left]
      omega
    · simp only [Thread.weak_units]
      omega
  | release_weak =>
    refine ⟨Call.release, _, by simp only [Thread.step]; rfl, ?_, ?_⟩
    · by_cases h1 : (fetch_sub x.weak_rc).1 = 1
      all_goals simp only [Thread.steps_left, h1, if_true, if_false]
      all_goals omega
    · by_cases h1 : (fetch_sub x.weak_rc).1 = 1
      all_goals simp only [Thread.weak_units, h1, if_true, if_false]
      all_goals omega
  | release_delete =>
    refine ⟨Call.release, _, by simp only [Thread.step]; rfl, ?_, ?_⟩
    · simp only [Thread.steps_left]
      omega
    · simp only [Thread.weak_units]
      omega

theorem Thread.steps_left_zero (x : Obj) (t : Thread) (h : t.steps_left x = 0) :
    t = { pc := Pc.idle, strong := 0, weak := 0 } := by
  rcases t with ⟨pc, s, w⟩
  cases pc
  all_goals simp only [Thread.steps_left] at h
  all_goals first
    | (have hs : s = 0 := by omega
       have hw : w = 0 := by omega
       subst hs; subst hw; rfl)
    | (exfalso; omega)
    | (exfalso; split_ifs at h)

theorem set_self_of_getElem? (l : List Thread) (i : Nat) (t : Thread) (h : l[i]? = some t) :
    l.set i t = l := by
  induction l generalizing i with
  | nil => rfl
  | cons z l ih =>
    cases i with
    | zero =>
      simp only [List.getElem?_cons_zero, Option.some.injEq] at h
      subst h
      rfl
    | succ n =>
      simp only [List.getElem?_cons_succ] at h
      simp only [List.set_cons_succ, ih n h]

theorem getElem?_set_other (l : List Thread) (i j : Nat) (t : Thread) (h : i ≠ j) :
    (l.set i t)[j]? = l[j]? := by
  induction l generalizing i j with
  | nil => rfl
  | cons z l ih =>
    cases i with
    | zero =>
      cases j with
      | zero => exact absurd rfl h
      | succ m => simp
    | succ n =>
      cases j with
      | zero => simp
      | succ m =>
        simp only [List.set_cons_succ, List.getElem?_cons_succ]
        exact ih n m (fun e => h (by rw [e]))

theorem lt_length_of_getElem? (l : List Thread) (i : Nat) (t : Thread) (h : l[i]? = some t) :
    i < l.length := by
  induction l generalizing i with
  | nil => simp at h
  | cons z l ih =>
    cases i with
    | zero => simp
    | succ n =>
      simp only [List.getElem?_cons_succ] at h
      simp only [List.length_cons]
      exact Nat.succ_lt_succ (ih n h)

theorem Conc.step_of_thread (st : Conc) (i : Nat) (t : Thread) (c : Call) (sp : Bool)
    (r : Obj × Thread) (hi : st.threads[i]? = some t)
    (hs : Thread.step st.obj t c sp = some r) :
    Conc.step st ⟨i, c, sp⟩ = some { obj := r.1, threads := st.threads.set i r.2 } := by
  simp only [Conc.step, hi, hs]

/-- A thread can always run on, alone, until its call in progress is finished and all
its handles are destroyed; the other threads are not touched. -/
theorem Conc.drain_thread (n : Nat) : ∀ (st : Conc) (i : Nat) (t : Thread), st.Inv →
    total Thread.weak_units st.threads + 1 < ULONG_MOD →
    st.threads[i]? = some t → t.steps_left st.obj ≤ n →
    ∃ ps st1, Conc.run st ps = some st1 ∧ st1.Inv ∧
      total Thread.weak_units st1.threads ≤ total Thread.weak_units st.threads ∧
      st1.threads = st.threads.set i { pc := Pc.idle, strong := 0, weak := 0 } := by
  induction n with
  | zero =>
    intro st i t hinv hfit hi hn
    have ht := Thread.steps_left_zero st.obj t (by omega)
    refine ⟨[], st, rfl, hinv, le_refl _, ?_⟩
    rw [← ht]
    exact (set_self_of_getElem? st.threads i t hi).symm
  | succ n ih =>
    intro st i t hinv hfit hi hn
    by_cases h0 : t.steps_left st.obj = 0
    · have ht := Thread.steps_left_zero st.obj t h0
      refine ⟨[], st, rfl, hinv, le_refl _, ?_⟩
      rw [← ht]
      exact (set_self_of_getElem? st.threads i t hi).symm
    · obtain ⟨c, r, hs, hlt, hwu⟩ := Thread.step_drain st.obj t (by omega)
      have hstep := Conc.step_of_thread st i t c false r hi hs
      obtain ⟨hinv1, -⟩ := Conc.inv_step st _ ⟨i, c, false⟩ hinv hfit hstep
      have hset := getElem?_set_same st.threads i t r.2 hi
      have htot := total_set Thread.weak_units st.threads i t r.2 hi
      obtain ⟨ps, st1, hrun, hinv2, hle, hth⟩ :=
        ih { obj := r.1, threads := st.threads.set i r.2 } i r.2 hinv1
          (by show total Thread.weak_units (st.threads.set i r.2) + 1 < ULONG_MOD; omega)
          hset (by show r.2.steps_left r.1 ≤ n; omega)
      refine ⟨⟨i, c, false⟩ :: ps, st1, ?_, hinv2, ?_, ?_⟩
      · simp only [Conc.run, hstep]
        exact hrun
      · have hle1 : total Thread.weak_units st1.threads ≤
            total Thread.weak_units (st.threads.set i r.2) := hle
        omega
      · rw [hth]
        exact List.set_set _ _ _ _

theorem Conc.drain_first (k : Nat) : ∀ (st : Conc), st.Inv →
    total Thread.weak_units st.threads + 1 < ULONG_MOD →
    ∃ ps st1, Conc.run st ps = some st1 ∧ st1.Inv ∧
      total Thread.weak_units st1.threads ≤ total Thread.weak_units st.threads ∧
      ∀ j t, j < k → st1.threads[j]? = some t → t = { pc := Pc.idle, strong := 0, weak := 0 } := by
  induction k with
  | zero =>
    intro st hinv hfit
    exact ⟨[], st, rfl, hinv, le_refl _, fun j t hj => absurd hj (Nat.not_lt_zero j)⟩
  | succ k ih =>
    intro st hinv hfit
    obtain ⟨ps, st1, hrun, hinv1, hle, hall⟩ := ih st hinv hfit
    cases hk : st1.threads[k]? with
    | none =>
      refine ⟨ps, st1, hrun, hinv1, hle, ?_⟩
      intro j t hj hjt
      by_cases e : j = k
      · subst e
        rw [hk] at hjt
        exact absurd hjt (by simp)
      · exact hall j t (by omega) hjt
    | some tk =>
      obtain ⟨ps2, st2, hrun2, hinv2, hle2, hth⟩ :=
        Conc.drain_thread (tk.steps_left st1.obj) st1 k tk hinv1 (by omega) hk (le_refl _)
      refine ⟨ps ++ ps2, st2, ?_, hinv2, by omega, ?_⟩
      · rw [Conc.run_append, hrun]
        exact hrun2
      · intro j t hj hjt
        rw [hth] at hjt
        by_cases e : j = k
        · subst e
          rw [getElem?_set_same st1.threads j tk _ hk] at hjt
          exact (Option.some.inj hjt).symm
        · rw [getElem?_set_other st1.threads k j _ (fun h => e h.symm)] at hjt
          exact hall j t (by omega) hjt

/-- From every state of the interleaved executions the threads can run on until every
call is finished and every handle destroyed. -/
theorem Conc.drain (st : Conc) (hinv : st.Inv)
    (hfit : total Thread.weak_units st.threads + 1 < ULONG_MOD) :
    ∃ ps st1, Conc.run st ps = some st1 ∧ st1.Inv ∧
      ∀ t ∈ st1.threads, t = { pc := Pc.idle, strong := 0, weak := 0 } := by
  obtain ⟨ps, st1, hrun, hinv1, -, hall⟩ := Conc.drain_first st.threads.length st hinv hfit
  have hlen : ∀ (qs : List Pick) (s s1 : Conc), Conc.run s qs = some s1 →
      s1.threads.length = s.threads.length := by
    intro qs
    induction qs with
    | nil =>
      intro s s1 h
      simp only [Conc.run, Option.some.injEq] at h
      rw [h]
    | cons p qs ih =>
      intro s s1 h
      cases hs : Conc.step s p with
      | none => simp [Conc.run, hs] at h
      | some s2 =>
        simp only [Conc.run, hs] at h
        obtain ⟨t, r, -, -, e⟩ := Conc.step_some s s2 p hs
        rw [ih s2 s1 h, e]
        exact List.length_set _ _ _
  refine ⟨ps, st1, hrun, hinv1, ?_⟩
  intro t ht
  obtain ⟨i, hi⟩ := List.getElem?_of_mem ht
  have := lt_length_of_getElem? st1.threads i t hi
  rw [hlen ps st st1 hrun] at this
  exact hall i t this hi

/-- When every call is finished and every handle destroyed, the destructor has run
once and the storage has then been freed once. -/
theorem Conc.quiescent_log (st : Conc) (hinv : st.Inv)
    (hall : ∀ t ∈ st.threads, t = { pc := Pc.idle, strong := 0, weak := 0 }) :
    st.obj.log = [Event.destroyed, Event.deallocated] := by
  have hd : total Thread.destroying st.threads = 0 :=
    total_zero_of_forall _ _ (fun t ht => by rw [hall t ht]; rfl)
  have hf : total Thread.freeing st.threads = 0 :=
    total_zero_of_forall _ _ (fun t ht => by rw [hall t ht]; rfl)
  have hs : total Thread.strong st.threads = 0 :=
    total_zero_of_forall _ _ (fun t ht => by rw [hall t ht])
  have hw : total Thread.weak_units st.threads = 0 :=
    total_zero_of_forall _ _ (fun t ht => by rw [hall t ht]; rfl)
  have hrc : st.obj.rc = 0 ∧ st.obj.weak_rc = 0 := by
    obtain ⟨-, dr, fr, h1, h2, -⟩ := hinv
    exact ⟨by omega, by omega⟩
  rcases Conc.inv_log st hinv with ⟨-, -, h3⟩ | ⟨-, -, -, h3⟩ | ⟨h1, -⟩
  · have := h3 hrc.1
    omega
  · have := h3 hrc.2
    omega
  · exact h1

/-- Once the storage has been freed every thread is between calls and owns no handle,
so no thread has a step left that could touch the object. -/
theorem Conc.inv_freed (st : Conc) (hinv : st.Inv) (h : Event.deallocated ∈ st.obj.log) :
    (∀ t ∈ st.threads, t = { pc := Pc.idle, strong := 0, weak := 0 }) ∧
    ∀ p, Conc.step st p = none := by
  have hwk : st.obj.weak_rc = total Thread.weak_units st.threads := by
    obtain ⟨-, dr, fr, -, h2, -⟩ := hinv
    exact h2
  have hall : ∀ t ∈ st.threads, t = { pc := Pc.idle, strong := 0, weak := 0 } := by
    rcases Conc.inv_log st hinv with ⟨h1, -⟩ | ⟨h1, -⟩ | ⟨-, -, h2, -, h3⟩
    · rw [h1] at h
      simp at h
    · rw [h1] at h
      simp at h
    · intro t ht
      have hw := total_eq_zero Thread.weak_units st.threads (by omega) t ht
      have hf := total_eq_zero Thread.freeing st.threads h3 t ht
      rcases t with ⟨pc, s, w⟩
      cases pc
      all_goals simp only [Thread.weak_units, Thread.freeing, if_true, if_false] at hw hf
      all_goals first
        | (have hs : s = 0 := by omega
           have hw1 : w = 0 := by omega
           subst hs; subst hw1; rfl)
        | (exfalso; omega)
  refine ⟨hall, ?_⟩
  intro p
  unfold Conc.step
  cases hg : st.threads[p.thread]? with
  | none => rfl
  | some t =>
    have ht := hall t (List.getElem?_mem hg)
    subst ht
    simp only [Thread.step_no_handle]

/-! ## The claims -/

/-- C1.  Strong count correctness.  Start with no handles and every object freshly
allocated (strong count 0).  After any program of statements in which each handle
accounts for its own unit (construction from a raw address with `ref = true`, copy
and move construction, copy and move assignment, `swap`, `reset()`, `reset(addr)`,
destruction; for a weak-capable type the `refc_weak_ptr` statements too), for either
base class: if the object at `a` has not been destroyed, its strong count is the
number of existing handles whose address is `a`, that number being one an
`unsigned long` can hold. -/
theorem strong_count_eq_handles (b : Base) (ops : List Op) (w : World) (a : Nat)
    (hops : ∀ op ∈ ops, op.counted = true)
    (hrun : run b World.init ops = some w) (ha : a ≠ 0) :
    (w.heap a).dtor_runs = 0 → w.scount a < ULONG_MOD →
      (w.heap a).refcount = w.scount a := by
  intro _ hfit
  have hacc := acc_world_run b ops World.init w (fun x _ => acc_init b x) hops hrun a ha
  have h1 : (w.heap a).rc = w.scount a % ULONG_MOD := hacc.1
  rw [Nat.mod_eq_of_lt hfit] at h1
  exact h1

theorem strong_count_eq_handles_witness :
    ((final Base.refc prog_strong).heap 1).refcount = 2 ∧
      (final Base.refc prog_strong).scount 1 = 2 :=
  ⟨(strong_count_eq_handles Base.refc prog_strong (final Base.refc prog_strong) 1
      (by decide) rfl (by decide) (by decide) (by decide)).trans (by decide), by decide⟩

/-- C2.  Weak count correctness.  For a weak-capable type, after any program of
`refc_ptr` and `refc_weak_ptr` statements in which each handle accounts for its own
unit (it may construct weak handles from strong ones, copy, move, assign, `lock()`
and destroy them), if the storage of the object at `a` has not been freed, its weak
count is the number of existing weak handles whose address is `a` plus the number of
existing strong handles whose address is `a` (that sum being one an `unsigned long`
can hold), whether or not the payload has already been destroyed. -/
theorem weak_count_eq_handles (ops : List Op) (w : World) (a : Nat)
    (hops : ∀ op ∈ ops, op.counted = true)
    (hrun : run Base.refc_weak_base World.init ops = some w) (ha : a ≠ 0) :
    (w.heap a).frees = 0 → w.wcount a + w.scount a < ULONG_MOD →
      (w.heap a).weak_rc = w.wcount a + w.scount a := by
  intro _ hfit
  have hacc := acc_world_run Base.refc_weak_base ops World.init w
    (fun x _ => acc_init Base.refc_weak_base x) hops hrun a ha
  have h1 : (w.heap a).weak_rc = (w.scount a + w.wcount a) % ULONG_MOD := hacc.2 rfl
  rw [Nat.add_comm, Nat.mod_eq_of_lt hfit] at h1
  exact h1

theorem weak_count_eq_handles_witness :
    ((final Base.refc_weak_base prog_weak).heap 1).weak_rc = 3 ∧
      ((final Base.refc_weak_base prog_weak).heap 1).log = [Event.destroyed] :=
  ⟨(weak_count_eq_handles prog_weak (final Base.refc_weak_base prog_weak) 1
      (by decide) rfl (by decide) (by decide) (by decide)).trans (by decide), by decide⟩

/-- C3.  For a weak-capable object that starts with both counters at 0, after any
sequence of strong `add_ref`, `try_ref` (successful or not), weak `add_ref`, strong
`release` and weak `release` in which every release gives back a unit acquired
before, the weak count is at least the strong count, as long as the outstanding
units fit the counter.  The same holds after each counter update inside the next
call: the states listed for the call end in the state the call returns, and in each
of them the weak count is at least the strong count. -/
theorem weak_count_ge_strong_count (cs : List PolicyOp) (u : Units)
    (hrun : Units.run Base.refc_weak_base Units.fresh cs = some u) :
    (u.strong + u.weak < ULONG_MOD → u.obj.rc ≤ u.obj.weak_rc) ∧
    (∀ c u1, Units.step Base.refc_weak_base u c = some u1 →
      u.strong + u.weak + 1 < ULONG_MOD →
        (c.states u.obj).getLast? = some u1.obj ∧ ∀ o ∈ c.states u.obj, o.rc ≤ o.weak_rc) := by
  have hacc : u.Acc Base.refc_weak_base :=
    Units.acc_run Base.refc_weak_base cs Units.fresh u
      ⟨by show (0 : Nat) = 0 % ULONG_MOD; simp, fun _ => by
        show (0 : Nat) = (0 + 0) % ULONG_MOD; simp⟩ hrun
  refine ⟨fun hfit => ?_, fun c u1 hstep hfit => ?_⟩
  · obtain ⟨h1, h2⟩ := Units.exact_of_acc u hacc hfit
    omega
  · obtain ⟨h1, h2⟩ := Units.exact_of_acc u hacc (by omega)
    cases c with
    | strong_add_ref =>
      simp only [Units.step, Option.some.injEq] at hstep
      subst hstep
      exact ⟨rfl, states_strong_add_ref u.obj _ _ h1 h2 hfit⟩
    | try_ref n =>
      simp only [Units.step, Option.some.injEq] at hstep
      subst hstep
      exact ⟨rfl, states_try_ref n u.obj _ _ h1 h2 hfit⟩
    | weak_add_ref =>
      simp only [Units.step, Option.some.injEq] at hstep
      subst hstep
      refine ⟨rfl, fun o ho => ?_⟩
      simp only [PolicyOp.states, List.mem_singleton] at ho
      subst ho
      show u.obj.rc ≤ (u.obj.weak_rc + 1) % ULONG_MOD
      rw [h1, h2, add_one_mod _ hfit]; omega
    | strong_release =>
      by_cases hs : u.strong = 0
      · simp only [Units.step, hs, if_true] at hstep; exact absurd hstep (by simp)
      · simp only [Units.step, hs, if_false, Option.some.injEq] at hstep
        subst hstep
        exact ⟨rfl, states_strong_release u.obj _ _ h1 h2 (Nat.pos_of_ne_zero hs) (by omega)⟩
    | weak_release =>
      by_cases hs : u.weak = 0
      · simp only [Units.step, hs, if_true] at hstep; exact absurd hstep (by simp)
      · simp only [Units.step, hs, if_false, Option.some.injEq] at hstep
        subst hstep
        refine ⟨rfl, fun o ho => ?_⟩
        simp only [PolicyOp.states, List.mem_singleton] at ho
        subst ho
        rw [weak_release_eq]
        show u.obj.rc ≤ (u.obj.weak_rc + ULONG_MOD - 1) % ULONG_MOD
        rw [h1, h2, sub_one_mod _ (by omega) (by omega)]; omega

theorem weak_count_ge_strong_count_witness :
    ({ rc := 1, weak_rc := 2, log := [] } : Obj).rc ≤
        ({ rc := 1, weak_rc := 2, log := [] } : Obj).weak_rc ∧
      ({ rc := 0, weak_rc := 2, log := [Event.destroyed] } : Obj).rc ≤
        ({ rc := 0, weak_rc := 2, log := [Event.destroyed] } : Obj).weak_rc :=
  ⟨(weak_count_ge_strong_count calls_life
      { obj := { rc := 1, weak_rc := 2, log := [] }, strong := 1, weak := 1 } (by decide)).1
      (by decide),
   ((weak_count_ge_strong_count calls_life
      { obj := { rc := 1, weak_rc := 2, log := [] }, strong := 1, weak := 1 } (by decide)).2
    PolicyOp.strong_release
      { obj := { rc := 0, weak_rc := 1, log := [Event.destroyed] }, strong := 0, weak := 1 }
      (by decide) (by decide)).2 { rc := 0, weak_rc := 2, log := [Event.destroyed] }
      (by decide)⟩

/-- C5.  `try_ref` on a weak-capable object whose strong count is `r > 0` and whose
weak count is `w`, whatever the number of spurious compare-exchange failures:
it returns `r`, which is not zero, destroys and frees nothing, and leaves the
strong count at `r + 1` and the weak count at `w + 1` in `unsigned long`
arithmetic; these are the numbers `r + 1` and `w + 1` unless the counter was
already at its maximum. -/
theorem try_ref_success (n : Nat) (x : Obj) (hr : 0 < x.rc) :
    (strong_refc_policy.try_ref n x).1 = x.rc ∧
    (strong_refc_policy.try_ref n x).1 ≠ 0 ∧
    (strong_refc_policy.try_ref n x).2.rc = (x.rc + 1) % ULONG_MOD ∧
    (strong_refc_policy.try_ref n x).2.weak_rc = (x.weak_rc + 1) % ULONG_MOD ∧
    (strong_refc_policy.try_ref n x).2.log = x.log ∧
    (x.rc + 1 < ULONG_MOD → (strong_refc_policy.try_ref n x).2.rc = x.rc + 1) ∧
    (x.weak_rc + 1 < ULONG_MOD → (strong_refc_policy.try_ref n x).2.weak_rc = x.weak_rc + 1) := by
  have hz : ¬ x.rc = 0 := Nat.pos_iff_ne_zero.mp hr
  refine ⟨try_ref_fst n x, ?_, ?_, ?_, try_ref_log n x, fun h => ?_, fun h => ?_⟩
  · rw [try_ref_fst]; exact hz
  · rw [try_ref_rc, if_neg hz]
  · rw [try_ref_weak, if_neg hz]
  · rw [try_ref_rc, if_neg hz, add_one_mod _ h]
  · rw [try_ref_weak, if_neg hz, add_one_mod _ h]

theorem try_ref_success_witness :
    strong_refc_policy.try_ref 2 { rc := 1, weak_rc := 3, log := [] } =
      (1, { rc := 2, weak_rc := 4, log := [] }) ∧
    (strong_refc_policy.try_ref 2 { rc := 1, weak_rc := 3, log := [] }).2.rc = 1 + 1 :=
  ⟨by decide,
   (try_ref_success 2 { rc := 1, weak_rc := 3, log := [] } (by decide)).2.2.2.2.2.1 (by decide)⟩

/-- C6.  `try_ref` on a weak-capable object whose strong count is 0 (and whose weak
count is any `unsigned long` value, in particular one that is at least 1) returns 0
and leaves the object exactly as it was: strong count 0, the same weak count, no
destructor run and nothing freed. -/
theorem try_ref_failure (n : Nat) (x : Obj) (hr : x.rc = 0) (hw : x.weak_rc < ULONG_MOD) :
    strong_refc_policy.try_ref n x = (0, x) ∧
    (strong_refc_policy.try_ref n x).2.dtor_runs = x.dtor_runs ∧
    (strong_refc_policy.try_ref n x).2.frees = x.frees := by
  have hx := try_ref_zero n x hr hw
  rw [hx]
  exact ⟨rfl, rfl, rfl⟩

theorem try_ref_failure_witness :
    strong_refc_policy.try_ref 1 { rc := 0, weak_rc := 2, log := [Event.destroyed] } =
      (0, { rc := 0, weak_rc := 2, log := [Event.destroyed] }) :=
  (try_ref_failure 1 { rc := 0, weak_rc := 2, log := [Event.destroyed] } rfl (by decide)).1

/-- C9.  Two-phase strong release.  On a weak-capable object with strong count
`s ≥ 1` and weak count `w ≥ 1`, `release` leaves the counters at `s - 1` and `w - 1`.
It runs the payload destructor exactly when `s = 1` and frees the storage, without
another destructor call, exactly when `w = 1`, the destructor first; so when `s = 1`
and `w > 1` the destructor runs and the storage is kept. -/
theorem strong_release_two_phase (x : Obj) (hs : 1 ≤ x.rc) (hw : 1 ≤ x.weak_rc)
    (hsM : x.rc < ULONG_MOD) (hwM : x.weak_rc < ULONG_MOD) :
    (strong_refc_policy.release x).rc = x.rc - 1 ∧
    (strong_refc_policy.release x).weak_rc = x.weak_rc - 1 ∧
    (strong_refc_policy.release x).log =
      x.log ++ (if x.rc = 1 then [Event.destroyed] else []) ++
        (if x.weak_rc = 1 then [Event.deallocated] else []) ∧
    (strong_refc_policy.release x).dtor_runs = x.dtor_runs + (if x.rc = 1 then 1 else 0) ∧
    (strong_refc_policy.release x).frees = x.frees + (if x.weak_rc = 1 then 1 else 0) ∧
    (x.rc = 1 → 1 < x.weak_rc →
      (strong_refc_policy.release x).log = x.log ++ [Event.destroyed]) := by
  have hlog : (strong_refc_policy.release x).log =
      x.log ++ (if x.rc = 1 then [Event.destroyed] else []) ++
        (if x.weak_rc = 1 then [Event.deallocated] else []) := by
    rw [strong_release_eq]
  refine ⟨?_, ?_, hlog, ?_, ?_, fun h1 h2 => ?_⟩
  · rw [rc_strong_release, sub_one_mod _ hs hsM]
  · rw [weak_strong_release, sub_one_mod _ hw hwM]
  · rw [Obj.dtor_runs, Obj.dtor_runs, hlog]
    by_cases h1 : x.rc = 1 <;> by_cases h2 : x.weak_rc = 1 <;>
      simp [h1, h2, List.count_append]
  · rw [Obj.frees, Obj.frees, hlog]
    by_cases h1 : x.rc = 1 <;> by_cases h2 : x.weak_rc = 1 <;>
      simp [h1, h2, List.count_append]
  · have h3 : ¬ x.weak_rc = 1 := by omega
    rw [hlog, if_pos h1, if_neg h3, List.append_nil]

theorem strong_release_two_phase_witness :
    (strong_refc_policy.release { rc := 1, weak_rc := 2, log := [] }).log = [] ++ [Event.destroyed] :=
  (strong_release_two_phase { rc := 1, weak_rc := 2, log := [] } (by decide) (by decide)
    (by decide) (by decide)).2.2.2.2.2 rfl (by decide)

/-- C7.  `lock()` on a weak handle holding `ptr`.  The returned handle is non-null
exactly when `ptr` is non-null and the strong count of the object is positive.  In
that case it holds `ptr`, the strong count has grown by one (in `unsigned long`
arithmetic, so by exactly one unless it was at its maximum) and no other object is
touched.  Otherwise the returned handle is empty and the heap, hence every counter,
is as before. -/
theorem lock_spec (n ptr : Nat) (h : Heap) (hwf : (h ptr).weak_rc < ULONG_MOD) :
    ((refc_weak_ptr.lock n ptr h).1 ≠ 0 ↔ ptr ≠ 0 ∧ 0 < (h ptr).rc) ∧
    (ptr ≠ 0 → 0 < (h ptr).rc →
      (refc_weak_ptr.lock n ptr h).1 = ptr ∧
      ((refc_weak_ptr.lock n ptr h).2 ptr).rc = ((h ptr).rc + 1) % ULONG_MOD ∧
      ((h ptr).rc + 1 < ULONG_MOD → ((refc_weak_ptr.lock n ptr h).2 ptr).rc = (h ptr).rc + 1) ∧
      ((refc_weak_ptr.lock n ptr h).2 ptr).log = (h ptr).log ∧
      ∀ a, a ≠ ptr → (refc_weak_ptr.lock n ptr h).2 a = h a) ∧
    (¬ (ptr ≠ 0 ∧ 0 < (h ptr).rc) →
      (refc_weak_ptr.lock n ptr h).1 = 0 ∧ ∀ a, (refc_weak_ptr.lock n ptr h).2 a = h a) := by
  by_cases hp : ptr = 0
  · subst hp
    have e : refc_weak_ptr.lock n 0 h = (0, h) := by simp [refc_weak_ptr.lock]
    rw [e]
    refine ⟨by simp, fun h0 => absurd rfl h0, fun _ => ⟨rfl, fun _ => rfl⟩⟩
  · by_cases hz : (h ptr).rc = 0
    · have e : refc_weak_ptr.lock n ptr h = (0, h) := by
        have ht := try_ref_zero n (h ptr) hz hwf
        simp only [refc_weak_ptr.lock, hp, if_false, ht, if_true]
        congr 1
        funext a
        by_cases ha : a = ptr
        · subst ha; simp [Heap.set]
        · simp [Heap.set, ha]
      rw [e]
      refine ⟨by simp [hz], fun _ hpos => absurd hz (Nat.pos_iff_ne_zero.mp hpos),
        fun _ => ⟨rfl, fun _ => rfl⟩⟩
    · have hpos : 0 < (h ptr).rc := Nat.pos_of_ne_zero hz
      have hne : (strong_refc_policy.try_ref n (h ptr)).1 ≠ 0 := by
        rw [try_ref_fst]; exact hz
      have e1 : (refc_weak_ptr.lock n ptr h).1 = ptr := by
        rw [lock_fst, if_neg hne]
      have e2 : ∀ a, (refc_weak_ptr.lock n ptr h).2 a =
          if a = ptr then (strong_refc_policy.try_ref n (h ptr)).2 else h a := by
        intro a
        simp only [refc_weak_ptr.lock, hp, if_false, hne, refc_ptr.ctor]
        simp [Heap.set]
      refine ⟨by simp [e1, hp, hpos], fun _ _ => ⟨e1, ?_, fun hfit => ?_, ?_, fun a ha => ?_⟩,
        fun hn => absurd ⟨hp, hpos⟩ hn⟩
      · rw [e2, if_pos rfl, try_ref_rc, if_neg hz]
      · rw [e2, if_pos rfl, try_ref_rc, if_neg hz, add_one_mod _ hfit]
      · rw [e2, if_pos rfl, try_ref_log]
      · rw [e2, if_neg ha]

theorem lock_spec_witness :
    (refc_weak_ptr.lock 0 1 (final Base.refc_weak_base prog_weak).heap).1 = 0 :=
  ((lock_spec 0 1 (final Base.refc_weak_base prog_weak).heap (by decide)).2.2
    (by decide)).1

/-- C4.  Exactly-once destruction and deallocation, sequentially, for a weak-capable
object.  (1) After any program of counted handle statements the log of the object
is `[]`, `[destroyed]`, `[destroyed, deallocated]` or `[deallocated]`: the destructor
has run at most once, the storage has been freed at most once, and never before a
destructor run.  (2) Once every strong and weak handle to the object is gone, and a
strong handle to it was ever made, the log is `[destroyed, deallocated]`: both exactly
once.  (3) Only the releases extend the log: the strong one by `destroyed` exactly
when the strong count before it was 1 and then by `deallocated` exactly when the
weak count before it was 1, the weak one by `deallocated` exactly when the weak
count before it was 1.  (4) For any sequence of policy calls through valid addresses
after which no unit is outstanding: with a strong `add_ref` in it the log is
`[destroyed, deallocated]`; with weak `add_ref`s only, it is `[deallocated]`, the
destructor never having run.  The counters are assumed not to overflow. -/
theorem destroyed_once_freed_once (ops : List Op) (w : World) (a : Nat)
    (hops : ∀ op ∈ ops, op.counted = true)
    (hrun : run Base.refc_weak_base World.init ops = some w) (ha : a ≠ 0)
    (hfit : w.sp.length + w.wp.length + 2 < ULONG_MOD) :
    (((w.heap a).log = [] ∨ (w.heap a).log = [Event.destroyed] ∨
        (w.heap a).log = [Event.destroyed, Event.deallocated] ∨
        (w.heap a).log = [Event.deallocated]) ∧
      (w.heap a).dtor_runs ≤ 1 ∧ (w.heap a).frees ≤ 1) ∧
    (w.scount a = 0 → w.wcount a = 0 → (∃ op ∈ ops, op.adopts a = true) →
      (w.heap a).log = [Event.destroyed, Event.deallocated]) ∧
    (∀ x : Obj, ∀ n : Nat,
      (strong_refc_policy.add_ref x).2.log = x.log ∧
      (strong_refc_policy.try_ref n x).2.log = x.log ∧
      (weak_refc_policy.add_ref x).2.log = x.log ∧
      (strong_refc_policy.release x).log =
        x.log ++ (if x.rc = 1 then [Event.destroyed] else []) ++
          (if x.weak_rc = 1 then [Event.deallocated] else []) ∧
      (weak_refc_policy.release x).log =
        x.log ++ (if x.weak_rc = 1 then [Event.deallocated] else [])) ∧
    (∀ (cs : List PolicyOp) (u : Units),
      Units.run_safe Base.refc_weak_base Units.fresh cs = some u → cs.length < ULONG_MOD →
      u.strong = 0 → u.weak = 0 →
        (PolicyOp.strong_add_ref ∈ cs → u.obj.log = [Event.destroyed, Event.deallocated]) ∧
        (PolicyOp.strong_add_ref ∉ cs → PolicyOp.weak_add_ref ∈ cs →
          u.obj.log = [Event.deallocated])) := by
  obtain ⟨hl, hev, _⟩ := life_world_run ops World.init w (fun x _ => life_init x) hops hrun hfit a ha
  refine ⟨?_, ?_, ?_, ?_⟩
  · obtain ⟨_, _, _, h4⟩ := hl
    have h5 : (w.heap a).log = [] ∨ (w.heap a).log = [Event.destroyed] ∨
        (w.heap a).log = [Event.destroyed, Event.deallocated] ∨
        (w.heap a).log = [Event.deallocated] := by
      rcases h4 with h | ⟨h, _⟩ | ⟨h, _⟩ | ⟨h, _⟩
      · exact Or.inl h
      · exact Or.inr (Or.inl h)
      · exact Or.inr (Or.inr (Or.inl h))
      · exact Or.inr (Or.inr (Or.inr h))
    refine ⟨h5, ?_, ?_⟩
    · rcases h5 with h | h | h | h <;> rw [Obj.dtor_runs, h] <;> decide
    · rcases h5 with h | h | h | h <;> rw [Obj.frees, h] <;> decide
  · intro hs hk hex
    exact (Units.life_end (w.units a) hl hs hk).1 (hev (Or.inr hex))
  · intro x n
    exact ⟨rfl, try_ref_log n x, rfl, log_strong_release x, log_weak_release x⟩
  · intro cs u hcs hlen hs hk
    obtain ⟨r1, r2, r3, r4, _⟩ := Units.life_run_safe cs Units.fresh u Units.fresh_life hcs
      (by show 0 + 0 + cs.length < ULONG_MOD; omega)
    have hend := Units.life_end u r1 hs hk
    refine ⟨fun hm => hend.1 (r2 (Or.inr hm)), fun hn hm => ?_⟩
    refine hend.2.1 (r3 ?_ hn) (r4 (Or.inr (Or.inr hm)))
    rintro (h | h)
    · exact absurd h (by decide)
    · exact absurd h (List.not_mem_nil _)

theorem destroyed_once_freed_once_witness :
    ((final Base.refc_weak_base prog_weak_done).heap 1).log =
      [Event.destroyed, Event.deallocated] :=
  (destroyed_once_freed_once prog_weak_done (final Base.refc_weak_base prog_weak_done) 1
    (by decide) rfl (by decide) (by decide)).2.1 (by decide) (by decide) (by decide)

/-- C10.  Weak release.  On a weak-capable object with weak count `w ≥ 1`, the weak
`release` leaves the weak count at `w - 1` and the strong count as it was, frees the
storage exactly when `w = 1`, and never runs the payload destructor.  In
particular, after any sequence of policy calls through valid addresses that
contains a weak `add_ref` and no strong `add_ref`, once no unit is outstanding the
storage has been freed once and the destructor has not run. -/
theorem weak_release_spec (x : Obj) (hw : 1 ≤ x.weak_rc) (hwM : x.weak_rc < ULONG_MOD) :
    ((weak_refc_policy.release x).weak_rc = x.weak_rc - 1 ∧
      (weak_refc_policy.release x).rc = x.rc ∧
      (weak_refc_policy.release x).log =
        x.log ++ (if x.weak_rc = 1 then [Event.deallocated] else []) ∧
      (weak_refc_policy.release x).frees = x.frees + (if x.weak_rc = 1 then 1 else 0) ∧
      (weak_refc_policy.release x).dtor_runs = x.dtor_runs) ∧
    (∀ (cs : List PolicyOp) (u : Units),
      Units.run_safe Base.refc_weak_base Units.fresh cs = some u → cs.length < ULONG_MOD →
      PolicyOp.strong_add_ref ∉ cs → PolicyOp.weak_add_ref ∈ cs → u.weak = 0 →
        u.obj.log = [Event.deallocated] ∧ u.obj.dtor_runs = 0 ∧ u.obj.frees = 1) := by
  refine ⟨⟨?_, rc_weak_release x, log_weak_release x, ?_, ?_⟩, ?_⟩
  · rw [weak_weak_release, sub_one_mod _ hw hwM]
  · rw [Obj.frees, Obj.frees, log_weak_release]
    by_cases h : x.weak_rc = 1 <;> simp [h, List.count_append]
  · rw [Obj.dtor_runs, Obj.dtor_runs, log_weak_release]
    by_cases h : x.weak_rc = 1 <;> simp [h, List.count_append]
  · intro cs u hcs hlen hn hm hk
    obtain ⟨r1, _, r3, r4, _⟩ := Units.life_run_safe cs Units.fresh u Units.fresh_life hcs
      (by show 0 + 0 + cs.length < ULONG_MOD; omega)
    have hne : ¬ u.EverStrong := by
      refine r3 ?_ hn
      rintro (h | h)
      · exact absurd h (by decide)
      · exact absurd h (List.not_mem_nil _)
    have hs : u.strong = 0 := by
      by_contra h
      exact hne (Or.inl (Nat.pos_of_ne_zero h))
    have hlog := (Units.life_end u r1 hs hk).2.1 hne (r4 (Or.inr (Or.inr hm)))
    refine ⟨hlog, ?_, ?_⟩
    · rw [Obj.dtor_runs, hlog]; decide
    · rw [Obj.frees, hlog]; decide

theorem weak_release_spec_witness :
    (weak_refc_policy.release { rc := 0, weak_rc := 1, log := [] }).log =
        [] ++ (if (1 : Nat) = 1 then [Event.deallocated] else []) ∧
      (({ obj := { rc := 0, weak_rc := 0, log := [Event.deallocated] }, strong := 0, weak := 0 } :
          Units).obj.log = [Event.deallocated] ∧
        ({ obj := { rc := 0, weak_rc := 0, log := [Event.deallocated] }, strong := 0, weak := 0 } :
          Units).obj.dtor_runs = 0 ∧
        ({ obj := { rc := 0, weak_rc := 0, log := [Event.deallocated] }, strong := 0, weak := 0 } :
          Units).obj.frees = 1) :=
  ⟨(weak_release_spec { rc := 0, weak_rc := 1, log := [] } (by decide) (by decide)).1.2.2.1,
   (weak_release_spec { rc := 0, weak_rc := 1, log := [] } (by decide) (by decide)).2
      calls_weak_only _ (by decide) (by decide) (by decide) (by decide) rfl⟩

/-- C8.  The life cycle is one-way.  Take a weak-capable object whose destructor
has run, that is, whose strong count has gone from positive to 0 (it is a zombie,
or already freed).  After any further program of counted handle statements (in particular
any sequence of `refc_weak_ptr` copies, moves, assignments, `lock()`s and
destructions) the strong count is still 0, the destructor has run exactly once, no
strong handle holds the object and `lock()` returns an empty handle.  The object is
then either still a zombie, with a positive weak count equal to the number of weak
handles to it, or freed, with weak count 0 and no handle left; and once it is freed
no statement makes a policy call on it or changes it.  The counters are assumed not
to overflow. -/
theorem zombie_is_final (ops1 ops2 : List Op) (w w1 : World) (a : Nat) (ha : a ≠ 0)
    (hops1 : ∀ op ∈ ops1, op.counted = true)
    (hrun1 : run Base.refc_weak_base World.init ops1 = some w)
    (hd : Event.destroyed ∈ (w.heap a).log)
    (hops2 : ∀ op ∈ ops2, op.counted = true)
    (hrun2 : run Base.refc_weak_base w ops2 = some w1)
    (hfit : w1.sp.length + w1.wp.length + 2 < ULONG_MOD) :
    (w1.heap a).rc = 0 ∧ (w1.heap a).dtor_runs = 1 ∧ w1.scount a = 0 ∧
    (∀ n, (refc_weak_ptr.lock n a w1.heap).1 = 0) ∧
    (((w1.heap a).log = [Event.destroyed] ∧ 1 ≤ (w1.heap a).weak_rc ∧
        (w1.heap a).weak_rc = w1.wcount a) ∨
      ((w1.heap a).log = [Event.destroyed, Event.deallocated] ∧ (w1.heap a).weak_rc = 0 ∧
        w1.wcount a = 0)) ∧
    ((w1.heap a).log = [Event.destroyed, Event.deallocated] →
      ∀ op w2, op.counted = true → step Base.refc_weak_base w1 op = some w2 →
        op.calls w1 a = [] ∧ w2.heap a = w1.heap a) := by
  have hlen := run_length _ _ _ _ hrun2
  have hl0 : ∀ x, x ≠ 0 → (w.units x).Life := fun x hx =>
    (life_world_run ops1 World.init w (fun y _ => life_init y) hops1 hrun1 (by omega) x hx).1
  obtain ⟨hl, _, hmono⟩ := life_world_run ops2 w w1 hl0 hops2 hrun2 hfit a ha
  have hd1 : Event.destroyed ∈ (w1.heap a).log := hmono _ hd
  obtain ⟨h1, h2, h3, h4⟩ := hl
  have hrc : (w1.heap a).rc = w1.scount a := h1
  have hwk : (w1.heap a).weak_rc = w1.scount a + w1.wcount a := h2
  have hcase : ((w1.heap a).log = [Event.destroyed] ∧ w1.scount a = 0 ∧ 1 ≤ w1.wcount a) ∨
      ((w1.heap a).log = [Event.destroyed, Event.deallocated] ∧ w1.scount a = 0 ∧
        w1.wcount a = 0) := by
    rcases h4 with h | h | h | ⟨h, _⟩
    · have h5 : (w1.heap a).log = [] := h
      rw [h5] at hd1; exact absurd hd1 (List.not_mem_nil _)
    · exact Or.inl h
    · exact Or.inr h
    · have h5 : (w1.heap a).log = [Event.deallocated] := h
      rw [h5] at hd1; simp at hd1
  have hs0 : w1.scount a = 0 := by
    rcases hcase with ⟨_, h, _⟩ | ⟨_, h, _⟩ <;> exact h
  have hrc0 : (w1.heap a).rc = 0 := by rw [hrc, hs0]
  refine ⟨hrc0, ?_, hs0, fun n => ?_, ?_, fun hfreed op w2 hcnt hstep => ?_⟩
  · rcases hcase with ⟨h, _⟩ | ⟨h, _⟩ <;> rw [Obj.dtor_runs, h] <;> decide
  · rw [lock_fst, try_ref_fst, if_pos hrc0]
  · rcases hcase with ⟨h, _, hk⟩ | ⟨h, _, hk⟩
    · exact Or.inl ⟨h, by omega, by omega⟩
    · exact Or.inr ⟨h, by omega, hk⟩
  · have hk0 : w1.wcount a = 0 := by
      rcases hcase with ⟨h, _⟩ | ⟨_, _, h⟩
      · rw [h] at hfreed; simp at hfreed
      · exact h
    have hnil := calls_nil Base.refc_weak_base w1 w2 op a ha hs0 hk0
      (by rw [hfreed]; simp) hstep
    refine ⟨hnil, ?_⟩
    have hu := step_units Base.refc_weak_base w1 w2 op a ha hcnt hstep
    rw [hnil] at hu
    simp only [Units.run_safe, Option.some.injEq] at hu
    have : (w2.units a).obj = (w1.units a).obj := by rw [hu]
    exact this

theorem zombie_is_final_witness :
    ((final Base.refc_weak_base prog_weak_done).heap 1).rc = 0 ∧
      ((final Base.refc_weak_base prog_weak_done).heap 1).dtor_runs = 1 :=
  ⟨(zombie_is_final prog_weak prog_weak_tail (final Base.refc_weak_base prog_weak)
      (final Base.refc_weak_base prog_weak_done) 1 (by decide) (by decide) rfl (by decide)
      (by decide) rfl (by decide)).1,
   (zombie_is_final prog_weak prog_weak_tail (final Base.refc_weak_base prog_weak)
      (final Base.refc_weak_base prog_weak_done) 1 (by decide) (by decide) rfl (by decide)
      (by decide) rfl (by decide)).2.1⟩

/-- C11.  The strong-only policy `refc<T>::refc_policy`.  A freshly constructed
object has strong count 0.  `add_ref` returns the previous count and raises the
count by one (in `unsigned long` arithmetic, so by exactly one unless it was at its
maximum) and destroys nothing.  `release` on a count `n ≥ 1` leaves `n - 1`, and it
destroys and frees the object, destructor first and as one step, exactly when
`n = 1`.  Hence a `refc_ptr` made from the raw address of a fresh object gives
count 1, and dropping that handle leaves the object destroyed and freed, once
each. -/
theorem strong_only_policy :
    Obj.fresh.refcount = 0 ∧
    (∀ x : Obj,
      (refc_policy.add_ref x).1 = x.rc ∧
      (refc_policy.add_ref x).2.rc = (x.rc + 1) % ULONG_MOD ∧
      (x.rc + 1 < ULONG_MOD → (refc_policy.add_ref x).2.rc = x.rc + 1) ∧
      (refc_policy.add_ref x).2.log = x.log) ∧
    (∀ x : Obj, 1 ≤ x.rc → x.rc < ULONG_MOD →
      (refc_policy.release x).rc = x.rc - 1 ∧
      (refc_policy.release x).log =
        x.log ++ (if x.rc = 1 then [Event.destroyed, Event.deallocated] else []) ∧
      (refc_policy.release x).dtor_runs = x.dtor_runs + (if x.rc = 1 then 1 else 0) ∧
      (refc_policy.release x).frees = x.frees + (if x.rc = 1 then 1 else 0)) ∧
    (∀ (a : Nat) (h : Heap), a ≠ 0 → h a = Obj.fresh →
      (refc_ptr.ctor Base.refc.policy_type a true h).1 = a ∧
      ((refc_ptr.ctor Base.refc.policy_type a true h).2 a).refcount = 1 ∧
      ((refc_ptr.ctor Base.refc.policy_type a true h).2 a).log = [] ∧
      (refc_ptr.dtor Base.refc.policy_type a
          (refc_ptr.ctor Base.refc.policy_type a true h).2 a).rc = 0 ∧
      (refc_ptr.dtor Base.refc.policy_type a
          (refc_ptr.ctor Base.refc.policy_type a true h).2 a).log =
        [Event.destroyed, Event.deallocated]) := by
  refine ⟨rfl, fun x => ⟨rfl, rfl, fun hfit => ?_, rfl⟩, fun x h1 hM => ⟨?_, ?_, ?_, ?_⟩,
    fun a h ha hf => ?_⟩
  · show (x.rc + 1) % ULONG_MOD = x.rc + 1
    exact add_one_mod _ hfit
  · have := rc_release Base.refc x
    rw [sub_one_mod _ h1 hM] at this
    exact this
  · exact log_refc_release x
  · rw [Obj.dtor_runs, Obj.dtor_runs, log_refc_release]
    by_cases e : x.rc = 1 <;> simp [e, List.count_append]
  · rw [Obj.frees, Obj.frees, log_refc_release]
    by_cases e : x.rc = 1 <;> simp [e, List.count_append]
  · have e1 : (refc_ptr.ctor Base.refc.policy_type a true h).2 a =
        (refc_policy.add_ref Obj.fresh).2 := by
      rw [ctor_snd _ _ _ _ _ ha, if_pos ⟨rfl, rfl⟩, hf]
      rfl
    have e2 : (refc_policy.add_ref Obj.fresh).2 = { rc := 1, weak_rc := 0, log := [] } := by
      decide
    have e3 : refc_ptr.dtor Base.refc.policy_type a
        (refc_ptr.ctor Base.refc.policy_type a true h).2 a =
        refc_policy.release { rc := 1, weak_rc := 0, log := [] } := by
      rw [dtor_apply _ _ _ _ ha, if_pos rfl, e1, e2]
      rfl
    have e4 : refc_policy.release { rc := 1, weak_rc := 0, log := [] } =
        { rc := 0, weak_rc := 0, log := [Event.destroyed, Event.deallocated] } := by
      decide
    rw [e3, e4, e1, e2]
    exact ⟨ctor_fst _ _ _ _, rfl, rfl, rfl, rfl⟩

theorem strong_only_policy_witness :
    (refc_policy.release { rc := 1, weak_rc := 0, log := [] }).log =
        [] ++ (if (1 : Nat) = 1 then [Event.destroyed, Event.deallocated] else []) ∧
      (refc_ptr.dtor Base.refc.policy_type 7
          (refc_ptr.ctor Base.refc.policy_type 7 true Heap.fresh).2 7).log =
        [Event.destroyed, Event.deallocated] :=
  ⟨(strong_only_policy.2.2.1 { rc := 1, weak_rc := 0, log := [] } (by decide) (by decide)).2.1,
   (strong_only_policy.2.2.2 7 Heap.fresh (by decide) rfl).2.2.2.2⟩

/-- C12.  Construction from a raw address: `refc_ptr(p, ref)` holds exactly `p`.
With `ref = false` the heap is left as it is (the handle adopts a unit that was
counted already).  With `ref = true` and `p` non-null the policy's `add_ref` is
applied once to the object at `p`, which raises its strong count by one (in
`unsigned long` arithmetic), and no other object changes.  For the null address
the heap is left as it is for both values of the flag, and the handle is empty. -/
theorem raw_construction (b : Base) (h : Heap) :
    (∀ (p : Nat) (ref : Bool), (refc_ptr.ctor b.policy_type p ref h).1 = p) ∧
    (∀ p : Nat, (refc_ptr.ctor b.policy_type p false h).2 = h) ∧
    (∀ p : Nat, p ≠ 0 →
      (refc_ptr.ctor b.policy_type p true h).2 = Heap.set h p (b.policy_type.add_ref (h p)).2 ∧
      ((refc_ptr.ctor b.policy_type p true h).2 p).rc = ((h p).rc + 1) % ULONG_MOD ∧
      ((h p).rc + 1 < ULONG_MOD →
        ((refc_ptr.ctor b.policy_type p true h).2 p).refcount = (h p).refcount + 1) ∧
      ((refc_ptr.ctor b.policy_type p true h).2 p).log = (h p).log ∧
      (∀ a : Nat, a ≠ p → (refc_ptr.ctor b.policy_type p true h).2 a = h a)) ∧
    (∀ ref : Bool, refc_ptr.ctor b.policy_type 0 ref h = (0, h) ∧
      refc_ptr.toBool (refc_ptr.ctor b.policy_type 0 ref h).1 = false) := by
  refine ⟨fun p ref => ctor_fst _ _ _ _, fun p => ?_, fun p hp => ?_, fun ref => ?_⟩
  · simp [refc_ptr.ctor]
  · have e : (refc_ptr.ctor b.policy_type p true h).2 =
        Heap.set h p (b.policy_type.add_ref (h p)).2 := by
      simp [refc_ptr.ctor, hp]
    have e1 : Heap.set h p (b.policy_type.add_ref (h p)).2 p = (b.policy_type.add_ref (h p)).2 := by
      rw [Heap.set_apply, if_pos rfl]
    refine ⟨e, ?_, ?_, ?_, ?_⟩
    · rw [e, e1, rc_add_ref]
    · intro hfit
      show ((refc_ptr.ctor b.policy_type p true h).2 p).rc = (h p).rc + 1
      rw [e, e1, rc_add_ref, add_one_mod _ hfit]
    · rw [e, e1]
      cases b <;> rfl
    · intro a ha
      rw [e, Heap.set_apply, if_neg ha]
  · have e : refc_ptr.ctor b.policy_type 0 ref h = (0, h) := by
      simp [refc_ptr.ctor]
    rw [e]
    exact ⟨rfl, rfl⟩

theorem raw_construction_witness :
    ((refc_ptr.ctor Base.refc_weak_base.policy_type 7 true Heap.fresh).2 7).rc =
        ((Heap.fresh 7).rc + 1) % ULONG_MOD ∧
      (refc_ptr.ctor Base.refc_weak_base.policy_type 7 false Heap.fresh).2 = Heap.fresh :=
  ⟨((raw_construction Base.refc_weak_base Heap.fresh).2.2.1 7 (by decide)).2.1,
   (raw_construction Base.refc_weak_base Heap.fresh).2.1 7⟩

/-- C19.  `detach()` returns the address the handle held (the null address for an
empty handle) and leaves the handle null; as a statement of a program it leaves
every object, so every counter and every log, as it was.  Adopting the returned
address with `refc_ptr(addr, false)` gives a handle with the original address and
leaves the heap, hence the count, as it was. -/
theorem detach_adopt (b : Base) (ptr : Nat) (h : Heap) :
    (refc_ptr.detach ptr).1 = ptr ∧
    (refc_ptr.detach ptr).2 = 0 ∧
    (refc_ptr.detach 0).1 = 0 ∧
    refc_ptr.ctor b.policy_type (refc_ptr.detach ptr).1 false h = (ptr, h) ∧
    refc_ptr.eq (refc_ptr.ctor b.policy_type (refc_ptr.detach ptr).1 false h).1 ptr = true ∧
    (∀ (w : World) (i : Nat), w.sget i = some ptr →
      ∃ w1, step b w (Op.detach i) = some w1 ∧ w1.heap = w.heap ∧ w1.sget i = some 0 ∧
        w1.wp = w.wp ∧ (∀ j, j ≠ i → w1.sget j = w.sget j)) := by
  have e : refc_ptr.ctor b.policy_type (refc_ptr.detach ptr).1 false h = (ptr, h) := by
    simp [refc_ptr.ctor, refc_ptr.detach]
  refine ⟨rfl, rfl, rfl, e, ?_, fun w i hi => ?_⟩
  · rw [e]
    simp [refc_ptr.eq]
  · refine ⟨{ w with sp := w.sp.set i (some (refc_ptr.detach ptr).2) }, ?_, rfl, ?_, rfl, ?_⟩
    · simp only [step, hi]
    · exact getD_set_self w.sp i ptr _ hi
    · intro j hj
      exact getD_set_other w.sp i j _ (Ne.symm hj)

theorem detach_adopt_witness :
    ∃ w1, step Base.refc (final Base.refc [Op.ctor 7 true]) (Op.detach 0) = some w1 ∧
      w1.heap = (final Base.refc [Op.ctor 7 true]).heap ∧ w1.sget 0 = some 0 ∧
      w1.wp = (final Base.refc [Op.ctor 7 true]).wp ∧
      (∀ j, j ≠ 0 → w1.sget j = (final Base.refc [Op.ctor 7 true]).sget j) :=
  (detach_adopt Base.refc 7 Heap.fresh).2.2.2.2.2 (final Base.refc [Op.ctor 7 true]) 0
    (by decide)

/-- C20.  Comparison of handles is comparison of the addresses they hold, and
`operator<` is a strict weak order: `a == b` exactly when the addresses are equal,
`a != b` exactly when `a == b` is false, `a < a` never holds, `<` is transitive,
and two handles are incomparable exactly when they are equal, so incomparability
is transitive. -/
theorem compare_by_address (a b c : Nat) :
    (refc_ptr.eq a b = true ↔ refc_ptr.get a = refc_ptr.get b) ∧
    (refc_ptr.ne a b = true ↔ ¬ refc_ptr.eq a b = true) ∧
    refc_ptr.ne a b = !refc_ptr.eq a b ∧
    refc_ptr.lt a a = false ∧
    (refc_ptr.lt a b = true → refc_ptr.lt b c = true → refc_ptr.lt a c = true) ∧
    ((refc_ptr.lt a b = false ∧ refc_ptr.lt b a = false) ↔ refc_ptr.eq a b = true) ∧
    (refc_ptr.lt a b = false ∧ refc_ptr.lt b a = false →
      refc_ptr.lt b c = false ∧ refc_ptr.lt c b = false →
      refc_ptr.lt a c = false ∧ refc_ptr.lt c a = false) := by
  refine ⟨?_, ?_, ?_, ?_, ?_, ?_, ?_⟩
  · simp [refc_ptr.eq]
  · simp [refc_ptr.eq, refc_ptr.ne]
  · by_cases e : a = b <;> simp [refc_ptr.eq, refc_ptr.ne, refc_ptr.get, e]
  · simp [refc_ptr.lt]
  · simp only [refc_ptr.lt, refc_ptr.get, decide_eq_true_eq]
    exact fun h1 h2 => Nat.lt_trans h1 h2
  · simp only [refc_ptr.lt, refc_ptr.eq, refc_ptr.get, decide_eq_true_eq,
      decide_eq_false_iff_not]
    omega
  · simp only [refc_ptr.lt, refc_ptr.get, decide_eq_false_iff_not]
    omega

theorem compare_by_address_witness :
    refc_ptr.lt 3 5 = true ∧ refc_ptr.lt 5 8 = true ∧ refc_ptr.lt 3 8 = true :=
  ⟨by decide, by decide, (compare_by_address 3 5 8).2.2.2.2.1 (by decide) (by decide)⟩

/-- C13.  Same-type move.  Move-constructing a `refc_ptr` (or, on a weak-capable
object, a `refc_weak_ptr`) from handle `o` creates a handle with the address `o`
held, leaves `o` null, and leaves the heap, so every strong and weak count, as it
was.  Same-type move assignment `this = std::move(rhs)` between two different
handles gives `this` the address `rhs` held, leaves `rhs` null, and its only effect
on the heap is the destruction of the handle that held the previous target of
`this`: one `release` on that target if it was non-null, nothing otherwise.
(Move assignment of a handle to itself leaves every handle and the heap as they
were.) -/
theorem same_type_move (b : Base) (w : World) :
    (∀ o po : Nat, w.sget o = some po →
      ∃ w1, step b w (Op.move o) = some w1 ∧ w1.heap = w.heap ∧ w1.wp = w.wp ∧
        w1.sget w.sp.length = some po ∧ w1.sget o = some 0) ∧
    (∀ o po : Nat, b = Base.refc_weak_base → w.wget o = some po →
      ∃ w1, step b w (Op.weak_move o) = some w1 ∧ w1.heap = w.heap ∧ w1.sp = w.sp ∧
        w1.wget w.wp.length = some po ∧ w1.wget o = some 0) ∧
    (∀ this rhs pt pr : Nat, w.sget this = some pt → w.sget rhs = some pr → this ≠ rhs →
      ∃ w1, step b w (Op.move_assign this rhs) = some w1 ∧ w1.wp = w.wp ∧
        w1.sget this = some pr ∧ w1.sget rhs = some 0 ∧
        w1.heap = refc_ptr.dtor b.policy_type pt w.heap ∧
        (pt = 0 → w1.heap = w.heap) ∧
        (pt ≠ 0 → w1.heap = Heap.set w.heap pt (b.policy_type.release (w.heap pt)))) ∧
    (∀ this rhs pt pr : Nat, b = Base.refc_weak_base →
      w.wget this = some pt → w.wget rhs = some pr → this ≠ rhs →
      ∃ w1, step b w (Op.weak_move_assign this rhs) = some w1 ∧ w1.sp = w.sp ∧
        w1.wget this = some pr ∧ w1.wget rhs = some 0 ∧
        w1.heap = refc_weak_ptr.dtor pt w.heap ∧
        (pt = 0 → w1.heap = w.heap) ∧
        (pt ≠ 0 → w1.heap = Heap.set w.heap pt (weak_refc_policy.release (w.heap pt)))) ∧
    (∀ this pt : Nat, w.sget this = some pt →
      ∃ w1, step b w (Op.move_assign this this) = some w1 ∧ w1.heap = w.heap ∧
        w1.sp = w.sp ∧ w1.wp = w.wp) ∧
    (∀ this pt : Nat, b = Base.refc_weak_base → w.wget this = some pt →
      ∃ w1, step b w (Op.weak_move_assign this this) = some w1 ∧ w1.heap = w.heap ∧
        w1.sp = w.sp ∧ w1.wp = w.wp) := by
  refine ⟨fun o po ho => ?_, fun o po hb ho => ?_, fun this rhs pt pr ht hr hne => ?_,
    fun this rhs pt pr hb ht hr hne => ?_, fun this pt ht => ?_, fun this pt hb ht => ?_⟩
  · refine ⟨{ w with sp := (w.sp.set o (some 0)) ++ [some po] }, ?_, rfl, rfl, ?_, ?_⟩
    · simp only [step, ho, refc_ptr.move]
    · have := getD_snoc_length (w.sp.set o (some 0)) (some po)
      rw [List.length_set] at this
      exact this
    · have hlt := lt_length_of_getD w.sp o po ho
      show ((w.sp.set o (some 0)) ++ [some po]).getD o none = some 0
      rw [getD_snoc_lt _ _ _ (by rw [List.length_set]; exact hlt)]
      exact getD_set_self w.sp o po _ ho
  · subst hb
    refine ⟨{ w with wp := (w.wp.set o (some 0)) ++ [some po] }, ?_, rfl, rfl, ?_, ?_⟩
    · simp only [step, ho, refc_weak_ptr.move]
    · have := getD_snoc_length (w.wp.set o (some 0)) (some po)
      rw [List.length_set] at this
      exact this
    · have hlt := lt_length_of_getD w.wp o po ho
      show ((w.wp.set o (some 0)) ++ [some po]).getD o none = some 0
      rw [getD_snoc_lt _ _ _ (by rw [List.length_set]; exact hlt)]
      exact getD_set_self w.wp o po _ ho
  · have h1 : (w.sp.set rhs (some 0)).getD this none = some pt := by
      rw [getD_set_other _ _ _ _ (Ne.symm hne)]; exact ht
    have h2 : (w.sp.set rhs (some 0)).getD rhs none = some 0 :=
      getD_set_self w.sp rhs pr _ hr
    refine ⟨{ w with heap := refc_ptr.dtor b.policy_type pt w.heap,
                     sp := (w.sp.set rhs (some 0)).set this (some pr) }, ?_, rfl, ?_, ?_, rfl,
      ?_, ?_⟩
    · simp only [step, ht, hr, refc_ptr.move, refc_ptr.swap, h1, Option.getD_some]
    · exact getD_set_self _ this pt _ h1
    · show ((w.sp.set rhs (some 0)).set this (some pr)).getD rhs none = some 0
      rw [getD_set_other _ _ _ _ hne]; exact h2
    · intro e
      show refc_ptr.dtor b.policy_type pt w.heap = w.heap
      simp [refc_ptr.dtor, e]
    · intro e
      show refc_ptr.dtor b.policy_type pt w.heap = _
      simp [refc_ptr.dtor, e]
  · subst hb
    have h1 : (w.wp.set rhs (some 0)).getD this none = some pt := by
      rw [getD_set_other _ _ _ _ (Ne.symm hne)]; exact ht
    have h2 : (w.wp.set rhs (some 0)).getD rhs none = some 0 :=
      getD_set_self w.wp rhs pr _ hr
    refine ⟨{ w with heap := refc_weak_ptr.dtor pt w.heap,
                     wp := (w.wp.set rhs (some 0)).set this (some pr) }, ?_, rfl, ?_, ?_, rfl,
      ?_, ?_⟩
    · simp only [step, ht, hr, refc_weak_ptr.move, h1, Option.getD_some]
    · exact getD_set_self _ this pt _ h1
    · show ((w.wp.set rhs (some 0)).set this (some pr)).getD rhs none = some 0
      rw [getD_set_other _ _ _ _ hne]; exact h2
    · intro e
      show refc_weak_ptr.dtor pt w.heap = w.heap
      simp [refc_weak_ptr.dtor, e]
    · intro e
      show refc_weak_ptr.dtor pt w.heap = _
      simp [refc_weak_ptr.dtor, e]
  · have h2 : (w.sp.set this (some 0)).getD this none = some 0 :=
      getD_set_self w.sp this pt _ ht
    refine ⟨⟨refc_ptr.dtor b.policy_type 0 w.heap,
      (w.sp.set this (some 0)).set this (some pt), w.wp⟩, ?_,
      dtor_null b.policy_type w.heap, ?_, rfl⟩
    · simp only [step, ht, refc_ptr.move, refc_ptr.swap, h2, Option.getD_some]
    · show (w.sp.set this (some 0)).set this (some pt) = w.sp
      rw [List.set_set, set_getD_same w.sp this pt ht]
  · subst hb
    have h2 : (w.wp.set this (some 0)).getD this none = some 0 :=
      getD_set_self w.wp this pt _ ht
    refine ⟨⟨refc_weak_ptr.dtor 0 w.heap, w.sp,
      (w.wp.set this (some 0)).set this (some pt)⟩, ?_, ?_, rfl, ?_⟩
    · simp only [step, ht, refc_weak_ptr.move, h2, Option.getD_some]
    · show refc_weak_ptr.dtor 0 w.heap = w.heap
      simp [refc_weak_ptr.dtor]
    · show (w.wp.set this (some 0)).set this (some pt) = w.wp
      rw [List.set_set, set_getD_same w.wp this pt ht]

theorem same_type_move_witness :
    ∃ w1, step Base.refc_weak_base (final Base.refc_weak_base prog_two) (Op.move_assign 0 1) =
        some w1 ∧ w1.wp = (final Base.refc_weak_base prog_two).wp ∧
      w1.sget 0 = some 9 ∧ w1.sget 1 = some 0 ∧
      w1.heap = refc_ptr.dtor Base.refc_weak_base.policy_type 7
        (final Base.refc_weak_base prog_two).heap ∧
      (7 = 0 → w1.heap = (final Base.refc_weak_base prog_two).heap) ∧
      (7 ≠ 0 → w1.heap = Heap.set (final Base.refc_weak_base prog_two).heap 7
        (Base.refc_weak_base.policy_type.release
          ((final Base.refc_weak_base prog_two).heap 7))) :=
  (same_type_move Base.refc_weak_base (final Base.refc_weak_base prog_two)).2.2.1 0 1 7 9
    (by decide) (by decide) (by decide)

/-- C14 (the code differs from the claim).  Moving a non-null `refc_ptr<U>` into a
`refc_ptr<T>` of another, related type does not behave like a same-type move.  The
class has no constructor from `refc_ptr<U> &&`, so both `refc_ptr<T> t(std::move(u))`
and `t = std::move(u)` build the new value with the converting copy constructor:
the destination takes the address, but the source still holds it and the policy's
`add_ref` has been applied once, so the strong count has grown by one (in
`unsigned long` arithmetic); the same-type move of the same handle would have left
the source null and the heap as it was. -/
theorem converting_move_copies (b : Base) (t u : Nat) (h : Heap) (hu : u ≠ 0) :
    refc_ptr.conv_move b.policy_type u h =
        (u, u, Heap.set h u (b.policy_type.add_ref (h u)).2) ∧
    (refc_ptr.conv_move b.policy_type u h).2.1 ≠ 0 ∧
    ((refc_ptr.conv_move b.policy_type u h).2.2 u).rc = ((h u).rc + 1) % ULONG_MOD ∧
    ((h u).rc + 1 < ULONG_MOD →
      ((refc_ptr.conv_move b.policy_type u h).2.2 u).refcount = (h u).refcount + 1) ∧
    refc_ptr.conv_move_assign b.policy_type t u h =
        (u, u, refc_ptr.dtor b.policy_type t (Heap.set h u (b.policy_type.add_ref (h u)).2)) ∧
    refc_ptr.conv_move_assign b.policy_type 0 u h =
        (u, u, Heap.set h u (b.policy_type.add_ref (h u)).2) ∧
    refc_ptr.move u = (u, 0) := by
  have e : refc_ptr.conv_move b.policy_type u h =
      (u, u, Heap.set h u (b.policy_type.add_ref (h u)).2) := by
    simp only [refc_ptr.conv_move, conv_copy_eq _ u h hu]
  have e2 : ∀ t, refc_ptr.conv_move_assign b.policy_type t u h =
      (u, u, refc_ptr.dtor b.policy_type t (Heap.set h u (b.policy_type.add_ref (h u)).2)) := by
    intro t
    simp only [refc_ptr.conv_move_assign, e, refc_ptr.swap]
  refine ⟨e, ?_, ?_, ?_, e2 t, ?_, rfl⟩
  · rw [e]; exact hu
  · rw [e]
    show (Heap.set h u (b.policy_type.add_ref (h u)).2 u).rc = _
    rw [Heap.set_self, rc_add_ref]
  · intro hfit
    rw [e]
    show (Heap.set h u (b.policy_type.add_ref (h u)).2 u).rc = (h u).rc + 1
    rw [Heap.set_self, rc_add_ref, add_one_mod _ hfit]
  · rw [e2 0, dtor_null]

theorem converting_move_copies_witness :
    (refc_ptr.conv_move_assign Base.refc.policy_type 0 7
        (final Base.refc [Op.ctor 7 true]).heap).1 = 7 ∧
      (refc_ptr.conv_move_assign Base.refc.policy_type 0 7
        (final Base.refc [Op.ctor 7 true]).heap).2.1 = 7 ∧
      ((final Base.refc [Op.ctor 7 true]).heap 7).refcount = 1 ∧
      ((refc_ptr.conv_move Base.refc.policy_type 7
        (final Base.refc [Op.ctor 7 true]).heap).2.2 7).refcount = 2 :=
  ⟨by rw [(converting_move_copies Base.refc 0 7 (final Base.refc [Op.ctor 7 true]).heap
      (by decide)).2.2.2.2.2.1],
   by rw [(converting_move_copies Base.refc 0 7 (final Base.refc [Op.ctor 7 true]).heap
      (by decide)).2.2.2.2.2.1],
   by decide,
   ((converting_move_copies Base.refc 0 7 (final Base.refc [Op.ctor 7 true]).heap
      (by decide)).2.2.2.1 (by decide)).trans (by decide)⟩

/-- C15.  `reset(q, add_ref)` on a handle that holds `p` goes through three states:
first the temporary handle for `q` is constructed (with `add_ref = true` and `q`
non-null that applies the policy's `add_ref` to `q`) while the handle still holds
`p` and the object at `p`, if another one, is as it was; then the handle holds `q`;
only then is the old target released, and this last state is the one the statement
leaves.  For `reset(p)` on a handle that holds `p` itself with strong count
`n ≥ 1` (and `n + 1` an `unsigned long`), the count is `n + 1`, `n + 1`, `n` in the
three states, so never 0, the handle holds `p` throughout, and no destructor runs;
if also the weak count is consistent (or the type is strong-only) the heap ends as
it started. -/
theorem reset_acquires_first (b : Base) (h : Heap) (p : Nat) :
    (∀ (q : Nat) (add : Bool),
      refc_ptr.reset_states b.policy_type p q add h =
        [(p, (refc_ptr.ctor b.policy_type q add h).2),
         (q, (refc_ptr.ctor b.policy_type q add h).2),
         (q, refc_ptr.dtor b.policy_type p (refc_ptr.ctor b.policy_type q add h).2)] ∧
      (q ≠ 0 → (refc_ptr.ctor b.policy_type q true h).2 q = (b.policy_type.add_ref (h q)).2) ∧
      (p ≠ q → (refc_ptr.ctor b.policy_type q add h).2 p = h p)) ∧
    (∀ (w : World) (i q : Nat) (add : Bool), w.heap = h → w.sget i = some p →
      w.raw_ok q = true →
      ∃ w1, step b w (Op.reset_to i q add) = some w1 ∧
        (refc_ptr.reset_states b.policy_type p q add h).getLast? =
          some ((w1.sget i).getD 0, w1.heap) ∧ w1.sget i = some q) ∧
    (p ≠ 0 → 1 ≤ (h p).rc → (h p).rc + 1 < ULONG_MOD →
      (refc_ptr.reset_states b.policy_type p p true h).map (fun s => (s.1, (s.2 p).refcount)) =
        [(p, (h p).rc + 1), (p, (h p).rc + 1), (p, (h p).rc)] ∧
      (∀ s ∈ refc_ptr.reset_states b.policy_type p p true h,
        1 ≤ (s.2 p).refcount ∧ (s.2 p).dtor_runs = (h p).dtor_runs) ∧
      (b = Base.refc ∨ (1 ≤ (h p).weak_rc ∧ (h p).weak_rc + 1 < ULONG_MOD) →
        (refc_ptr.reset_states b.policy_type p p true h).getLast? = some (p, h))) := by
  refine ⟨fun q add => ⟨?_, fun hq => ?_, fun hne => ?_⟩, fun w i q add hw hi hraw => ?_,
    fun hp h1 hfit => ?_⟩
  · simp only [refc_ptr.reset_states, refc_ptr.swap, ctor_fst]
  · rw [ctor_true _ q h hq]
    exact Heap.set_self _ _ _
  · unfold refc_ptr.ctor
    split_ifs
    · exact Heap.set_other _ _ _ _ hne
    · rfl
  · subst hw
    refine ⟨⟨refc_ptr.dtor b.policy_type p (refc_ptr.ctor b.policy_type q add w.heap).2,
      w.sp.set i (some q), w.wp⟩, ?_, ?_, ?_⟩
    · simp only [step, hi, hraw, if_true, refc_ptr.swap, ctor_fst]
    · have e : (w.sp.set i (some q)).getD i none = some q := getD_set_self w.sp i p _ hi
      simp only [World.sget, e]
      simp only [refc_ptr.reset_states, refc_ptr.swap, ctor_fst, List.getLast?_cons_cons,
        List.getLast?_singleton, Option.getD_some]
    · exact getD_set_self w.sp i p _ hi
  · have e : refc_ptr.reset_states b.policy_type p p true h =
        [(p, Heap.set h p (b.policy_type.add_ref (h p)).2),
         (p, Heap.set h p (b.policy_type.add_ref (h p)).2),
         (p, Heap.set h p (b.policy_type.release (b.policy_type.add_ref (h p)).2))] := by
      simp only [refc_ptr.reset_states, refc_ptr.swap, ctor_true _ p h hp, dtor_set _ p h _ hp]
    have r1 : (b.policy_type.add_ref (h p)).2.rc = (h p).rc + 1 := by
      rw [rc_add_ref, add_one_mod _ hfit]
    have r2 := release_add_ref_rc b (h p) hfit
    have r3 := release_add_ref_dtor_runs b (h p) h1 hfit
    have r4 : (b.policy_type.add_ref (h p)).2.dtor_runs = (h p).dtor_runs := by
      rw [Obj.dtor_runs, log_add_ref]
      rfl
    rw [e]
    refine ⟨?_, ?_, fun hw => ?_⟩
    · simp only [List.map_cons, List.map_nil, Heap.set_self, Obj.refcount, r1, r2]
    · intro s hs
      simp only [List.mem_cons, List.mem_singleton, List.not_mem_nil, or_false] at hs
      rcases hs with hs | hs | hs <;> subst hs <;>
        simp only [Heap.set_self, Obj.refcount, r1, r2, r3, r4, and_true] <;> omega
    · rw [release_add_ref b (h p) h1 hfit hw, Heap.set_same]
      rfl

theorem reset_acquires_first_witness :
    (refc_ptr.reset_states Base.refc_weak_base.policy_type 7 7 true
        (final Base.refc_weak_base prog_two).heap).map (fun s => (s.1, (s.2 7).refcount)) =
      [(7, ((final Base.refc_weak_base prog_two).heap 7).rc + 1),
       (7, ((final Base.refc_weak_base prog_two).heap 7).rc + 1),
       (7, ((final Base.refc_weak_base prog_two).heap 7).rc)] ∧
    ((final Base.refc_weak_base prog_two).heap 7).rc = 1 :=
  ⟨((reset_acquires_first Base.refc_weak_base (final Base.refc_weak_base prog_two).heap 7).2.2
      (by decide) (by decide) (by decide)).1, by decide⟩

/-- C18.  Self-assignment `p = p` is the identity.  For a null handle the three
states of the copy assignment all have the handle null and the heap as it was.  For
a handle that holds `p` with strong count `n ≥ 1` (and `n + 1` an `unsigned long`)
the handle holds `p` in all three states, the count is `n + 1`, `n + 1`, `n`, so
never 0, and ends where it started, and no destructor runs; with a consistent weak
count (or a strong-only type) the heap ends exactly as it started.  As a statement
of a program, `p = p` leaves every handle as it was, and the heap is the one of the
last state. -/
theorem self_assignment (b : Base) (h : Heap) (p : Nat) :
    refc_ptr.assign_states b.policy_type 0 0 h = [(0, h), (0, h), (0, h)] ∧
    (p ≠ 0 → 1 ≤ (h p).rc → (h p).rc + 1 < ULONG_MOD →
      (refc_ptr.assign_states b.policy_type p p h).map (fun s => (s.1, (s.2 p).refcount)) =
        [(p, (h p).rc + 1), (p, (h p).rc + 1), (p, (h p).rc)] ∧
      (∀ s ∈ refc_ptr.assign_states b.policy_type p p h,
        1 ≤ (s.2 p).refcount ∧ (s.2 p).dtor_runs = (h p).dtor_runs ∧
        (∀ a, a ≠ p → s.2 a = h a)) ∧
      (b = Base.refc ∨ (1 ≤ (h p).weak_rc ∧ (h p).weak_rc + 1 < ULONG_MOD) →
        (refc_ptr.assign_states b.policy_type p p h).getLast? = some (p, h))) ∧
    (∀ (w : World) (i : Nat), w.heap = h → w.sget i = some p →
      ∃ w1, step b w (Op.assign i i) = some w1 ∧ w1.sp = w.sp ∧ w1.wp = w.wp ∧
        (refc_ptr.assign_states b.policy_type p p h).getLast? = some (p, w1.heap)) := by
  refine ⟨?_, fun hp h1 hfit => ?_, fun w i hw hi => ?_⟩
  · simp [refc_ptr.assign_states, refc_ptr.copy, refc_ptr.swap, refc_ptr.dtor]
  · have e : refc_ptr.assign_states b.policy_type p p h =
        [(p, Heap.set h p (b.policy_type.add_ref (h p)).2),
         (p, Heap.set h p (b.policy_type.add_ref (h p)).2),
         (p, Heap.set h p (b.policy_type.release (b.policy_type.add_ref (h p)).2))] := by
      simp only [refc_ptr.assign_states, refc_ptr.swap, copy_eq _ p h hp, dtor_set _ p h _ hp]
    have r1 : (b.policy_type.add_ref (h p)).2.rc = (h p).rc + 1 := by
      rw [rc_add_ref, add_one_mod _ hfit]
    have r2 := release_add_ref_rc b (h p) hfit
    have r3 := release_add_ref_dtor_runs b (h p) h1 hfit
    have r4 : (b.policy_type.add_ref (h p)).2.dtor_runs = (h p).dtor_runs := by
      rw [Obj.dtor_runs, log_add_ref]
      rfl
    rw [e]
    refine ⟨?_, ?_, fun hw => ?_⟩
    · simp only [List.map_cons, List.map_nil, Heap.set_self, Obj.refcount, r1, r2]
    · intro s hs
      simp only [List.mem_cons, List.mem_singleton, List.not_mem_nil, or_false] at hs
      rcases hs with hs | hs | hs <;> subst hs <;>
        refine ⟨?_, ?_, fun a ha => Heap.set_other _ _ _ _ ha⟩ <;>
        simp only [Heap.set_self, Obj.refcount, r1, r2, r3, r4] <;> omega
    · rw [release_add_ref b (h p) h1 hfit hw, Heap.set_same]
      rfl
  · subst hw
    refine ⟨⟨refc_ptr.dtor b.policy_type p (refc_ptr.copy b.policy_type p w.heap).2,
      w.sp.set i (some p), w.wp⟩, ?_, ?_, rfl, ?_⟩
    · simp only [step, hi, refc_ptr.swap, copy_fst]
    · exact set_getD_same w.sp i p hi
    · simp only [refc_ptr.assign_states, refc_ptr.swap, copy_fst, List.getLast?_cons_cons,
        List.getLast?_singleton]

theorem self_assignment_witness :
    (refc_ptr.assign_states Base.refc_weak_base.policy_type 7 7
        (final Base.refc_weak_base prog_two).heap).getLast? =
      some (7, (final Base.refc_weak_base prog_two).heap) :=
  ((self_assignment Base.refc_weak_base (final Base.refc_weak_base prog_two).heap 7).2.1
      (by decide) (by decide) (by decide)).2.2 (Or.inr ⟨by decide, by decide⟩)

/-- C16.  Self-reference.  An object freshly allocated at `a` whose constructor
stores `refc_ptr(this)` in its member has strong count 1, is not destroyed, and its
member holds `a`, with no other handle in existence.  `reset()` on that member
first makes the member null and only then releases the object, so the release that
runs the destructor finds a null member and goes no further: whatever the amount
of fuel (at least one step), the call returns, the destructor has run exactly once,
the storage has been freed exactly once, the counts are 0 (not wrapped around, as
a second `release` would leave them), and no other object has changed. -/
theorem self_reference (b : Base) (h : NHeap) (a fuel : Nat) (ha : a ≠ 0)
    (hfresh : h a = Node.fresh) :
    ((self_ref.ctor b h a) a).obj.refcount = 1 ∧
    ((self_ref.ctor b h a) a).obj.log = [] ∧
    ((self_ref.ctor b h a) a).member = a ∧
    self_ref.reset b (fuel + 1) (self_ref.ctor b h a) a =
      NHeap.release b (fuel + 1) ((self_ref.ctor b h a).set_member a 0) a ∧
    (((self_ref.ctor b h a).set_member a 0) a).member = 0 ∧
    ∃ h2, self_ref.reset b (fuel + 1) (self_ref.ctor b h a) a = some h2 ∧
      (h2 a).member = 0 ∧ (h2 a).obj.rc = 0 ∧ (h2 a).obj.weak_rc = 0 ∧
      (h2 a).obj.log = [Event.destroyed, Event.deallocated] ∧
      (h2 a).obj.dtor_runs = 1 ∧ (h2 a).obj.frees = 1 ∧
      (∀ c, c ≠ a → h2 c = h c) := by
  have e0 : (h a).obj = Obj.fresh := by rw [hfresh]; rfl
  have e1 : ((self_ref.ctor b h a) a).obj =
      { rc := 1, weak_rc := if b = Base.refc then 0 else 1, log := [] } := by
    rw [self_ref_ctor_eq b h a ha, NHeap.set_member_obj, NHeap.add_ref, NHeap.set_obj_obj, e0,
      add_ref_fresh]
  have e2 : ((self_ref.ctor b h a) a).member = a := by
    rw [self_ref_ctor_eq b h a ha, NHeap.set_member_member]
  have e3 : self_ref.reset b (fuel + 1) (self_ref.ctor b h a) a =
      NHeap.release b (fuel + 1) ((self_ref.ctor b h a).set_member a 0) a := by
    have := self_ref_reset_eq b (fuel + 1) (self_ref.ctor b h a) a (by rw [e2]; exact ha)
    rw [e2] at this
    exact this
  have e4 : (((self_ref.ctor b h a).set_member a 0) a).member = 0 :=
    NHeap.set_member_member _ _ _
  have e5 : (((self_ref.ctor b h a).set_member a 0) a).obj =
      { rc := 1, weak_rc := if b = Base.refc then 0 else 1, log := [] } := by
    rw [NHeap.set_member_obj, e1]
  refine ⟨by rw [Obj.refcount, e1], by rw [e1], e2, e3, e4,
    ((self_ref.ctor b h a).set_member a 0).set_obj a
      { rc := 0, weak_rc := 0, log := [Event.destroyed, Event.deallocated] }, ?_, ?_⟩
  · rw [e3, NHeap.release_flat b fuel _ a (Or.inr e4), e5, release_last]
  · refine ⟨?_, ?_, ?_, ?_, ?_, ?_, ?_⟩
    · rw [NHeap.set_obj_member, e4]
    · rw [NHeap.set_obj_obj]
    · rw [NHeap.set_obj_obj]
    · rw [NHeap.set_obj_obj]
    · rw [NHeap.set_obj_obj]; rfl
    · rw [NHeap.set_obj_obj]; rfl
    · intro c hc
      rw [NHeap.set_obj_other _ _ _ _ hc, NHeap.set_member_other _ _ _ _ hc,
        self_ref_ctor_eq b h a ha, NHeap.set_member_other _ _ _ _ hc, NHeap.add_ref,
        NHeap.set_obj_other _ _ _ _ hc]

theorem self_reference_witness :
    ∃ h2, self_ref.reset Base.refc_weak_base (0 + 1)
        (self_ref.ctor Base.refc_weak_base NHeap.fresh 7) 7 = some h2 ∧
      (h2 7).member = 0 ∧ (h2 7).obj.rc = 0 ∧ (h2 7).obj.weak_rc = 0 ∧
      (h2 7).obj.log = [Event.destroyed, Event.deallocated] ∧
      (h2 7).obj.dtor_runs = 1 ∧ (h2 7).obj.frees = 1 ∧
      (∀ c, c ≠ 7 → h2 c = NHeap.fresh c) :=
  (self_reference Base.refc_weak_base NHeap.fresh 7 0 (by decide) rfl).2.2.2.2.2

/-- C17.  Chain hand-over.  Let `p` hold `a` and be its only owner, and let the
member `next` of the object at `a` hold `c` and be its only owner (both objects
alive).  Then `p = p->next` returns (with two levels of nesting, for any amount of
fuel from 2 on) and leaves `p` holding `c`; the object at `c` is exactly as before,
with strong count 1 and not destroyed, having gone through one `add_ref` by the
copy and one `release` by the destruction of `a`; the object at `a` has been
destroyed once and freed once; no other object has changed.  If the member of `c`
is null, dropping `p` afterwards destroys and frees `c`, once each. -/
theorem chain_hand_over (b : Base) (h : NHeap) (a c fuel : Nat) (ha : a ≠ 0) (hc : c ≠ 0)
    (hac : a ≠ c)
    (hA : (h a).obj = { rc := 1, weak_rc := if b = Base.refc then 0 else 1, log := [] })
    (hnext : (h a).member = c)
    (hB : (h c).obj = { rc := 1, weak_rc := if b = Base.refc then 0 else 1, log := [] }) :
    ∃ h2, Dn.assign_next b (fuel + 2) a h = some (c, h2) ∧
      h2 c = h c ∧ (h2 c).obj.refcount = 1 ∧ (h2 c).obj.log = [] ∧
      (h2 a).obj.rc = 0 ∧ (h2 a).obj.log = [Event.destroyed, Event.deallocated] ∧
      (h2 a).obj.dtor_runs = 1 ∧ (h2 a).obj.frees = 1 ∧
      (∀ d, d ≠ a → d ≠ c → h2 d = h d) ∧
      ((h c).member = 0 →
        ∃ h3, NHeap.dtor b (fuel + 1) c h2 = some h3 ∧
          (h3 c).obj.log = [Event.destroyed, Event.deallocated] ∧
          (h3 c).obj.dtor_runs = 1 ∧ (h3 c).obj.frees = 1 ∧
          (h3 a).obj.log = [Event.destroyed, Event.deallocated]) := by
  have hca : c ≠ a := Ne.symm hac
  have e1 : ((h.add_ref b c) a).obj =
      { rc := 1, weak_rc := if b = Base.refc then 0 else 1, log := [] } := by
    rw [NHeap.add_ref, NHeap.set_obj_other _ _ _ _ hac, hA]
  have e2 : ((h.add_ref b c) a).member = c := by
    rw [NHeap.add_ref, NHeap.set_obj_other _ _ _ _ hac, hnext]
  have e3 : ((h.add_ref b c) c).obj = (b.policy_type.add_ref (h c).obj).2 := by
    rw [NHeap.add_ref, NHeap.set_obj_obj]
  have hy1 : 1 ≤ (h c).obj.rc := by rw [hB]
  have hy2 : (h c).obj.rc + 1 < ULONG_MOD := by
    rw [hB]
    show 1 + 1 < ULONG_MOD
    rw [ULONG_MOD_eq]
    decide
  have hyw : b = Base.refc ∨ (1 ≤ (h c).obj.weak_rc ∧ (h c).obj.weak_rc + 1 < ULONG_MOD) := by
    cases b
    · exact Or.inl rfl
    · refine Or.inr ?_
      rw [hB, ULONG_MOD_eq]
      decide
  have hrel := NHeap.release_owner b fuel (h.add_ref b c) a c (h c).obj hac hc e1 e2 e3 hy1 hy2 hyw
  have hassign : Dn.assign_next b (fuel + 2) a h =
      some (c, ((h.add_ref b c).set_obj c (h c).obj).set_obj a
        { rc := 0, weak_rc := 0, log := [Event.destroyed, Event.deallocated] }) := by
    simp only [Dn.assign_next, NHeap.assign, NHeap.copy, refc_ptr.swap, NHeap.dtor, hnext, ne_eq,
      hc, ha, not_false_eq_true, if_true, hrel]
  have hc2 : (((h.add_ref b c).set_obj c (h c).obj).set_obj a
      { rc := 0, weak_rc := 0, log := [Event.destroyed, Event.deallocated] }) c = h c := by
    rw [NHeap.set_obj_other _ _ _ _ hca]
    simp [NHeap.set_obj, NHeap.set, NHeap.add_ref]
  have ha2 : ((((h.add_ref b c).set_obj c (h c).obj).set_obj a
      { rc := 0, weak_rc := 0, log := [Event.destroyed, Event.deallocated] }) a).obj =
      { rc := 0, weak_rc := 0, log := [Event.destroyed, Event.deallocated] } :=
    NHeap.set_obj_obj _ _ _
  refine ⟨_, hassign, hc2, ?_, ?_, ?_, ?_, ?_, ?_, ?_, ?_⟩
  · rw [hc2, hB]; rfl
  · rw [hc2, hB]
  · rw [ha2]
  · rw [ha2]
  · rw [ha2]; rfl
  · rw [ha2]; rfl
  · intro d hda hdc
    rw [NHeap.set_obj_other _ _ _ _ hda, NHeap.set_obj_other _ _ _ _ hdc, NHeap.add_ref,
      NHeap.set_obj_other _ _ _ _ hdc]
  · intro hm
    have hm2 : ((((h.add_ref b c).set_obj c (h c).obj).set_obj a
        { rc := 0, weak_rc := 0, log := [Event.destroyed, Event.deallocated] }) c).member = 0 := by
      rw [hc2, hm]
    have hdrop : NHeap.dtor b (fuel + 1) c
        (((h.add_ref b c).set_obj c (h c).obj).set_obj a
          { rc := 0, weak_rc := 0, log := [Event.destroyed, Event.deallocated] }) =
        some ((((h.add_ref b c).set_obj c (h c).obj).set_obj a
          { rc := 0, weak_rc := 0, log := [Event.destroyed, Event.deallocated] }).set_obj c
          { rc := 0, weak_rc := 0, log := [Event.destroyed, Event.deallocated] }) := by
      simp only [NHeap.dtor, ne_eq, hc, not_false_eq_true, if_true]
      rw [NHeap.release_flat b fuel _ c (Or.inr hm2), hc2, hB, release_last]
    refine ⟨_, hdrop, ?_, ?_, ?_, ?_⟩
    · rw [NHeap.set_obj_obj]
    · rw [NHeap.set_obj_obj]; rfl
    · rw [NHeap.set_obj_obj]; rfl
    · rw [NHeap.set_obj_other _ _ _ _ hac, ha2]

theorem chain_hand_over_witness :
    (Dn.chain Base.refc_weak_base 0 NHeap.fresh 7 9).map (fun r => r.1) = some 7 ∧
    ∃ h2, Dn.assign_next Base.refc_weak_base (0 + 2) 7 (chain_heap Base.refc_weak_base) =
        some (9, h2) ∧
      h2 9 = chain_heap Base.refc_weak_base 9 ∧
      (h2 9).obj.refcount = 1 ∧ (h2 9).obj.log = [] ∧
      (h2 7).obj.rc = 0 ∧ (h2 7).obj.log = [Event.destroyed, Event.deallocated] ∧
      (h2 7).obj.dtor_runs = 1 ∧ (h2 7).obj.frees = 1 ∧
      (∀ d, d ≠ 7 → d ≠ 9 → h2 d = chain_heap Base.refc_weak_base d) ∧
      ((chain_heap Base.refc_weak_base 9).member = 0 →
        ∃ h3, NHeap.dtor Base.refc_weak_base (0 + 1) 9 h2 = some h3 ∧
          (h3 9).obj.log = [Event.destroyed, Event.deallocated] ∧
          (h3 9).obj.dtor_runs = 1 ∧ (h3 9).obj.frees = 1 ∧
          (h3 7).obj.log = [Event.destroyed, Event.deallocated]) :=
  ⟨by decide,
   chain_hand_over Base.refc_weak_base (chain_heap Base.refc_weak_base) 7 9 0 (by decide)
    (by decide) (by decide) (by decide) (by decide) (by decide)⟩

/-- C21.  Successful casts.  For a non-null handle `p` to an object with strong count
`n`, the reference-taking `static_pointer_cast`, `const_pointer_cast` and (when the
dynamic type matches) `dynamic_pointer_cast` return a handle with the address of
`p`; their only effect on the heap is one `add_ref` on that object, so the count is
`n + 1` (in `unsigned long` arithmetic) and `p`, passed by const reference, is as
it was.  The move-taking variants return a handle with the same address, leave the
source null and leave the heap, so the count `n`, as it was. -/
theorem casts_succeed (b : Base) (is_T : Nat → Bool) (p : Nat) (h : Heap) (hp : p ≠ 0) :
    (std.static_pointer_cast b.policy_type p h =
        (p, Heap.set h p (b.policy_type.add_ref (h p)).2) ∧
      std.const_pointer_cast b.policy_type p h =
        (p, Heap.set h p (b.policy_type.add_ref (h p)).2) ∧
      (is_T p = true → std.dynamic_pointer_cast b.policy_type is_T p h =
        (p, Heap.set h p (b.policy_type.add_ref (h p)).2))) ∧
    ((Heap.set h p (b.policy_type.add_ref (h p)).2 p).rc = ((h p).rc + 1) % ULONG_MOD ∧
      ((h p).rc + 1 < ULONG_MOD →
        (Heap.set h p (b.policy_type.add_ref (h p)).2 p).refcount = (h p).refcount + 1) ∧
      (Heap.set h p (b.policy_type.add_ref (h p)).2 p).log = (h p).log) ∧
    (std.static_pointer_cast_move b.policy_type p h = (p, 0, h) ∧
      std.const_pointer_cast_move b.policy_type p h = (p, 0, h) ∧
      (is_T p = true → std.dynamic_pointer_cast_move b.policy_type is_T p h = (p, 0, h))) := by
  refine ⟨⟨?_, ?_, fun ht => ?_⟩, ⟨?_, fun hfit => ?_, ?_⟩, ⟨?_, ?_, fun ht => ?_⟩⟩
  · exact ctor_true _ p h hp
  · exact ctor_true _ p h hp
  · rw [std.dynamic_pointer_cast, refc_ptr.get, dynamic_cast_ok is_T p hp ht]
    exact ctor_true _ p h hp
  · rw [Heap.set_self, rc_add_ref]
  · show (Heap.set h p (b.policy_type.add_ref (h p)).2 p).rc = (h p).rc + 1
    rw [Heap.set_self, rc_add_ref, add_one_mod _ hfit]
  · rw [Heap.set_self, log_add_ref]
  · simp only [std.static_pointer_cast_move, refc_ptr.detach, std.static_cast, ctor_false]
  · simp only [std.const_pointer_cast_move, refc_ptr.detach, std.const_cast, ctor_false]
  · simp only [std.dynamic_pointer_cast_move, refc_ptr.get, dynamic_cast_ok is_T p hp ht,
      refc_ptr.detach, ctor_false, ne_eq, hp, not_false_eq_true, if_true]

theorem casts_succeed_witness :
    std.static_pointer_cast_move Base.refc.policy_type 7 (final Base.refc [Op.ctor 7 true]).heap =
        (7, 0, (final Base.refc [Op.ctor 7 true]).heap) ∧
      ((final Base.refc [Op.ctor 7 true]).heap 7).refcount = 1 ∧
      (Heap.set (final Base.refc [Op.ctor 7 true]).heap 7
        (Base.refc.policy_type.add_ref ((final Base.refc [Op.ctor 7 true]).heap 7)).2
          7).refcount = 1 + 1 :=
  ⟨(casts_succeed Base.refc (fun _ => true) 7 (final Base.refc [Op.ctor 7 true]).heap
      (by decide)).2.2.1,
   by decide,
   (casts_succeed Base.refc (fun _ => true) 7 (final Base.refc [Op.ctor 7 true]).heap
      (by decide)).2.1.2.1 (by decide)⟩

/-- C22.  Failed dynamic cast.  When the source is null or the dynamic type of its
target is not the requested one, both variants of `dynamic_pointer_cast` return a
null handle and leave the heap, so every count, as it was.  The move-taking variant
leaves the source holding its address, so the source still owns its unit: destroying
the returned handle does nothing, and destroying the source afterwards is one
`release` on the target (for a non-null source), no more and no less. -/
theorem dynamic_cast_fails (b : Base) (is_T : Nat → Bool) (p : Nat) (h : Heap)
    (hfail : p = 0 ∨ is_T p = false) :
    std.dynamic_pointer_cast b.policy_type is_T p h = (0, h) ∧
    std.dynamic_pointer_cast_move b.policy_type is_T p h = (0, p, h) ∧
    refc_ptr.toBool (std.dynamic_pointer_cast_move b.policy_type is_T p h).1 = false ∧
    refc_ptr.dtor b.policy_type (std.dynamic_pointer_cast_move b.policy_type is_T p h).1
        (std.dynamic_pointer_cast_move b.policy_type is_T p h).2.2 = h ∧
    (p ≠ 0 →
      refc_ptr.dtor b.policy_type (std.dynamic_pointer_cast_move b.policy_type is_T p h).2.1
        (refc_ptr.dtor b.policy_type (std.dynamic_pointer_cast_move b.policy_type is_T p h).1
          (std.dynamic_pointer_cast_move b.policy_type is_T p h).2.2) =
        Heap.set h p (b.policy_type.release (h p))) := by
  have e1 : std.dynamic_pointer_cast b.policy_type is_T p h = (0, h) := by
    rw [std.dynamic_pointer_cast, refc_ptr.get, dynamic_cast_fail is_T p hfail]
    simp [refc_ptr.ctor]
  have e2 : std.dynamic_pointer_cast_move b.policy_type is_T p h = (0, p, h) := by
    simp only [std.dynamic_pointer_cast_move, refc_ptr.get, dynamic_cast_fail is_T p hfail,
      ctor_false, ne_eq, not_true_eq_false, if_false]
  refine ⟨e1, e2, ?_, ?_, fun hp => ?_⟩
  · rw [e2]; rfl
  · rw [e2]; exact dtor_null _ _
  · rw [e2]
    show refc_ptr.dtor b.policy_type p (refc_ptr.dtor b.policy_type 0 h) = _
    rw [dtor_null, dtor_eq _ p h hp]

theorem dynamic_cast_fails_witness :
    std.dynamic_pointer_cast_move Base.refc_weak_base.policy_type (fun a => decide (a = 9)) 7
        (final Base.refc_weak_base prog_two).heap =
      (0, 7, (final Base.refc_weak_base prog_two).heap) :=
  (dynamic_cast_fails Base.refc_weak_base (fun a => decide (a = 9)) 7
    (final Base.refc_weak_base prog_two).heap (Or.inr (by decide))).2.1

/-- C23.  Cast round trip.  For a non-null handle `d` to an object whose dynamic type
is `Derived`, with strong count `n`: the converting copy to `refc_ptr<Base>` gives a
handle with the address of `d` and count `n + 1`, and `dynamic_pointer_cast<Derived>`
of that handle gives a handle equal to `d` and count `n + 2` (both counts exact as
long as they fit an `unsigned long`); from one handle the counts are 1, 2, 3. -/
theorem cast_round_trip (b : Base) (is_Derived : Nat → Bool) (d : Nat) (h : Heap)
    (hd : d ≠ 0) (ht : is_Derived d = true) (hfit : (h d).rc + 2 < ULONG_MOD) :
    (refc_ptr.conv_copy b.policy_type d h).1 = d ∧
    ((refc_ptr.conv_copy b.policy_type d h).2 d).refcount = (h d).refcount + 1 ∧
    (std.dynamic_pointer_cast b.policy_type is_Derived
      (refc_ptr.conv_copy b.policy_type d h).1 (refc_ptr.conv_copy b.policy_type d h).2).1 = d ∧
    refc_ptr.eq (std.dynamic_pointer_cast b.policy_type is_Derived
      (refc_ptr.conv_copy b.policy_type d h).1 (refc_ptr.conv_copy b.policy_type d h).2).1 d =
        true ∧
    ((std.dynamic_pointer_cast b.policy_type is_Derived
      (refc_ptr.conv_copy b.policy_type d h).1 (refc_ptr.conv_copy b.policy_type d h).2).2
        d).refcount = (h d).refcount + 2 ∧
    ((h d).refcount = 1 →
      ((refc_ptr.conv_copy b.policy_type d h).2 d).refcount = 2 ∧
      ((std.dynamic_pointer_cast b.policy_type is_Derived
        (refc_ptr.conv_copy b.policy_type d h).1 (refc_ptr.conv_copy b.policy_type d h).2).2
          d).refcount = 3) := by
  have e1 : refc_ptr.conv_copy b.policy_type d h =
      (d, Heap.set h d (b.policy_type.add_ref (h d)).2) := conv_copy_eq _ d h hd
  have r1 : (Heap.set h d (b.policy_type.add_ref (h d)).2 d).rc = (h d).rc + 1 := by
    rw [Heap.set_self, rc_add_ref, add_one_mod _ (by omega)]
  have e2 : std.dynamic_pointer_cast b.policy_type is_Derived d
      (Heap.set h d (b.policy_type.add_ref (h d)).2) =
      (d, Heap.set (Heap.set h d (b.policy_type.add_ref (h d)).2) d
        (b.policy_type.add_ref (Heap.set h d (b.policy_type.add_ref (h d)).2 d)).2) := by
    rw [std.dynamic_pointer_cast, refc_ptr.get, dynamic_cast_ok is_Derived d hd ht]
    exact ctor_true _ d _ hd
  have r2 : (Heap.set (Heap.set h d (b.policy_type.add_ref (h d)).2) d
      (b.policy_type.add_ref (Heap.set h d (b.policy_type.add_ref (h d)).2 d)).2 d).rc =
      (h d).rc + 2 := by
    rw [Heap.set_self, rc_add_ref, r1, add_one_mod _ (by omega)]
  rw [e1]
  show d = d ∧ (Heap.set h d (b.policy_type.add_ref (h d)).2 d).rc = (h d).rc + 1 ∧
    (std.dynamic_pointer_cast b.policy_type is_Derived d
      (Heap.set h d (b.policy_type.add_ref (h d)).2)).1 = d ∧
    refc_ptr.eq (std.dynamic_pointer_cast b.policy_type is_Derived d
      (Heap.set h d (b.policy_type.add_ref (h d)).2)).1 d = true ∧
    ((std.dynamic_pointer_cast b.policy_type is_Derived d
      (Heap.set h d (b.policy_type.add_ref (h d)).2)).2 d).rc = (h d).rc + 2 ∧
    ((h d).rc = 1 →
      (Heap.set h d (b.policy_type.add_ref (h d)).2 d).rc = 2 ∧
      ((std.dynamic_pointer_cast b.policy_type is_Derived d
        (Heap.set h d (b.policy_type.add_ref (h d)).2)).2 d).rc = 3)
  rw [e2]
  refine ⟨rfl, r1, rfl, ?_, r2, fun h1 => ⟨?_, ?_⟩⟩
  · simp [refc_ptr.eq]
  · rw [r1, h1]
  · show (Heap.set (Heap.set h d (b.policy_type.add_ref (h d)).2) d
      (b.policy_type.add_ref (Heap.set h d (b.policy_type.add_ref (h d)).2 d)).2 d).rc = 3
    rw [r2, h1]

theorem cast_round_trip_witness :
    ((refc_ptr.conv_copy Base.refc.policy_type 7 (final Base.refc [Op.ctor 7 true]).heap).2
        7).refcount = 2 ∧
      ((std.dynamic_pointer_cast Base.refc.policy_type (fun _ => true)
        (refc_ptr.conv_copy Base.refc.policy_type 7 (final Base.refc [Op.ctor 7 true]).heap).1
        (refc_ptr.conv_copy Base.refc.policy_type 7 (final Base.refc [Op.ctor 7 true]).heap).2).2
          7).refcount = 3 :=
  (cast_round_trip Base.refc (fun _ => true) 7 (final Base.refc [Op.ctor 7 true]).heap
    (by decide) rfl (by decide)).2.2.2.2.2 (by decide)

/-- C24.  `shared_from_this`.  Called on the object at a non-null address `this` with
strong count `n ≥ 1` (and `n + 1` an `unsigned long`), it returns a non-null handle
whose address is `this`; its only effect is the policy's `add_ref` on that object,
so the strong count is `n + 1`, for a weak-capable object the weak count is one
higher too (in `unsigned long` arithmetic), and nothing is destroyed.  Destroying
the returned handle brings the strong count back to `n` and runs no destructor;
with a consistent weak count (or a strong-only type) the heap is again the one
before the call. -/
theorem shared_from_this_spec (b : Base) (this : Nat) (h : Heap) (hthis : this ≠ 0)
    (h1 : 1 ≤ (h this).rc) (hfit : (h this).rc + 1 < ULONG_MOD) :
    (refc.shared_from_this b.policy_type this h).1 = this ∧
    refc_ptr.toBool (refc.shared_from_this b.policy_type this h).1 = true ∧
    (refc.shared_from_this b.policy_type this h).2 =
      Heap.set h this (b.policy_type.add_ref (h this)).2 ∧
    ((refc.shared_from_this b.policy_type this h).2 this).refcount = (h this).refcount + 1 ∧
    ((refc.shared_from_this b.policy_type this h).2 this).log = (h this).log ∧
    (b = Base.refc_weak_base →
      ((refc.shared_from_this b.policy_type this h).2 this).weak_rc =
        ((h this).weak_rc + 1) % ULONG_MOD) ∧
    (refc_ptr.dtor b.policy_type (refc.shared_from_this b.policy_type this h).1
      (refc.shared_from_this b.policy_type this h).2 this).refcount = (h this).refcount ∧
    (refc_ptr.dtor b.policy_type (refc.shared_from_this b.policy_type this h).1
      (refc.shared_from_this b.policy_type this h).2 this).dtor_runs = (h this).dtor_runs ∧
    (b = Base.refc ∨ (1 ≤ (h this).weak_rc ∧ (h this).weak_rc + 1 < ULONG_MOD) →
      refc_ptr.dtor b.policy_type (refc.shared_from_this b.policy_type this h).1
        (refc.shared_from_this b.policy_type this h).2 = h) := by
  have e : refc.shared_from_this b.policy_type this h =
      (this, Heap.set h this (b.policy_type.add_ref (h this)).2) :=
    ctor_true _ this h hthis
  have e2 : refc_ptr.dtor b.policy_type this
      (Heap.set h this (b.policy_type.add_ref (h this)).2) =
      Heap.set h this (b.policy_type.release (b.policy_type.add_ref (h this)).2) :=
    dtor_set _ this h _ hthis
  rw [e]
  show this = this ∧ refc_ptr.toBool this = true ∧
    Heap.set h this (b.policy_type.add_ref (h this)).2 =
      Heap.set h this (b.policy_type.add_ref (h this)).2 ∧
    (Heap.set h this (b.policy_type.add_ref (h this)).2 this).rc = (h this).rc + 1 ∧
    (Heap.set h this (b.policy_type.add_ref (h this)).2 this).log = (h this).log ∧
    (b = Base.refc_weak_base →
      (Heap.set h this (b.policy_type.add_ref (h this)).2 this).weak_rc =
        ((h this).weak_rc + 1) % ULONG_MOD) ∧
    (refc_ptr.dtor b.policy_type this
      (Heap.set h this (b.policy_type.add_ref (h this)).2) this).rc = (h this).rc ∧
    (refc_ptr.dtor b.policy_type this
      (Heap.set h this (b.policy_type.add_ref (h this)).2) this).dtor_runs =
        (h this).dtor_runs ∧
    (b = Base.refc ∨ (1 ≤ (h this).weak_rc ∧ (h this).weak_rc + 1 < ULONG_MOD) →
      refc_ptr.dtor b.policy_type this
        (Heap.set h this (b.policy_type.add_ref (h this)).2) = h)
  rw [e2]
  refine ⟨rfl, ?_, rfl, ?_, ?_, fun hb => ?_, ?_, ?_, fun hw => ?_⟩
  · simp [refc_ptr.toBool, hthis]
  · rw [Heap.set_self, rc_add_ref, add_one_mod _ hfit]
  · rw [Heap.set_self, log_add_ref]
  · subst hb
    rw [Heap.set_self]
    exact weak_strong_add_ref _
  · rw [Heap.set_self, release_add_ref_rc b (h this) hfit]
  · rw [Heap.set_self, release_add_ref_dtor_runs b (h this) h1 hfit]
  · rw [release_add_ref b (h this) h1 hfit hw, Heap.set_same]

theorem shared_from_this_spec_witness :
    ((refc.shared_from_this Base.refc_weak_base.policy_type 7
        (final Base.refc_weak_base prog_two).heap).2 7).refcount =
      ((final Base.refc_weak_base prog_two).heap 7).refcount + 1 ∧
    ((final Base.refc_weak_base prog_two).heap 7).refcount = 1 :=
  ⟨(shared_from_this_spec Base.refc_weak_base 7 (final Base.refc_weak_base prog_two).heap
      (by decide) (by decide) (by decide)).2.2.2.1, by decide⟩

/-- C25.  No use-after-free under races.  Start from threads that own any numbers of
`refc_ptr` and `refc_weak_ptr` handles to a live weak-capable object, and let them
copy, `lock()` and destroy their handles, the atomic steps of the policy functions
interleaved in any order (the counters not overflowing).  In every state reached:
the strong count is the number of `refc_ptr`s owned and the weak count the number
of handles owned plus the calls in progress; as long as any thread owns a
`refc_ptr` the destructor has not run and no thread is about to run it; a step of
`lock()` at its loop either succeeds (the count it read was at least 1 and is still
the count, which becomes one more, the thread owns one more `refc_ptr`, and the
object is alive), or goes round again changing nothing, or gives up having read 0
(the strong count is untouched and the weak count is back down by the one the call
had added); and once the strong count has been 0 it stays 0 and no thread owns a
`refc_ptr`, so no `lock()` succeeds afterwards. -/
theorem lock_race_safe (handles : List (Nat × Nat)) (ps : List Pick) (st : Conc)
    (hlive : 1 ≤ total Thread.strong (handles.map Thread.idle))
    (hfit : total Thread.weak_units (handles.map Thread.idle) + ps.length + 1 < ULONG_MOD)
    (hrun : Conc.run (Conc.init handles) ps = some st) :
    (st.obj.rc = total Thread.strong st.threads ∧
      st.obj.weak_rc = total Thread.weak_units st.threads) ∧
    (∀ t ∈ st.threads, 1 ≤ t.strong →
      st.obj.log = [] ∧ total Thread.destroying st.threads = 0 ∧ 1 ≤ st.obj.rc) ∧
    (∀ (i : Nat) (c : Call) (sp : Bool) (t : Thread) (r : Nat) (st1 : Conc),
      st.threads[i]? = some t → t.pc = Pc.try_ref_loop r →
      Conc.step st ⟨i, c, sp⟩ = some st1 →
      (1 ≤ r ∧ st.obj.rc = r ∧ st1.obj.rc = r + 1 ∧ st1.obj.weak_rc = st.obj.weak_rc ∧
        st1.obj.log = [] ∧
        st1.threads[i]? = some { pc := Pc.idle, strong := t.strong + 1, weak := t.weak }) ∨
      (1 ≤ r ∧ st1.obj = st.obj ∧
        st1.threads[i]? =
          some { pc := Pc.try_ref_loop st.obj.rc, strong := t.strong, weak := t.weak }) ∨
      (r = 0 ∧ st1.obj.rc = st.obj.rc ∧ st1.obj.weak_rc + 1 = st.obj.weak_rc ∧
        st1.obj.log = st.obj.log ∧
        st1.threads[i]? = some { pc := Pc.idle, strong := t.strong, weak := t.weak })) ∧
    (∀ (ps1 ps2 : List Pick) (mid : Conc), ps = ps1 ++ ps2 →
      Conc.run (Conc.init handles) ps1 = some mid → mid.obj.rc = 0 →
      st.obj.rc = 0 ∧ ∀ t ∈ st.threads, t.strong = 0) := by
  have hinit := Conc.inv_init handles hlive
  have hW0 : total Thread.weak_units (Conc.init handles).threads =
      total Thread.weak_units (handles.map Thread.idle) := rfl
  obtain ⟨hinv, hbound⟩ := Conc.inv_run ps (Conc.init handles) st hinit (by omega) hrun
  have hrc : st.obj.rc = total Thread.strong st.threads ∧
      st.obj.weak_rc = total Thread.weak_units st.threads := by
    obtain ⟨-, dr, fr, h1, h2, -⟩ := hinv
    exact ⟨h1, h2⟩
  refine ⟨hrc, fun t ht hs => Conc.inv_alive st hinv t ht hs, ?_, ?_⟩
  · intro i c sp t r st1 hi hpc hstep
    obtain ⟨t0, res, hg, hs, rfl⟩ := Conc.step_some st st1 ⟨i, c, sp⟩ hstep
    have e : t0 = t := by
      have : some t0 = some t := hg.symm.trans hi
      exact Option.some.inj this
    subst e
    have hset : (st.threads.set i res.2)[i]? = some res.2 := getElem?_set_same _ _ _ _ hi
    have hwfit : st.obj.weak_rc + 1 < ULONG_MOD := by omega
    have hle := Conc.inv_le st hinv
    have lw := le_total Thread.weak_units st.threads i t0 hi
    have hwu : 1 ≤ t0.weak_units := by
      simp only [Thread.weak_units, hpc]
      omega
    rcases Thread.step_lock st.obj res.1 t0 res.2 c sp r hpc hs with
      ⟨h1, h2, -, h4, h5⟩ | ⟨h1, h2, h3⟩ | ⟨h1, h2, h3⟩
    · left
      have hnew := (Conc.inv_step st _ ⟨i, c, sp⟩ hinv (by omega) hstep).1
      have hlog : res.1.log = [] := by
        have hm : res.2 ∈ st.threads.set i res.2 := List.getElem?_mem hset
        exact (Conc.inv_alive _ hnew res.2 hm (by rw [h5]; exact Nat.le_add_left 1 _)).1
      refine ⟨h1, h2, ?_, ?_, hlog, ?_⟩
      · show res.1.rc = r + 1
        rw [h4]
        exact add_one_mod r (by omega)
      · show res.1.weak_rc = st.obj.weak_rc
        rw [h4]
      · show (st.threads.set i res.2)[i]? = _
        rw [hset, h5]
    · right; left
      refine ⟨h1, h2, ?_⟩
      show (st.threads.set i res.2)[i]? = _
      rw [hset, h3]
    · right; right
      refine ⟨h1, ?_, ?_, ?_, ?_⟩
      · show res.1.rc = st.obj.rc
        rw [h2]
      · show res.1.weak_rc + 1 = st.obj.weak_rc
        rw [h2]
        show (fetch_sub st.obj.weak_rc).2 + 1 = st.obj.weak_rc
        rw [fetch_sub_snd_pos _ (by omega) (by omega)]
        omega
      · show res.1.log = st.obj.log
        rw [h2]
      · show (st.threads.set i res.2)[i]? = _
        rw [hset, h3]
  · intro ps1 ps2 mid hps hmid h0
    subst hps
    rw [Conc.run_append, hmid] at hrun
    simp only [List.length_append] at hfit
    obtain ⟨hinvm, hbm⟩ := Conc.inv_run ps1 (Conc.init handles) mid hinit (by omega) hmid
    have hz := Conc.rc_zero_run ps2 mid st hinvm (by omega) hrun h0
    refine ⟨hz, ?_⟩
    exact total_eq_zero Thread.strong st.threads (by omega)

theorem lock_race_safe_witness :
    ((final_conc [(1, 0), (0, 1)] sched_lock).obj.rc =
        total Thread.strong (final_conc [(1, 0), (0, 1)] sched_lock).threads ∧
      (final_conc [(1, 0), (0, 1)] sched_lock).obj.weak_rc =
        total Thread.weak_units (final_conc [(1, 0), (0, 1)] sched_lock).threads) ∧
    Conc.step (final_conc [(1, 0), (0, 1)] sched_lock) ⟨1, Call.try_ref, false⟩ =
      some { obj := { rc := 2, weak_rc := 3, log := [] },
             threads := [⟨Pc.idle, 1, 0⟩, ⟨Pc.idle, 1, 1⟩] } :=
  ⟨(lock_race_safe [(1, 0), (0, 1)] sched_lock (final_conc [(1, 0), (0, 1)] sched_lock)
      (by decide) (by decide) (by decide)).1, by decide⟩

/-- C26.  Exactly-once under interleaving.  Start from threads that own any numbers of
`refc_ptr` and `refc_weak_ptr` handles to a live weak-capable object (at least one
`refc_ptr`), and let them copy, `lock()` and destroy their handles, the atomic steps
of the policy functions, the destructor call and the deallocation interleaved in any
order (the counters not overflowing).  In every state reached the log of destructive
actions is empty, or the destructor alone, or the destructor followed by the
deallocation: neither happens twice and the free never precedes the destructor; at
most one thread is about to run the destructor and at most one about to free, and
none once it has been done.  When every call is finished and every handle destroyed
the destructor has run exactly once and the storage has been freed exactly once, and
from every state reached the threads can run on to such a state.  Once the storage
is freed no thread owns a handle or has a step left. -/
theorem exactly_once_interleaved (handles : List (Nat × Nat)) (ps : List Pick) (st : Conc)
    (hlive : 1 ≤ total Thread.strong (handles.map Thread.idle))
    (hfit : total Thread.weak_units (handles.map Thread.idle) + ps.length + 1 < ULONG_MOD)
    (hrun : Conc.run (Conc.init handles) ps = some st) :
    (st.obj.log = [] ∨ st.obj.log = [Event.destroyed] ∨
      st.obj.log = [Event.destroyed, Event.deallocated]) ∧
    (st.obj.dtor_runs + total Thread.destroying st.threads ≤ 1 ∧
      st.obj.frees + total Thread.freeing st.threads ≤ 1) ∧
    ((∀ t ∈ st.threads, t = { pc := Pc.idle, strong := 0, weak := 0 }) →
      st.obj.dtor_runs = 1 ∧ st.obj.frees = 1 ∧
      st.obj.log = [Event.destroyed, Event.deallocated]) ∧
    (∃ ps2 st2, Conc.run (Conc.init handles) (ps ++ ps2) = some st2 ∧
      (∀ t ∈ st2.threads, t = { pc := Pc.idle, strong := 0, weak := 0 }) ∧
      st2.obj.log = [Event.destroyed, Event.deallocated]) ∧
    (Event.deallocated ∈ st.obj.log →
      (∀ t ∈ st.threads, t = { pc := Pc.idle, strong := 0, weak := 0 }) ∧
      ∀ p, Conc.step st p = none) := by
  have hinit := Conc.inv_init handles hlive
  have hW0 : total Thread.weak_units (Conc.init handles).threads =
      total Thread.weak_units (handles.map Thread.idle) := rfl
  obtain ⟨hinv, hbound⟩ := Conc.inv_run ps (Conc.init handles) st hinit (by omega) hrun
  refine ⟨?_, ?_, ?_, ?_, Conc.inv_freed st hinv⟩
  · rcases Conc.inv_log st hinv with ⟨h1, -⟩ | ⟨h1, -⟩ | ⟨h1, -⟩
    · exact Or.inl h1
    · exact Or.inr (Or.inl h1)
    · exact Or.inr (Or.inr h1)
  · rcases Conc.inv_log st hinv with ⟨h1, h2, h3⟩ | ⟨h1, h2, h3, h4⟩ | ⟨h1, h2, h3, h4, h5⟩
    · obtain ⟨-, dr, fr, e1, e2, e3, n1, n2, n3, n4⟩ := hinv
      simp only [Obj.dtor_runs, Obj.frees, h1, List.count_nil]
      exact ⟨by omega, by omega⟩
    · obtain ⟨-, dr, fr, e1, e2, e3, n1, n2, n3, n4⟩ := hinv
      have c1 : [Event.destroyed].count Event.destroyed = 1 := by decide
      have c2 : [Event.destroyed].count Event.deallocated = 0 := by decide
      simp only [Obj.dtor_runs, Obj.frees, h1, c1, c2]
      exact ⟨by omega, by omega⟩
    · have c1 : [Event.destroyed, Event.deallocated].count Event.destroyed = 1 := by decide
      have c2 : [Event.destroyed, Event.deallocated].count Event.deallocated = 1 := by decide
      simp only [Obj.dtor_runs, Obj.frees, h1, c1, c2]
      exact ⟨by omega, by omega⟩
  · intro hall
    have hlog := Conc.quiescent_log st hinv hall
    refine ⟨?_, ?_, hlog⟩
    · simp only [Obj.dtor_runs, hlog]
      decide
    · simp only [Obj.frees, hlog]
      decide
  · obtain ⟨ps2, st2, hrun2, hinv2, hall2⟩ := Conc.drain st hinv (by omega)
    refine ⟨ps2, st2, ?_, hall2, Conc.quiescent_log st2 hinv2 hall2⟩
    rw [Conc.run_append, hrun]
    exact hrun2

theorem exactly_once_interleaved_witness :
    (final_conc [(1, 0), (0, 1)] sched_race).obj.dtor_runs = 1 ∧
    (final_conc [(1, 0), (0, 1)] sched_race).obj.frees = 1 ∧
    (final_conc [(1, 0), (0, 1)] sched_race).obj.log = [Event.destroyed, Event.deallocated] :=
  (exactly_once_interleaved [(1, 0), (0, 1)] sched_race (final_conc [(1, 0), (0, 1)] sched_race)
    (by decide) (by decide) (by decide)).2.2.1 (by decide)

/-- C27 (the code differs from the claim).  The ordering contract "decrement with
release ordering, then an acquire fence, then the destructive action" holds on two
of the four decrement-to-zero paths and fails on the other two.  It holds for
`refc_policy::release` (before `delete p`) and for the strong half of
`strong_refc_policy::release` (before `std::destroy_at`).  It fails where the weak
count goes to zero: in `weak_refc_policy::release` no fence is executed at all, and
in `strong_refc_policy::release` no fence follows the decrement of `weak_rc`, so
`::operator delete` runs with no acquire fence after the decrement.  The paths list
exactly the destructive actions of the policy functions. -/
theorem fence_contract :
    Instr.fenced Counter.rc Instr.delete (refc_policy.release_path 1) ∧
    (∀ wprev : Nat,
      Instr.fenced Counter.rc Instr.destroy_at (strong_refc_policy.release_path 1 wprev)) ∧
    (Instr.operator_delete ∈ weak_refc_policy.release_path 1 ∧
      Instr.atomic_thread_fence memory_order.acquire ∉ weak_refc_policy.release_path 1 ∧
      ¬ Instr.fenced Counter.weak_rc Instr.operator_delete (weak_refc_policy.release_path 1)) ∧
    (∀ prev : Nat,
      Instr.operator_delete ∈ strong_refc_policy.release_path prev 1 ∧
      ¬ Instr.fenced Counter.weak_rc Instr.operator_delete
        (strong_refc_policy.release_path prev 1)) ∧
    (∀ x : Obj,
      (refc_policy.release x).log = x.log ++ path_events (refc_policy.release_path x.rc) ∧
      (weak_refc_policy.release x).log =
        x.log ++ path_events (weak_refc_policy.release_path x.weak_rc) ∧
      (strong_refc_policy.release x).log =
        x.log ++ path_events (strong_refc_policy.release_path x.rc x.weak_rc)) := by
  refine ⟨by decide, fun wprev => ?_, by decide, fun prev => ?_, fun x =>
    ⟨refc_release_path_log x, weak_release_path_log x, strong_release_path_log x⟩⟩
  · by_cases h : wprev = 1
    · subst h; decide
    · simp only [strong_refc_policy.release_path, h, if_true, if_false]
      decide
  · by_cases h : prev = 1
    · subst h; decide
    · simp only [strong_refc_policy.release_path, h, if_true, if_false]
      decide

open mach_absolute_time_clock

/-- C28 (the code differs from the claim).  `half_place_mask` is written
`(1ll < (fixed_point_scale - 1))`, a comparison, so its value is 1 and not
`2 ^ 31`.  Hence `to_nanoseconds` and `from_nanoseconds` on non-negative arguments
add one to the shifted product exactly when the product is odd, not when bit 31 of
it is set: for the product 1 the code gives 1 where rounding at bit 31 gives 0, and
for the product `2 ^ 31` the code gives 0 where rounding at bit 31 gives 1. -/
theorem half_place_mask_value :
    half_place_mask = 1 ∧
    half_place_mask ≠ 2 ^ (fixed_point_scale - 1) ∧
    (∀ factor ticks : Int, 0 ≤ factor → 0 ≤ ticks →
      to_nanoseconds factor ticks =
        int64_cast ((ticks * factor) >>> 32 + (ticks * factor) % 2) ∧
      from_nanoseconds factor ticks =
        int64_cast ((ticks * factor) >>> 32 + (ticks * factor) % 2)) ∧
    (to_nanoseconds 1 1 = 1 ∧ convert (2 ^ 31) 1 1 = 0) ∧
    (to_nanoseconds (2 ^ 31) 1 = 0 ∧ convert (2 ^ 31) (2 ^ 31) 1 = 1) ∧
    (from_nanoseconds 1 1 = 1 ∧ from_nanoseconds (2 ^ 31) 1 = 0) := by
  refine ⟨by decide, by decide, fun factor ticks hf ht => ?_, by decide, by decide, by decide⟩
  have key : convert half_place_mask factor ticks =
      int64_cast ((ticks * factor) >>> 32 + (ticks * factor) % 2) := by
    have hm : half_place_mask = 1 := by decide
    obtain ⟨m, hmul⟩ := Int.eq_ofNat_of_zero_le (Int.mul_nonneg ht hf)
    simp only [convert, fixed_point_scale, hm, hmul]
    rw [convert_one m]
    norm_cast
  exact ⟨key, key⟩

theorem half_place_mask_value_witness :
    to_nanoseconds 1431655765 2 = int64_cast ((2 * 1431655765) >>> 32 + (2 * 1431655765) % 2) :=
  (half_place_mask_value.2.2.1 1431655765 2 (by decide) (by decide)).1

/-- C29 (the code differs from the claim).  With the mask of the code the clock is not
steady: for the timebase `numer = 1`, `denom = 3` the factor is
`floor(2^32 / 3) = 1431655765`, and `to_nanoseconds` gives 1 for one tick and 0 for
two ticks.  The same conversion with the mask `2 ^ 31` that the comment describes is
non-decreasing on non-negative ticks, for every non-negative factor, as long as the
results fit `int64_t`. -/
theorem to_nanoseconds_not_steady :
    nanoseconds_per_tick_scaled 1 3 = some 1431655765 ∧
    to_nanoseconds 1431655765 1 = 1 ∧
    to_nanoseconds 1431655765 2 = 0 ∧
    ¬ (∀ a b : Int, 0 ≤ a → a ≤ b →
        to_nanoseconds 1431655765 a ≤ to_nanoseconds 1431655765 b) ∧
    (∀ factor a b : Int, 0 ≤ factor → 0 ≤ a → a ≤ b → b * factor < 2 ^ 94 →
      convert (2 ^ 31) factor a ≤ convert (2 ^ 31) factor b) := by
  refine ⟨by decide, by decide, by decide, fun h => ?_, fun factor a b hf ha hab hfit => ?_⟩
  · have := h 1 2 (by decide) (by decide)
    revert this
    decide
  · have hb : 0 ≤ b := le_trans ha hab
    have hle : a * factor ≤ b * factor := Int.mul_le_mul_of_nonneg_right hab hf
    obtain ⟨m, hm⟩ := Int.eq_ofNat_of_zero_le (Int.mul_nonneg ha hf)
    obtain ⟨n, hn⟩ := Int.eq_ofNat_of_zero_le (Int.mul_nonneg hb hf)
    have hmn : m ≤ n := by
      rw [hm, hn] at hle
      exact_mod_cast hle
    have hnfit : n < 2 ^ 94 := by
      rw [hn] at hfit
      exact_mod_cast hfit
    have e : ∀ k : Nat, k < 2 ^ 94 →
        int64_cast (((k : Int) >>> fixed_point_scale) +
          (if Int.land (k : Int) (2 ^ 31) ≠ 0 then (1 : Int) else 0)) =
        (((k + 2 ^ 31) / 2 ^ 32 : Nat) : Int) := by
      intro k hk
      rw [fixed_point_scale, shiftRight_natCast, convert_half]
      apply int64_cast_of_lt
      · exact Int.ofNat_nonneg _
      · have : (k + 2 ^ 31) / 2 ^ 32 < 2 ^ 63 := by omega
        exact_mod_cast this
    simp only [convert, hm, hn]
    rw [e m (lt_of_le_of_lt hmn hnfit), e n hnfit]
    have : (m + 2 ^ 31) / 2 ^ 32 ≤ (n + 2 ^ 31) / 2 ^ 32 :=
      Nat.div_le_div_right (by omega)
    exact_mod_cast this

theorem to_nanoseconds_not_steady_witness :
    convert (2 ^ 31) 1431655765 1 ≤ convert (2 ^ 31) 1431655765 2 :=
  to_nanoseconds_not_steady.2.2.2.2 1431655765 1 2 (by decide) (by decide) (by decide)
    (by norm_num)

/-- C30.  A strong release on a weak-capable object frees the storage exactly when the
weak count was 1 before its decrement.  When the strong counter alone of a fresh
object is bumped and the address is adopted with `ref = false` (the test
`pointer_constructor`), the object has strong count 1 and weak count 0; destroying
the handle runs the destructor, does not free the storage, and leaves the weak
count at `2^64 - 1`.  From there no sequence of up to `2^64 - 2` further calls of
`release`, of either policy, frees the storage. -/
theorem adopted_release_leaks (p : Nat) (h : Heap) (hp : p ≠ 0) (hfresh : h p = Obj.fresh) :
    (∀ x : Obj,
      (strong_refc_policy.release x).frees = x.frees + (if x.weak_rc = 1 then 1 else 0)) ∧
    Heap.set h p (base_t.refcount_ref_incr (h p)) p = { rc := 1, weak_rc := 0, log := [] } ∧
    refc_ptr.ctor Base.refc_weak_base.policy_type p false
        (Heap.set h p (base_t.refcount_ref_incr (h p))) =
      (p, Heap.set h p (base_t.refcount_ref_incr (h p))) ∧
    refc_ptr.dtor Base.refc_weak_base.policy_type p
        (Heap.set h p (base_t.refcount_ref_incr (h p))) p =
      { rc := 0, weak_rc := ULONG_MOD - 1, log := [Event.destroyed] } ∧
    (refc_ptr.dtor Base.refc_weak_base.policy_type p
        (Heap.set h p (base_t.refcount_ref_incr (h p))) p).dtor_runs = 1 ∧
    (refc_ptr.dtor Base.refc_weak_base.policy_type p
        (Heap.set h p (base_t.refcount_ref_incr (h p))) p).frees = 0 ∧
    (∀ rs : List Bool, rs.length ≤ ULONG_MOD - 2 →
      (release_all rs (refc_ptr.dtor Base.refc_weak_base.policy_type p
        (Heap.set h p (base_t.refcount_ref_incr (h p))) p)).frees = 0) := by
  have e1 : Heap.set h p (base_t.refcount_ref_incr (h p)) p =
      { rc := 1, weak_rc := 0, log := [] } := by
    rw [Heap.set_self, hfresh]
    decide
  have e2 : refc_ptr.dtor Base.refc_weak_base.policy_type p
      (Heap.set h p (base_t.refcount_ref_incr (h p))) p =
      { rc := 0, weak_rc := ULONG_MOD - 1, log := [Event.destroyed] } := by
    rw [dtor_apply _ _ _ _ hp, if_pos rfl, e1]
    exact release_adopted
  refine ⟨frees_strong_release, e1, ctor_false _ _ _, e2, ?_, ?_, fun rs hrs => ?_⟩
  · rw [e2]; rfl
  · rw [e2]; rfl
  · rw [e2, release_all_frees rs _ ?_ ?_]
    · rfl
    · show rs.length + 1 ≤ ULONG_MOD - 1
      have hM : 2 ≤ ULONG_MOD := by rw [ULONG_MOD_eq]; decide
      omega
    · show ULONG_MOD - 1 < ULONG_MOD
      have := ULONG_MOD_pos
      omega

theorem adopted_release_leaks_witness :
    refc_ptr.dtor Base.refc_weak_base.policy_type 7
        (Heap.set Heap.fresh 7 (base_t.refcount_ref_incr (Heap.fresh 7))) 7 =
      { rc := 0, weak_rc := ULONG_MOD - 1, log := [Event.destroyed] } ∧
    (release_all [true, false] (refc_ptr.dtor Base.refc_weak_base.policy_type 7
        (Heap.set Heap.fresh 7 (base_t.refcount_ref_incr (Heap.fresh 7))) 7)).frees = 0 :=
  ⟨(adopted_release_leaks 7 Heap.fresh (by decide) rfl).2.2.2.1,
   (adopted_release_leaks 7 Heap.fresh (by decide) rfl).2.2.2.2.2.2 [true, false] (by decide)⟩

end Refc
